import Mathlib

/-!
# n2d: topology inspection and bake kernels

A shallow embedding of `src/io/inspect.cpp` (`GuessYDown`, `AccumulateOrientation`,
`InspectMesh`) and of the kernels exercised by `tests/unit/bake_tests.cpp` and
`tests/unit/inspect_tests.cpp` (`DecodeXY`, `SolvePoisson`, the `<UDIM>` expansion loop).

Conventions of the embedding:
* the code of `inspect.cpp` is written once, over the operations it performs on `float`,
  `double` and `int` (`Arith`); `binary32Arith` interprets them as the machine does
  (IEEE-754 binary32 and binary64, round to nearest, ties to even; `int` arithmetic wraps
  modulo `2^32`; `static_cast<int>` truncates), `exactArith` without rounding on `ℚ`;
* the 64-bit cell key is computed with explicit reductions modulo `2^64`/`2^32`;
* the bake kernels live in an ordered field, instantiated at `ℝ` where `sqrt`/`sin` are
  involved;
* the Assimp scene and the OpenImageIO image are plain records holding what the code reads.
-/

namespace n2d

/-! ## Machine arithmetic -/

/-- Two's-complement wrap of an integer to the 32-bit `int` range. -/
def wrap32 (z : Int) : Int := (z + 2 ^ 31) % 2 ^ 32 - 2 ^ 31

/-- A value representable as a 32-bit `int`. -/
def inInt32 (z : Int) : Prop := -2 ^ 31 ≤ z ∧ z < 2 ^ 31

/-- The integer part of a rational, rounded toward zero (the direction of `static_cast<int>`). -/
def truncInt (q : ℚ) : Int := if 0 ≤ q then ⌊q⌋ else ⌈q⌉

/-- The conversion to `int` of a number with integer part `z`: the value itself when it fits, and
`INT_MIN` otherwise (the result of the x86 conversion instruction; the C++ standard leaves
it undefined). -/
def castInt (z : Int) : Int := if -2 ^ 31 ≤ z ∧ z < 2 ^ 31 then z else -2 ^ 31

/-- A binary floating-point datum: a finite value, an infinity or a NaN. The two zeros are
identified: the embedded code never divides by a zero it computed and never reads a sign
bit. -/
inductive FP where
  | fin (q : ℚ)
  | inf (negative : Bool)
  | nan
deriving DecidableEq

/-- A binary interchange format: `prec` significand bits (hidden bit included) and the
largest exponent `emax`; the smallest normal exponent is `1 - emax`. -/
structure Format where
  prec : Nat
  emax : Int

/-- IEEE-754 binary32, the C++ `float`. -/
def binary32 : Format := ⟨24, 127⟩

/-- IEEE-754 binary64, the C++ `double`. -/
def binary64 : Format := ⟨53, 1023⟩

/-- The power `2 ^ k` for an integer exponent. -/
def pow2 (k : Int) : ℚ :=
  if 0 ≤ k then ((2 ^ k.toNat : Nat) : ℚ) else 1 / ((2 ^ (-k).toNat : Nat) : ℚ)

/-- The number of binary digits of `n`, by repeated halving (`fuel` bounds the number of
halvings). -/
def bitLength : Nat → Nat → Nat
  | 0, _ => 0
  | fuel + 1, n => if n = 0 then 0 else bitLength fuel (n / 2) + 1

/-- The exponent `e` with `2 ^ e <= a < 2 ^ (e + 1)` of a positive rational `a`. -/
def ilog2 (a : ℚ) : Int :=
  let k : Int := (bitLength a.num.toNat a.num.toNat : Int) - (bitLength a.den a.den : Int)
  if pow2 k ≤ a then k else k - 1

/-- Rounding of a non-negative rational to the nearest integer, ties to even. -/
def roundEven (n : ℚ) : Int :=
  let f := ⌊n⌋
  if n - f < 1 / 2 then f
  else if 1 / 2 < n - f then f + 1
  else if f % 2 = 0 then f else f + 1

namespace Format

/-- The unit in the last place at a positive magnitude `a`: `2 ^ (e - prec + 1)` with the
exponent `e` of `a`, not below the smallest normal exponent (subnormal range). -/
def ulp (fmt : Format) (a : ℚ) : ℚ := pow2 (max (ilog2 a) (1 - fmt.emax) - (fmt.prec - 1))

/-- Round-to-nearest, ties-to-even, of a positive magnitude (no overflow check). -/
def roundMag (fmt : Format) (a : ℚ) : ℚ := roundEven (a / fmt.ulp a) * fmt.ulp a

/-- The correctly rounded result of an exact value `q` (default rounding mode): the nearest
representable number, ties to even, and an infinity when that reaches `2 ^ (emax + 1)`. -/
def round (fmt : Format) (q : ℚ) : FP :=
  if q = 0 then .fin 0
  else if pow2 (fmt.emax + 1) ≤ fmt.roundMag |q| then .inf (decide (q < 0))
  else if q < 0 then .fin (-fmt.roundMag |q|) else .fin (fmt.roundMag |q|)

/-- The finite value `q` is a number of the format. -/
def representable (fmt : Format) (x : FP) : Bool :=
  match x with
  | .fin q => decide (fmt.round q = .fin q)
  | _ => true

end Format

namespace FP

/-- Negation (exact). -/
def neg : FP → FP
  | fin q => fin (-q)
  | inf s => inf (!s)
  | nan => nan

/-- The function `std::abs` (exact). -/
def abs : FP → FP
  | fin q => fin |q|
  | inf _ => inf false
  | nan => nan

/-- Addition, correctly rounded. -/
def add (fmt : Format) : FP → FP → FP
  | fin a, fin b => fmt.round (a + b)
  | fin _, inf s => inf s
  | inf s, fin _ => inf s
  | inf s, inf s' => if s = s' then inf s else nan
  | _, _ => nan

/-- Subtraction, correctly rounded: `a - b` is `a + (-b)`. -/
def sub (fmt : Format) (a b : FP) : FP := add fmt a (neg b)

/-- Multiplication, correctly rounded. -/
def mul (fmt : Format) : FP → FP → FP
  | fin a, fin b => fmt.round (a * b)
  | fin a, inf s => if a = 0 then nan else inf (xor s (decide (a < 0)))
  | inf s, fin b => if b = 0 then nan else inf (xor s (decide (b < 0)))
  | inf s, inf s' => inf (xor s s')
  | _, _ => nan

/-- Division, correctly rounded. -/
def div (fmt : Format) : FP → FP → FP
  | fin a, fin b =>
    if b = 0 then (if a = 0 then nan else inf (decide (a < 0))) else fmt.round (a / b)
  | fin _, inf _ => fin 0
  | inf s, fin b => inf (xor s (decide (b < 0)))
  | _, _ => nan

/-- The function `std::floor` (exact: the floor of a number of the format is one). -/
def floor : FP → FP
  | fin q => fin ⌊q⌋
  | x => x

/-- The comparison `a < b`; false when an operand is a NaN. -/
def lt : FP → FP → Bool
  | fin a, fin b => decide (a < b)
  | fin _, inf s => !s
  | inf s, fin _ => s
  | inf s, inf s' => s && !s'
  | _, _ => false

/-- The conversion `static_cast<int>`: truncation toward zero; an out-of-range value, an
infinity or a NaN gives `INT_MIN`. -/
def toInt : FP → Int
  | fin q => castInt (truncInt q)
  | _ => -2 ^ 31

end FP

/-! ## The arithmetic of the inspected code

`InspectMesh` computes on `float` (UV coordinates, positions), on `double` (the green sum of
`GuessYDown`) and on `int`. The embedding of the code is written once, over the operations
it uses; `binary32Arith` interprets them as the machine does, `exactArith` without rounding. -/

/-- The operations the code performs on `float` values (type `F`) and `double` values
(type `D`). -/
structure Arith (F D : Type) where
  /-- The conversion of an `int` constant or value to `float` (`0`, `1.0f`, `3.0f`, `grid`). -/
  ofInt : Int → F
  /-- The literal `1e-8f`. -/
  eps : F
  add : F → F → F
  sub : F → F → F
  mul : F → F → F
  div : F → F → F
  neg : F → F
  abs : F → F
  floor : F → F
  lt : F → F → Bool
  /-- The conversion `static_cast<int>`. -/
  toInt : F → Int
  /-- The result of `static_cast<int>` is an `int`. -/
  toInt_range : ∀ x, -2 ^ 31 ≤ toInt x ∧ toInt x < 2 ^ 31
  /-- The promotion `float -> double` in `sum += pixels[i]`. -/
  toDouble : F → D
  /-- The conversion of an `int` to `double` (`0.0`, `width * height`). -/
  dofInt : Int → D
  /-- The literal `0.5`. -/
  dhalf : D
  dadd : D → D → D
  ddiv : D → D → D
  dlt : D → D → Bool

/-- The value of the literal `1e-8f`: the binary32 number nearest to `10^-8`. -/
def epsLiteral : ℚ := 11258999 / 2 ^ 50

/-- Exact arithmetic: every operation without rounding, on rationals. -/
def exactArith : Arith ℚ ℚ where
  ofInt z := z
  eps := epsLiteral
  add a b := a + b
  sub a b := a - b
  mul a b := a * b
  div a b := a / b
  neg a := -a
  abs a := |a|
  floor a := ⌊a⌋
  lt a b := decide (a < b)
  toInt a := castInt (truncInt a)
  toInt_range a := by
    show -2 ^ 31 ≤ castInt (truncInt a) ∧ castInt (truncInt a) < 2 ^ 31
    unfold castInt
    by_cases h : -2 ^ 31 ≤ truncInt a ∧ truncInt a < 2 ^ 31
    · rw [if_pos h]
      exact h
    · rw [if_neg h]
      constructor <;> norm_num
  toDouble a := a
  dofInt z := z
  dhalf := 1 / 2
  dadd a b := a + b
  ddiv a b := a / b
  dlt a b := decide (a < b)

/-- The arithmetic of the machine: `float` is binary32, `double` is binary64, every
operation correctly rounded (round to nearest, ties to even). -/
def binary32Arith : Arith FP FP where
  ofInt z := binary32.round z
  eps := .fin epsLiteral
  add := FP.add binary32
  sub := FP.sub binary32
  mul := FP.mul binary32
  div := FP.div binary32
  neg := FP.neg
  abs := FP.abs
  floor := FP.floor
  lt := FP.lt
  toInt := FP.toInt
  toInt_range x := by
    cases x with
    | fin q =>
      show -2 ^ 31 ≤ castInt (truncInt q) ∧ castInt (truncInt q) < 2 ^ 31
      unfold castInt
      by_cases h : -2 ^ 31 ≤ truncInt q ∧ truncInt q < 2 ^ 31
      · rw [if_pos h]
        exact h
      · rw [if_neg h]
        constructor <;> norm_num
    | inf s => constructor <;> norm_num [FP.toInt]
    | nan => constructor <;> norm_num [FP.toInt]
  toDouble x := x
  dofInt z := binary64.round z
  dhalf := .fin (1 / 2)
  dadd := FP.add binary64
  ddiv := FP.div binary64
  dlt := FP.lt

/-- Sign symmetry of an arithmetic: negation commutes with the rounded operations. It
holds for exact arithmetic and for round-to-nearest. -/
structure Arith.SignSymm {F D : Type} (A : Arith F D) : Prop where
  add_neg : ∀ a b, A.add (A.neg a) (A.neg b) = A.neg (A.add a b)
  sub_neg : ∀ a b, A.sub (A.neg a) (A.neg b) = A.neg (A.sub a b)
  neg_mul : ∀ a b, A.mul (A.neg a) b = A.neg (A.mul a b)
  mul_neg : ∀ a b, A.mul a (A.neg b) = A.neg (A.mul a b)
  lt_neg : ∀ a, A.lt (A.ofInt 0) (A.neg a) = A.lt a (A.ofInt 0)

/-! ## Data model -/

/-- The `aiVector3D` of Assimp: three `float` components. -/
structure Vec3 (F : Type) where
  x : F
  y : F
  z : F
deriving DecidableEq

namespace Vec3

/-- Component-wise `operator-`. -/
def sub {F D : Type} (A : Arith F D) (a b : Vec3 F) : Vec3 F :=
  ⟨A.sub a.x b.x, A.sub a.y b.y, A.sub a.z b.z⟩

/-- Unary `operator-`. -/
def neg {F D : Type} (A : Arith F D) (a : Vec3 F) : Vec3 F := ⟨A.neg a.x, A.neg a.y, A.neg a.z⟩

/-- Scaling `operator*(aiVector3D, float)`. -/
def scale {F D : Type} (A : Arith F D) (a : Vec3 F) (f : F) : Vec3 F :=
  ⟨A.mul f a.x, A.mul f a.y, A.mul f a.z⟩

/-- Cross product, `operator^` of `aiVector3D`. -/
def cross {F D : Type} (A : Arith F D) (a b : Vec3 F) : Vec3 F :=
  ⟨A.sub (A.mul a.y b.z) (A.mul a.z b.y), A.sub (A.mul a.z b.x) (A.mul a.x b.z),
    A.sub (A.mul a.x b.y) (A.mul a.y b.x)⟩

/-- Dot product, `operator*(aiVector3D, aiVector3D)`. -/
def dot {F D : Type} (A : Arith F D) (a b : Vec3 F) : F :=
  A.add (A.add (A.mul a.x b.x) (A.mul a.y b.y)) (A.mul a.z b.z)

/-- The vector `(0, 0, 0)`. -/
def zero {F D : Type} (A : Arith F D) : Vec3 F := ⟨A.ofInt 0, A.ofInt 0, A.ofInt 0⟩

/-- The same vector with its components read in another number type. -/
def map {F G : Type} (f : F → G) (a : Vec3 F) : Vec3 G := ⟨f a.x, f a.y, f a.z⟩

end Vec3

/-- An `aiFace`: `mNumIndices` is the length of `mIndices`. -/
structure Face where
  mIndices : List Nat
deriving DecidableEq

/-- The parts of an `aiMesh` that the inspection reads. `mTextureCoords` holds the
non-null UV channels (Assimp keeps them as a prefix of a fixed array). -/
structure Mesh (F : Type) where
  mMaterialIndex : Nat
  mVertices : List (Vec3 F)
  mTextureCoords : List (List (Vec3 F))
  mFaces : List Face

/-- Assimp `aiMesh::GetNumUVChannels`: the number of leading non-null channels. -/
def Mesh.GetNumUVChannels {F : Type} (mesh : Mesh F) : Nat := mesh.mTextureCoords.length

/-- Assimp `aiMesh::HasTextureCoords(0)`: channel 0 is present and the mesh has vertices. -/
def Mesh.HasTextureCoords0 {F : Type} (mesh : Mesh F) : Bool :=
  decide (0 < mesh.mTextureCoords.length) && decide (0 < mesh.mVertices.length)

/-- Read `mesh->mVertices[i]` (an index past the end reads as the zero vector). -/
def Mesh.vertex {F D : Type} (A : Arith F D) (mesh : Mesh F) (i : Nat) : Vec3 F :=
  mesh.mVertices.getD i (Vec3.zero A)

/-- Read `mesh->mTextureCoords[0][i]` (an index past the end reads as the zero vector). -/
def Mesh.uv0 {F D : Type} (A : Arith F D) (mesh : Mesh F) (i : Nat) : Vec3 F :=
  (mesh.mTextureCoords.getD 0 []).getD i (Vec3.zero A)

/-- The same mesh with its coordinates read in another number type. -/
def Mesh.map {F G : Type} (f : F → G) (mesh : Mesh F) : Mesh G :=
  ⟨mesh.mMaterialIndex, mesh.mVertices.map (Vec3.map f),
    mesh.mTextureCoords.map (List.map (Vec3.map f)), mesh.mFaces⟩

/-- What `InspectMesh` reads of an `aiMaterial`: the result of `Get(AI_MATKEY_NAME)` and of
the two `GetTexture` calls (`NORMALS` first, then `HEIGHT`). -/
structure Material where
  name : Option String
  normalsTexture : Option String
  heightTexture : Option String

/-- The `aiScene`. -/
structure Scene (F : Type) where
  mMaterials : List Material
  mMeshes : List (Mesh F)

/-- The same scene with its coordinates read in another number type. -/
def Scene.map {F G : Type} (f : F → G) (scene : Scene F) : Scene G :=
  ⟨scene.mMaterials, scene.mMeshes.map (Mesh.map f)⟩

/-- An opened OpenImageIO image: its spec and the buffer `pixels` after `read_image`. The
buffer has `width * height * nchannels` samples, a count that fits the `int` in which the
code computes it. -/
structure Image (F : Type) where
  width : Nat
  height : Nat
  nchannels : Nat
  pixels : List F
  size_eq : pixels.length = width * height * nchannels
  size_fits : width * height < 2 ^ 31 ∧ width * height * nchannels < 2 ^ 31

/-- The same image with its samples read in another number type. -/
def Image.map {F G : Type} (f : F → G) (img : Image F) : Image G :=
  ⟨img.width, img.height, img.nchannels, img.pixels.map f,
    by rw [List.length_map, img.size_eq], img.size_fits⟩

/-- Error codes of `n2d/core/error.hpp`. -/
inductive ErrorCode where
  | IoError | MeshParseError | InvalidAsset | InvalidArgs
  | IncompatibleTextures | AmbiguousInput | SolverFailed | UserCancelled
deriving DecidableEq, Repr

/-- The `N2DError` record. -/
structure N2DError where
  code : ErrorCode
  message : String
deriving DecidableEq

/-- The `MaterialInfo` record with its default member initialisers. -/
structure MaterialInfo where
  index : Int := 0
  name : String := ""
  uv_sets : List String := []
  udim_tiles : List Int := []
  normal_map : String := ""
  y_is_down : Bool := false
  flip_u : Bool := false
  flip_v : Bool := false
  overlapping_uvs : Bool := false
deriving DecidableEq

/-- The `InspectReport` record. -/
structure InspectReport where
  materials : List MaterialInfo
deriving DecidableEq

/-! ## `GuessYDown` -/

/-- The summation loop of `GuessYDown`: `for (i = start; i < size; i += step) sum += pixels[i]`,
the `float` sample promoted to `double` and added in `double`. The fuel is the number of
iterations still allowed. -/
def greenSumLoop {F D : Type} (A : Arith F D) (pixels : List F) (step : Nat) :
    Nat → Nat → D → D
  | 0, _, sum => sum
  | fuel + 1, i, sum =>
    if h : i < pixels.length then
      greenSumLoop A pixels step fuel (i + step) (A.dadd sum (A.toDouble (pixels.get ⟨i, h⟩)))
    else sum

/-- The function `GuessYDown`: `open_` is the image collaborator (`none` when the file
cannot be opened). The loop runs at most `pixels.size()` times. -/
def GuessYDown {F D : Type} (A : Arith F D) (open_ : String → Option (Image F))
    (path : String) : Bool :=
  match open_ path with
  | none => false
  | some img =>
    let sum := greenSumLoop A img.pixels img.nchannels img.pixels.length 1 (A.dofInt 0)
    let avg := A.ddiv sum (A.dofInt ((img.width * img.height : Nat) : Int))
    A.dlt avg A.dhalf

/-! ## `AccumulateOrientation` -/

/-- The accumulator `OrientationCounts`. -/
structure OrientationCounts where
  flip_u : Nat := 0
  flip_v : Nat := 0
  total : Nat := 0
deriving DecidableEq

/-- One iteration of the face loop of `AccumulateOrientation`. -/
def accumulateFace {F D : Type} (A : Arith F D) (mesh : Mesh F) (counts : OrientationCounts)
    (face : Face) : OrientationCounts :=
  match face.mIndices with
  | [i0, i1, i2] =>
    let p0 := mesh.vertex A i0
    let p1 := mesh.vertex A i1
    let p2 := mesh.vertex A i2
    let uv0 := mesh.uv0 A i0
    let uv1 := mesh.uv0 A i1
    let uv2 := mesh.uv0 A i2
    let e1 := p1.sub A p0
    let e2 := p2.sub A p0
    let n := e1.cross A e2
    let duv1 := uv1.sub A uv0
    let duv2 := uv2.sub A uv0
    let r := A.sub (A.mul duv1.x duv2.y) (A.mul duv1.y duv2.x)
    if A.lt (A.abs r) A.eps then counts
    else
      let inv := A.div (A.ofInt 1) r
      let t := ((e1.scale A duv2.y).sub A (e2.scale A duv1.y)).scale A inv
      let b := ((e2.scale A duv1.x).sub A (e1.scale A duv2.x)).scale A inv
      let cross_tb := t.cross A b
      let mirrored := A.lt (cross_tb.dot A n) (A.ofInt 0)
      let fu := if mirrored && A.lt (A.ofInt 0) (((t.neg A).cross A b).dot A n)
                then counts.flip_u + 1 else counts.flip_u
      let fv := if mirrored && A.lt (A.ofInt 0) ((t.cross A (b.neg A)).dot A n)
                then counts.flip_v + 1 else counts.flip_v
      { flip_u := fu, flip_v := fv, total := counts.total + 1 }
  | _ => counts

/-- The function `AccumulateOrientation(mesh, counts)`. -/
def AccumulateOrientation {F D : Type} (A : Arith F D) (mesh : Mesh F)
    (counts : OrientationCounts) : OrientationCounts :=
  if mesh.HasTextureCoords0 then mesh.mFaces.foldl (accumulateFace A mesh) counts
  else counts

/-! ## `InspectMesh` -/

/-- The UDIM tile of one UV coordinate: `tile_u + tile_v * 10 + 1001` in 32-bit `int`
arithmetic, with `tile_u = (int)floor(uv.x)`, `tile_v = (int)floor(uv.y)`. -/
def udimTile {F D : Type} (A : Arith F D) (uv : Vec3 F) : Int :=
  let tile_u := A.toInt (A.floor uv.x)
  let tile_v := A.toInt (A.floor uv.y)
  wrap32 (wrap32 (tile_u + wrap32 (tile_v * 10)) + 1001)

/-- The overlap grid resolution, `const int grid = 1024`. -/
def grid : Int := 1024

/-- The cell index `(int)floor((sum / 3.0f) * grid)` of a centroid coordinate. -/
def centroidCell {F D : Type} (A : Arith F D) (sum : F) : Int :=
  A.toInt (A.floor (A.mul (A.div sum (A.ofInt 3)) (A.ofInt grid)))

/-- The key `(static_cast<uint64_t>(cu) << 32) ^ static_cast<uint32_t>(cv)`:
`cu` is sign-extended to 64 bits and shifted (modulo `2^64`), `cv` is reduced modulo `2^32`
and zero-extended. -/
def cellKey (cu cv : Int) : Nat :=
  Nat.xor ((((cu % 2 ^ 64).toNat) * 2 ^ 32) % 2 ^ 64) ((cv % 2 ^ 32).toNat)

/-- The per-material working state of `InspectMesh`: `info.uv_sets`, the two unordered
sets, the orientation counts and `info.overlapping_uvs`. An unordered set is a
duplicate-free list; insertion is `List.insert`. -/
structure MatState where
  uv_sets : List String := []
  tiles : List Int := []
  seen_cells : List Nat := []
  counts : OrientationCounts := {}
  overlapping_uvs : Bool := false

/-- The call `std::vector::resize(n)` on a vector of strings (new entries are empty). -/
def resizeStrings (v : List String) (n : Nat) : List String :=
  v.take n ++ List.replicate (n - v.length) ""

/-- One iteration of `for (uv = 0; uv < GetNumUVChannels(); ++uv)`. -/
def uvSetStep (uv_sets : List String) (uv : Nat) : List String :=
  if uv_sets.length ≤ uv then (resizeStrings uv_sets (uv + 1)).set uv ("UV" ++ toString uv)
  else uv_sets

/-- The three UV coordinates read by the inner `k` loop for a triangle. -/
def faceUVs {F D : Type} (A : Arith F D) (mesh : Mesh F) (i0 i1 i2 : Nat) : List (Vec3 F) :=
  [mesh.uv0 A i0, mesh.uv0 A i1, mesh.uv0 A i2]

/-- The sum `u_sum` after the `k` loop (starting from `0.0f`). -/
def uSum {F D : Type} (A : Arith F D) (uvs : List (Vec3 F)) : F :=
  uvs.foldl (fun s uv => A.add s uv.x) (A.ofInt 0)

/-- The sum `v_sum` after the `k` loop (starting from `0.0f`). -/
def vSum {F D : Type} (A : Arith F D) (uvs : List (Vec3 F)) : F :=
  uvs.foldl (fun s uv => A.add s uv.y) (A.ofInt 0)

/-- The key of the centroid cell of a triangle with UV coordinates `uvs`. -/
def faceKey {F D : Type} (A : Arith F D) (uvs : List (Vec3 F)) : Nat :=
  cellKey (centroidCell A (uSum A uvs)) (centroidCell A (vSum A uvs))

/-- One iteration of the second face loop of `InspectMesh` (tiles and overlap cell). -/
def inspectFace {F D : Type} (A : Arith F D) (mesh : Mesh F) (st : MatState) (face : Face) :
    MatState :=
  match face.mIndices with
  | [i0, i1, i2] =>
    let uvs := faceUVs A mesh i0 i1 i2
    let tiles := uvs.foldl (fun ts uv => List.insert (udimTile A uv) ts) st.tiles
    let key := faceKey A uvs
    if key ∈ st.seen_cells then
      { st with tiles := tiles, overlapping_uvs := true }
    else
      { st with tiles := tiles, seen_cells := key :: st.seen_cells }
  | _ => st

/-- One iteration of the mesh loop of `InspectMesh` for material index `m`. -/
def inspectMeshStep {F D : Type} (A : Arith F D) (m : Nat) (st : MatState) (mesh : Mesh F) :
    MatState :=
  if mesh.mMaterialIndex ≠ m then st
  else
    let st1 := { st with
      uv_sets := (List.range mesh.GetNumUVChannels).foldl uvSetStep st.uv_sets }
    if !mesh.HasTextureCoords0 then st1
    else
      let st2 := { st1 with counts := AccumulateOrientation A mesh st1.counts }
      mesh.mFaces.foldl (inspectFace A mesh) st2

/-- The state after the mesh loop for material index `m`. -/
def materialState {F D : Type} (A : Arith F D) (scene : Scene F) (m : Nat) : MatState :=
  scene.mMeshes.foldl (inspectMeshStep A m) {}

/-- The texture found by the two `GetTexture` calls: `NORMALS`, else `HEIGHT`. -/
def Material.normalTexture (mat : Material) : Option String :=
  match mat.normalsTexture with
  | some t => some t
  | none => mat.heightTexture

/-- The body of the material loop: the `MaterialInfo` pushed for material `m`. -/
def inspectMaterial {F D : Type} (A : Arith F D) (open_ : String → Option (Image F))
    (scene : Scene F) (m : Nat) (mat : Material) : MaterialInfo :=
  let st := materialState A scene m
  let total := st.counts.total
  { index := (m : Int)
    name := mat.name.getD ""
    uv_sets := st.uv_sets
    udim_tiles := st.tiles.insertionSort (· ≤ ·)
    normal_map := mat.normalTexture.getD ""
    y_is_down := match mat.normalTexture with
      | some t => GuessYDown A open_ t
      | none => false
    flip_u := if 0 < total then decide (total / 2 < st.counts.flip_u) else false
    flip_v := if 0 < total then decide (total / 2 < st.counts.flip_v) else false
    overlapping_uvs := st.overlapping_uvs }

/-- The function `InspectMesh`: `readFile` is the outcome of `importer.ReadFile` (`none`
for a null scene, with the importer's error string), `open_` the image collaborator. -/
def InspectMesh {F D : Type} (A : Arith F D) (open_ : String → Option (Image F))
    (errorString : String) (readFile : Option (Scene F)) : Except N2DError InspectReport :=
  match readFile with
  | none => .error ⟨ErrorCode.MeshParseError, errorString⟩
  | some scene =>
    .ok ⟨(List.range scene.mMaterials.length).zipWith (inspectMaterial A open_ scene)
      scene.mMaterials⟩

/-! ## Triangles of a material -/

/-- A triangle as the loops read it: three positions and three channel-0 UV coordinates. -/
structure Tri (F : Type) where
  p0 : Vec3 F
  p1 : Vec3 F
  p2 : Vec3 F
  uv0 : Vec3 F
  uv1 : Vec3 F
  uv2 : Vec3 F
deriving DecidableEq

namespace Tri

/-- The edge `e1 = p1 - p0`. -/
def e1 {F D : Type} (A : Arith F D) (t : Tri F) : Vec3 F := t.p1.sub A t.p0

/-- The edge `e2 = p2 - p0`. -/
def e2 {F D : Type} (A : Arith F D) (t : Tri F) : Vec3 F := t.p2.sub A t.p0

/-- The geometric normal `n = e1 ^ e2`. -/
def normal {F D : Type} (A : Arith F D) (t : Tri F) : Vec3 F := (t.e1 A).cross A (t.e2 A)

/-- The UV determinant `r = duv1.x * duv2.y - duv1.y * duv2.x`. -/
def r {F D : Type} (A : Arith F D) (t : Tri F) : F :=
  A.sub (A.mul (t.uv1.sub A t.uv0).x (t.uv2.sub A t.uv0).y)
    (A.mul (t.uv1.sub A t.uv0).y (t.uv2.sub A t.uv0).x)

/-- The tangent `t = (e1 * duv2.y - e2 * duv1.y) * inv` with `inv = 1.0f / r`. -/
def tangent {F D : Type} (A : Arith F D) (t : Tri F) : Vec3 F :=
  (((t.e1 A).scale A (t.uv2.sub A t.uv0).y).sub A ((t.e2 A).scale A (t.uv1.sub A t.uv0).y)).scale A
    (A.div (A.ofInt 1) (t.r A))

/-- The bitangent `b = (e2 * duv1.x - e1 * duv2.x) * inv` with `inv = 1.0f / r`. -/
def bitangent {F D : Type} (A : Arith F D) (t : Tri F) : Vec3 F :=
  (((t.e2 A).scale A (t.uv1.sub A t.uv0).x).sub A ((t.e1 A).scale A (t.uv2.sub A t.uv0).x)).scale A
    (A.div (A.ofInt 1) (t.r A))

/-- The triangle is skipped as degenerate: the guard `std::abs(r) < 1e-8f`. -/
def degenerate {F D : Type} (A : Arith F D) (t : Tri F) : Bool := A.lt (A.abs (t.r A)) A.eps

/-- The code's `mirrored` flag: `(t ^ b) * n < 0`. -/
def mirrored {F D : Type} (A : Arith F D) (t : Tri F) : Bool :=
  A.lt (((t.tangent A).cross A (t.bitangent A)).dot A (t.normal A)) (A.ofInt 0)

/-- The inner test of the U vote: `(-t ^ b) * n > 0`. -/
def testU {F D : Type} (A : Arith F D) (t : Tri F) : Bool :=
  A.lt (A.ofInt 0) ((((t.tangent A).neg A).cross A (t.bitangent A)).dot A (t.normal A))

/-- The inner test of the V vote: `(t ^ -b) * n > 0`. -/
def testV {F D : Type} (A : Arith F D) (t : Tri F) : Bool :=
  A.lt (A.ofInt 0) (((t.tangent A).cross A ((t.bitangent A).neg A)).dot A (t.normal A))

/-- The triangle is counted and votes for the U flip. -/
def votesU {F D : Type} (A : Arith F D) (t : Tri F) : Bool :=
  !t.degenerate A && (t.mirrored A && t.testU A)

/-- The triangle is counted and votes for the V flip. -/
def votesV {F D : Type} (A : Arith F D) (t : Tri F) : Bool :=
  !t.degenerate A && (t.mirrored A && t.testV A)

/-- The three UV coordinates of the triangle, in vertex order. -/
def uvs {F : Type} (t : Tri F) : List (Vec3 F) := [t.uv0, t.uv1, t.uv2]

/-- The centroid grid cell `(cu, cv)` of the triangle as the code computes it. -/
def cell {F D : Type} (A : Arith F D) (t : Tri F) : Int × Int :=
  (centroidCell A (uSum A t.uvs), centroidCell A (vSum A t.uvs))

/-- The 64-bit key of the centroid cell. -/
def key {F D : Type} (A : Arith F D) (t : Tri F) : Nat := faceKey A t.uvs

/-- The same triangle with its coordinates read in another number type. -/
def map {F G : Type} (f : F → G) (t : Tri F) : Tri G :=
  ⟨t.p0.map f, t.p1.map f, t.p2.map f, t.uv0.map f, t.uv1.map f, t.uv2.map f⟩

end Tri

/-- The triangle a face denotes, if it has exactly three indices. -/
def faceTri {F D : Type} (A : Arith F D) (mesh : Mesh F) (face : Face) : Option (Tri F) :=
  match face.mIndices with
  | [i0, i1, i2] =>
    some ⟨mesh.vertex A i0, mesh.vertex A i1, mesh.vertex A i2,
      mesh.uv0 A i0, mesh.uv0 A i1, mesh.uv0 A i2⟩
  | _ => none

/-- The triangles of a mesh, in face order. -/
def meshTriangles {F D : Type} (A : Arith F D) (mesh : Mesh F) : List (Tri F) :=
  mesh.mFaces.filterMap (faceTri A mesh)

/-- The meshes that contribute triangles to material `m`: those that use it and have
UV channel 0. -/
def materialMeshes {F : Type} (meshes : List (Mesh F)) (m : Nat) : List (Mesh F) :=
  meshes.filter (fun mesh => decide (mesh.mMaterialIndex = m) && mesh.HasTextureCoords0)

/-- The triangles of material `m`, in processing order. -/
def materialTriangles {F D : Type} (A : Arith F D) (scene : Scene F) (m : Nat) : List (Tri F) :=
  (materialMeshes scene.mMeshes m).flatMap (meshTriangles A)

/-- The number of counted triangles in a list: those that pass the degeneracy guard. -/
def totalCount {F D : Type} (A : Arith F D) (ts : List (Tri F)) : Nat :=
  ts.countP (fun t => !t.degenerate A)

/-- The number of counted triangles voting for the U flip. -/
def votesUCount {F D : Type} (A : Arith F D) (ts : List (Tri F)) : Nat :=
  ts.countP (Tri.votesU A)

/-- The number of counted triangles voting for the V flip. -/
def votesVCount {F D : Type} (A : Arith F D) (ts : List (Tri F)) : Nat :=
  ts.countP (Tri.votesV A)

/-- The tile insertions of one triangle. -/
def tilesStep {F D : Type} (A : Arith F D) (ts : List Int) (t : Tri F) : List Int :=
  t.uvs.foldl (fun ts uv => List.insert (udimTile A uv) ts) ts

/-- The update of `seen_cells` and `overlapping_uvs` by one triangle. -/
def cellStep {F D : Type} (A : Arith F D) (s : List Nat × Bool) (t : Tri F) : List Nat × Bool :=
  if t.key A ∈ s.1 then (s.1, true) else (t.key A :: s.1, s.2)

/-! ## Geometry of a triangle over the rationals -/

/-- The exact UV determinant of a triangle with rational coordinates. -/
def Tri.uvDet (t : Tri ℚ) : ℚ :=
  (t.uv1.x - t.uv0.x) * (t.uv2.y - t.uv0.y) - (t.uv1.y - t.uv0.y) * (t.uv2.x - t.uv0.x)

/-- The UV winding of the triangle is opposite to its position winding: the UV-to-position
map reverses orientation, i.e. the UV determinant is negative. -/
def Tri.uvMirrored (t : Tri ℚ) : Prop := t.uvDet < 0

/-- The exact centroid grid cell `(floor(1024 * mean u), floor(1024 * mean v))`. -/
def Tri.centroidGridCell (t : Tri ℚ) : Int × Int :=
  (⌊1024 * ((t.uv0.x + t.uv1.x + t.uv2.x) / 3)⌋, ⌊1024 * ((t.uv0.y + t.uv1.y + t.uv2.y) / 3)⌋)

/-- The UDIM tile of the unit UV cell holding the exact UV centroid of a triangle. -/
def Tri.centroidTile (t : Tri ℚ) : Int :=
  1001 + ⌊(t.uv0.x + t.uv1.x + t.uv2.x) / 3⌋ + 10 * ⌊(t.uv0.y + t.uv1.y + t.uv2.y) / 3⌋

/-- The name `"UV" + std::to_string(uv)` of a UV channel. -/
def uvName (uv : Nat) : String := "UV" ++ toString uv

/-- The largest number of UV channels among the meshes that use material `m` (0 when no
mesh uses it). -/
def maxUVChannels {F : Type} (meshes : List (Mesh F)) (m : Nat) : Nat :=
  ((meshes.filter (fun mesh => decide (mesh.mMaterialIndex = m))).map
    Mesh.GetNumUVChannels).foldl max 0

/-- The green samples (channel index 1 of the interleaved buffer) of all pixels, in pixel
order. -/
def Image.greens {F : Type} (img : Image F) : List F :=
  (List.range (img.width * img.height)).filterMap
    (fun k => img.pixels.get? (k * img.nchannels + 1))

/-- The exact average of the green channel over all `width * height` pixels of an image
with rational samples. -/
def Image.greenAverage (img : Image ℚ) : ℚ :=
  img.greens.sum / ((img.width * img.height : Nat) : ℚ)

/-- The average as `GuessYDown` computes it: the green samples promoted to `double` and
added in pixel order, starting from `0.0`, the sum divided by `width * height`. -/
def Image.greenAverageComputed {F D : Type} (A : Arith F D) (img : Image F) : D :=
  A.ddiv (img.greens.foldl (fun s g => A.dadd s (A.toDouble g)) (A.dofInt 0))
    (A.dofInt ((img.width * img.height : Nat) : Int))

/-- The tile computation `tile_u + tile_v * 10 + 1001` of a UV coordinate `(u, v)` stays in
the range of `int`: the two floors, the product and the two sums are 32-bit values. -/
def tileFits (u v : ℚ) : Prop :=
  inInt32 ⌊u⌋ ∧ inInt32 ⌊v⌋ ∧ inInt32 (⌊v⌋ * 10) ∧ inInt32 (⌊u⌋ + ⌊v⌋ * 10) ∧
    inInt32 (⌊u⌋ + ⌊v⌋ * 10 + 1001)

/-! ## Fixtures

The meshes written by `tests/unit/inspect_tests.cpp` and further inputs, with rational
coordinates; `Scene.map FP.fin` reads them as machine numbers. -/

/-- A material without name or textures, as the OBJ fixtures give. -/
def plainMaterial : Material := ⟨none, none, none⟩

/-- The mesh of `mirrored_island_flip_u_flip_v_behavior_ok`: the faces `1/2 2/1 3/4` and
`1/2 3/4 4/3` over the unit quad, one vertex per position/UV pair. -/
def mirroredQuadMesh : Mesh ℚ :=
  ⟨0, [⟨0, 0, 0⟩, ⟨1, 0, 0⟩, ⟨1, 1, 0⟩, ⟨0, 1, 0⟩],
    [[⟨1, 0, 0⟩, ⟨0, 0, 0⟩, ⟨0, 1, 0⟩, ⟨1, 1, 0⟩]],
    [⟨[0, 1, 2]⟩, ⟨[0, 2, 3]⟩]⟩

/-- The scene of `mirrored_island_flip_u_flip_v_behavior_ok`. -/
def mirroredQuadScene : Scene ℚ := ⟨[plainMaterial], [mirroredQuadMesh]⟩

/-- A mesh with one triangle whose UV winding is mirrored and whose UV determinant is
`-2^-28` (about `-3.7e-9`): positions `(0,0,0),(1,0,0),(0,1,0)`, UVs
`(0,0),(0,2^-14),(2^-14,0)`. Every operation on it is exact in binary32. -/
def tinyMirroredMesh : Mesh ℚ :=
  ⟨0, [⟨0, 0, 0⟩, ⟨1, 0, 0⟩, ⟨0, 1, 0⟩],
    [[⟨0, 0, 0⟩, ⟨0, 1 / 2 ^ 14, 0⟩, ⟨1 / 2 ^ 14, 0, 0⟩]],
    [⟨[0, 1, 2]⟩]⟩

/-- The one-material scene holding `tinyMirroredMesh`. -/
def tinyMirroredScene : Scene ℚ := ⟨[plainMaterial], [tinyMirroredMesh]⟩

/-- A mesh with one triangle whose UV winding is not mirrored, with UV determinant
`2^-24 - 2^-47` (about `5.96e-8`): UVs `(0, -2^-24), (2 - 2^-23, 2 - 2^-23), (1, 1)`. In
binary32 the differences `uv1.y - uv0.y` and `uv2.y - uv0.y` round to `2` and `1`, and the
determinant comes out as `-2^-23`. -/
def sliverMesh : Mesh ℚ :=
  ⟨0, [⟨0, 0, 0⟩, ⟨1, 0, 0⟩, ⟨0, 1, 0⟩],
    [[⟨0, -(1 / 2 ^ 24), 0⟩, ⟨2 - 1 / 2 ^ 23, 2 - 1 / 2 ^ 23, 0⟩, ⟨1, 1, 0⟩]],
    [⟨[0, 1, 2]⟩]⟩

/-- The one-material scene holding `sliverMesh`. -/
def sliverScene : Scene ℚ := ⟨[plainMaterial], [sliverMesh]⟩

/-- A mesh with one triangle that reaches into the tile `1002` with a corner only:
UVs `(1/2,1/2), (3/2,1/2), (5/8,5/8)`, centroid `(7/8, 13/24)`. -/
def cornerMesh : Mesh ℚ :=
  ⟨0, [⟨0, 0, 0⟩, ⟨1, 0, 0⟩, ⟨0, 1, 0⟩],
    [[⟨1 / 2, 1 / 2, 0⟩, ⟨3 / 2, 1 / 2, 0⟩, ⟨5 / 8, 5 / 8, 0⟩]],
    [⟨[0, 1, 2]⟩]⟩

/-- The one-material scene holding `cornerMesh`. -/
def cornerScene : Scene ℚ := ⟨[plainMaterial], [cornerMesh]⟩

/-- A mesh with one triangle that has a vertex at `v = 3e8`: UVs
`(1/2, 300000000), (1/2, 0), (0, 0)`. All coordinates are binary32 numbers. -/
def farMesh : Mesh ℚ :=
  ⟨0, [⟨0, 0, 0⟩, ⟨1, 0, 0⟩, ⟨0, 1, 0⟩],
    [[⟨1 / 2, 300000000, 0⟩, ⟨1 / 2, 0, 0⟩, ⟨0, 0, 0⟩]],
    [⟨[0, 1, 2]⟩]⟩

/-- The one-material scene holding `farMesh`. -/
def farScene : Scene ℚ := ⟨[plainMaterial], [farMesh]⟩

/-- The binary32 number nearest to `0.1`, as the importer reads the `0.1` of the OBJ text. -/
def tenth : ℚ := 13421773 / 2 ^ 27

/-- The mesh of `overlapping_uvs_emit_warning_ok`: two stacked quads (at `z = 0` and
`z = 0.1`) mapped to the same UV square. -/
def stackedQuadsMesh : Mesh ℚ :=
  ⟨0, [⟨0, 0, 0⟩, ⟨1, 0, 0⟩, ⟨1, 1, 0⟩, ⟨0, 1, 0⟩,
       ⟨0, 0, tenth⟩, ⟨1, 0, tenth⟩, ⟨1, 1, tenth⟩, ⟨0, 1, tenth⟩],
    [[⟨0, 0, 0⟩, ⟨1, 0, 0⟩, ⟨1, 1, 0⟩, ⟨0, 1, 0⟩,
      ⟨0, 0, 0⟩, ⟨1, 0, 0⟩, ⟨1, 1, 0⟩, ⟨0, 1, 0⟩]],
    [⟨[0, 1, 2]⟩, ⟨[0, 2, 3]⟩, ⟨[4, 5, 6]⟩, ⟨[4, 6, 7]⟩]⟩

/-- The scene of `overlapping_uvs_emit_warning_ok`. -/
def stackedQuadsScene : Scene ℚ := ⟨[plainMaterial], [stackedQuadsMesh]⟩

/-- A two-sided triangle: the faces `0 1 2` and `2 1 0` over the same three vertices, with
UVs `(1/4, 0), (1 - 2^-24, 0), (1 - 2^-23, 1)`. The two faces have the same UV coordinates,
read in opposite vertex order. -/
def twinMesh : Mesh ℚ :=
  ⟨0, [⟨0, 0, 0⟩, ⟨1, 0, 0⟩, ⟨0, 1, 0⟩],
    [[⟨1 / 4, 0, 0⟩, ⟨1 - 1 / 2 ^ 24, 0, 0⟩, ⟨1 - 1 / 2 ^ 23, 1, 0⟩]],
    [⟨[0, 1, 2]⟩, ⟨[2, 1, 0]⟩]⟩

/-- The one-material scene holding `twinMesh`. -/
def twinScene : Scene ℚ := ⟨[plainMaterial], [twinMesh]⟩

/-- Two triangles whose exact centroids lie on either side of the grid line `u = 1/1024`:
UVs `(2^-10, 1/4), (2^-10, 1/4 + 2^-12), (2^-10 - 2^-34, 1/4)` for the first and
`(2^-10, 1/4), (2^-10 + 2^-12, 1/4), (2^-10, 1/4 + 2^-12)` for the second. -/
def gridLineMesh : Mesh ℚ :=
  ⟨0, [⟨0, 0, 0⟩, ⟨1, 0, 0⟩, ⟨0, 1, 0⟩, ⟨2, 2, 0⟩, ⟨3, 2, 0⟩, ⟨2, 3, 0⟩],
    [[⟨1 / 2 ^ 10, 1 / 4, 0⟩, ⟨1 / 2 ^ 10, 1 / 4 + 1 / 2 ^ 12, 0⟩,
      ⟨1 / 2 ^ 10 - 1 / 2 ^ 34, 1 / 4, 0⟩,
      ⟨1 / 2 ^ 10, 1 / 4, 0⟩, ⟨1 / 2 ^ 10 + 1 / 2 ^ 12, 1 / 4, 0⟩,
      ⟨1 / 2 ^ 10, 1 / 4 + 1 / 2 ^ 12, 0⟩]],
    [⟨[0, 1, 2]⟩, ⟨[3, 4, 5]⟩]⟩

/-- The one-material scene holding `gridLineMesh`. -/
def gridLineScene : Scene ℚ := ⟨[plainMaterial], [gridLineMesh]⟩

/-- A mesh with two UV channels and a mesh with one, both of material 0, and a mesh with
three channels of material 1. -/
def uvChannelsScene : Scene ℚ :=
  ⟨[plainMaterial, plainMaterial],
    [⟨0, [⟨0, 0, 0⟩], [[⟨0, 0, 0⟩], [⟨0, 0, 0⟩]], []⟩,
     ⟨0, [⟨0, 0, 0⟩], [[⟨0, 0, 0⟩]], []⟩,
     ⟨1, [⟨0, 0, 0⟩], [[⟨0, 0, 0⟩], [⟨0, 0, 0⟩], [⟨0, 0, 0⟩]], []⟩]⟩

/-- A `2 x 1` image with three channels whose green samples are `1/4` and `1/2`. -/
def darkGreenImage : Image ℚ := ⟨2, 1, 3, [1, 1 / 4, 1, 1, 1 / 2, 1], rfl, by decide⟩

/-- A `2 x 1` image with three channels whose green samples are `3/4` and `1/2`. -/
def brightGreenImage : Image ℚ := ⟨2, 1, 3, [0, 3 / 4, 0, 0, 1 / 2, 0], rfl, by decide⟩

/-- A `4 x 1` image with two channels whose green samples are `1 - 2^-24`,
`2^-24 - 2^-48`, `2^-48 - 2^-72` and `1`, all of them binary32 numbers; their exact sum
is `2 - 2^-72`. -/
def edgeGreenImage : Image ℚ :=
  ⟨4, 1, 2, [0, 1 - 1 / 2 ^ 24, 0, 1 / 2 ^ 24 - 1 / 2 ^ 48, 0, 1 / 2 ^ 48 - 1 / 2 ^ 72, 0, 1],
    rfl, by decide⟩

/-- An image store holding the three test images. -/
def testImages (path : String) : Option (Image ℚ) :=
  if path = "dark.png" then some darkGreenImage
  else if path = "bright.png" then some brightGreenImage
  else if path = "edge.png" then some edgeGreenImage
  else none

/-- The image store read as machine numbers. -/
def testImagesFP (path : String) : Option (Image FP) := (testImages path).map (Image.map FP.fin)

/-- Every coordinate of the scene is a binary32 number. -/
def Scene.isBinary32 (scene : Scene FP) : Bool :=
  scene.mMeshes.all (fun mesh =>
    mesh.mVertices.all (fun v =>
      binary32.representable v.x && binary32.representable v.y && binary32.representable v.z) &&
    mesh.mTextureCoords.all (fun ch => ch.all (fun v =>
      binary32.representable v.x && binary32.representable v.y && binary32.representable v.z)))

/-- The token `"<UDIM>"`. -/
def udimToken : List Char := ['<', 'U', 'D', 'I', 'M', '>']

/-- The search `std::string::find(needle)` scanning from `pos`: the index of the first occurrence,
`none` for `npos`. -/
def findFrom (needle : List Char) : List Char → Nat → Option Nat
  | [], pos => if needle = [] then some pos else none
  | c :: cs, pos =>
    if needle.isPrefixOf (c :: cs) then some pos else findFrom needle cs (pos + 1)

/-- The call `s.find(needle)`. -/
def find (s needle : List Char) : Option Nat := findFrom needle s 0

/-- The call `s.replace(pos, len, str)`: throws (`none`) when `pos` is past the end. -/
def replace (s : List Char) (pos len : Nat) (str : List Char) : Option (List Char) :=
  if s.length < pos then none else some (s.take pos ++ str ++ s.drop (pos + len))

/-- The conversion `std::to_string(int)`: the decimal numeral, with a leading `-` for negatives. -/
def to_string (t : Int) : List Char := (toString t).toList

/-- The body of the loop for one tile: `s = pattern; pos = s.find("<UDIM>");
s.replace(pos, 6, std::to_string(t))`. A `find` that fails hands `npos` to `replace`,
which throws. -/
def expandTile (pattern : List Char) (t : Int) : Option (List Char) :=
  match find pattern udimToken with
  | none => none
  | some pos => replace pattern pos 6 (to_string t)

/-- The loop `for (int t : tiles) { ...; paths.push_back(s); }`. -/
def expandLoop (pattern : List Char) : List Int → List (List Char) → Option (List (List Char))
  | [], paths => some paths
  | t :: ts, paths =>
    match expandTile pattern t with
    | none => none
    | some s => expandLoop pattern ts (paths ++ [s])

/-- The expansion of the test: `paths` starts empty. -/
def expandUdim (pattern : List Char) (tiles : List Int) : Option (List (List Char)) :=
  expandLoop pattern tiles []

/-! ## `DecodeXY` (`tests/unit/bake_tests.cpp`)

The kernel is written over an ordered field `α` with the library square root as a
parameter; the properties instantiate `α := ℝ` and `sqrt := Real.sqrt`. -/

/-- Eigen `normalize()`: divide by the norm when the squared norm is positive, else leave
the vector as it is. -/
def normalize {α : Type} [LinearOrderedField α] (sqrt : α → α) (v : α × α × α) : α × α × α :=
  let z := v.1 * v.1 + v.2.1 * v.2.1 + v.2.2 * v.2.2
  if 0 < z then (v.1 / sqrt z, v.2.1 / sqrt z, v.2.2 / sqrt z) else v

/-- The function `DecodeXY(x, y)` on two `unsigned char` samples. -/
def DecodeXY {α : Type} [LinearOrderedField α] (sqrt : α → α) (x y : Fin 256) : α × α × α :=
  let fx : α := (x.val : α) / 255 * 2 - 1
  let fy : α := (y.val : α) / 255 * 2 - 1
  let fz : α := sqrt (max 0 (1 - fx * fx - fy * fy))
  normalize sqrt (fx, fy, fz)

/-- The value `c / 255 * 2 - 1` a byte decodes to. -/
def byteValue {α : Type} [LinearOrderedField α] (c : Fin 256) : α := (c.val : α) / 255 * 2 - 1

/-- Modelled from the spec: the `XY` encoder of a component is absent from the sources; a
component `c` is stored as the 8-bit value nearest to `(c + 1) / 2 * 255` (half-way cases
upwards, the result kept within `0..255`). -/
def encodeByte {α : Type} [LinearOrderedField α] [FloorRing α] (c : α) : Fin 256 :=
  ⟨min (Int.toNat ⌊(c + 1) / 2 * 255 + 1 / 2⌋) 255, by omega⟩

/-! ## `SolvePoisson` and its test (`tests/unit/bake_tests.cpp`)

Matrix entries and vectors live in a field `α`; the entries the code stores (`-1.0f`, a
neighbour count, `1.0f`) are exact in any of them. The conjugate-gradient call is
read as "a solution of the assembled system". -/

/-- An `Eigen::Triplet<float>`: row, column, value. -/
structure Triplet (α : Type) where
  row : Nat
  col : Nat
  value : α

/-- The lambda `idx(y, x) = y * N + x`, on `int` arguments. -/
def idx (N : Nat) (y x : Int) : Int := y * N + x

/-- The lambda `add(yy, xx)` of cell `i`: the state is the triplet vector and `diag`. -/
def add {α : Type} [Field α] (N : Nat) (i : Int) (st : List (Triplet α) × α) (yy xx : Int) :
    List (Triplet α) × α :=
  if 0 ≤ yy ∧ yy < N ∧ 0 ≤ xx ∧ xx < N then
    (st.1 ++ [⟨i.toNat, (idx N yy xx).toNat, -1⟩], st.2 + 1)
  else st

/-- The body of the double loop for cell `(y, x)`: four `add` calls, then the diagonal. -/
def cellBody {α : Type} [Field α] (N : Nat) (y x : Nat) (triplets : List (Triplet α)) :
    List (Triplet α) :=
  let i := idx N y x
  let s0 : List (Triplet α) × α := (triplets, 0)
  let s1 := add N i s0 (y - 1) x
  let s2 := add N i s1 (y + 1) x
  let s3 := add N i s2 y (x - 1)
  let s4 := add N i s3 y (x + 1)
  s4.1 ++ [⟨i.toNat, i.toNat, s4.2⟩]

/-- The triplet vector after the double loop and the anchor `emplace_back(0, 0, 1.0f)`. -/
def assembleTriplets {α : Type} [Field α] (N : Nat) : List (Triplet α) :=
  (List.range N).foldl
    (fun t y => (List.range N).foldl (fun t x => cellBody N y x t) t) [] ++ [⟨0, 0, 1⟩]

/-- The assembly `setFromTriplets`: the coefficient `(i, j)` is the sum of the values of the triplets
at `(i, j)` (duplicates are summed). -/
def setFromTriplets {α : Type} [Field α] (ts : List (Triplet α)) (i j : Nat) : α :=
  (ts.map (fun t => if t.row = i ∧ t.col = j then t.value else 0)).sum

/-- The matrix `A` that `SolvePoisson` hands to the solver. -/
def poissonMatrix {α : Type} [Field α] (N : Nat) (i j : Nat) : α :=
  setFromTriplets (assembleTriplets N) i j

/-- The right-hand side `bvec`: `bvec[idx(y, x)] = b(y, x)` for every cell, then
`bvec[0] = 0`. -/
def poissonRhs {α : Type} [Field α] (N : Nat) (b : Nat → Nat → α) : Nat → α :=
  Function.update
    ((List.range N).foldl
      (fun bv (y : Nat) => (List.range N).foldl
        (fun bv (x : Nat) => Function.update bv (idx N y x).toNat (b y x)) bv)
      (fun _ => 0))
    0 0

/-- The product `(A v)[i]` over the `M = N * N` columns. -/
def matVec {α : Type} [Field α] (A : Nat → Nat → α) (M : Nat) (v : Nat → α) (i : Nat) : α :=
  ∑ j in Finset.range M, A i j * v j

/-- The vector `v` solves the system `A v = bvec` that `SolvePoisson(b)` assembles. -/
def IsPoissonSolution {α : Type} [Field α] (N : Nat) (b : Nat → Nat → α) (v : Nat → α) : Prop :=
  ∀ i, i < N * N → matVec (poissonMatrix N) (N * N) v i = poissonRhs N b i

/-- The height field of the test: `h(y, x) = sin(pi * x / (N - 1)) * sin(pi * y / (N - 1))`. -/
def testHeight {α : Type} [Field α] (sin : α → α) (pi : α) (N : Nat) (y x : Nat) : α :=
  sin (pi * x / ((N : α) - 1)) * sin (pi * y / ((N : α) - 1))

/-- The lambda `sample(yy, xx)` of the test: both indices clamped to `0 .. N - 1`. -/
def sample {α : Type} (N : Nat) (h : Nat → Nat → α) (yy xx : Int) : α :=
  h (max 0 (min yy ((N : Int) - 1))).toNat (max 0 (min xx ((N : Int) - 1))).toNat

/-- The right-hand side built by the test: the four clamped neighbours minus `4 h(y, x)`. -/
def testRhs {α : Type} [Field α] (N : Nat) (h : Nat → Nat → α) (y x : Nat) : α :=
  ((((0 + sample N h (y - 1) x) + sample N h (y + 1) x) + sample N h y (x - 1)) +
    sample N h y (x + 1)) - 4 * h y x

/-- The accumulated squared error `err` of the test against the reference field. -/
def testErr {α : Type} [Field α] (N : Nat) (sol : Nat → α) (h : Nat → Nat → α) : α :=
  ∑ y in Finset.range N, ∑ x in Finset.range N, (sol (y * N + x) - h y x) * (sol (y * N + x) - h y x)

/-- The contribution of a triplet list to row `i` of the product with `v`. -/
def rowSum {α : Type} [Field α] (ts : List (Triplet α)) (i : Nat) (v : Nat → α) : α :=
  (ts.map (fun t => if t.row = i then t.value * v t.col else 0)).sum

/-- The 5-point stencil at cell `(y, x)` of the `N x N` grid, applied to `v`: the sum of
`v[i] - v[j]` over the in-grid 4-neighbours `j` of `i = y * N + x`. -/
def stencil {α : Type} [Field α] (N : Nat) (v : Nat → α) (y x : Nat) : α :=
  (if 1 ≤ y then v (y * N + x) - v ((y - 1) * N + x) else 0) +
  (if y + 1 < N then v (y * N + x) - v ((y + 1) * N + x) else 0) +
  (if 1 ≤ x then v (y * N + x) - v (y * N + (x - 1)) else 0) +
  (if x + 1 < N then v (y * N + x) - v (y * N + (x + 1)) else 0)

/-- The triplet vector after the double loop of `SolvePoisson`, before the anchor entry
is emplaced. -/
def stencilTriplets {α : Type} [Field α] (N : Nat) : List (Triplet α) :=
  (List.range N).foldl
    (fun t y => (List.range N).foldl (fun t x => cellBody N y x t) t) []

/-- The matrix of the 5-point stencil alone: `setFromTriplets` on the triplets emplaced
before the anchor. -/
def stencilMatrix {α : Type} [Field α] (N : Nat) (i j : Nat) : α :=
  setFromTriplets (stencilTriplets N) i j

/-- The number of in-grid 4-neighbours of cell `(y, x)` of the `N x N` grid. -/
def neighbourCount (N y x : Nat) : Nat :=
  (if 1 ≤ y then 1 else 0) + (if y + 1 < N then 1 else 0) +
    (if 1 ≤ x then 1 else 0) + (if x + 1 < N then 1 else 0)

/-- The cell `(y', x')` is a 4-neighbour of the cell `(y, x)`: one step up, down, left or
right. -/
def isNeighbour (y x y' x' : Nat) : Prop :=
  (x' = x ∧ (y' + 1 = y ∨ y' = y + 1)) ∨ (y' = y ∧ (x' + 1 = x ∨ x' = x + 1))

/-- The coordinate `k` lies on the border of `0 .. N - 1`. -/
def onBorder (N k : Nat) : Prop := k = 0 ∨ k + 1 = N

instance isNeighbourDecidable (y x y' x' : Nat) : Decidable (isNeighbour y x y' x') := by
  unfold isNeighbour
  infer_instance

instance onBorderDecidable (N k : Nat) : Decidable (onBorder N k) := by
  unfold onBorder
  infer_instance

/-- A right-hand side for the `2 x 2` grid that is 1 at cell `(0, 1)` and 0 elsewhere. -/
def anchorTestRhs (y x : Nat) : ℚ := if y = 0 ∧ x = 1 then 1 else 0

/-- The solution `(1, 7/4, 5/4, 3/2)` of the `2 x 2` system for `anchorTestRhs`. -/
def anchorTestSol (i : Nat) : ℚ := [1, 7 / 4, 5 / 4, 3 / 2].getD i 0

/-! # Properties -/

/-! ## Orientation counts -/

theorem counts_step_eq (c : OrientationCounts) (d m u v : Bool) :
    (if d = true then c
      else ({ flip_u := if (m && u) = true then c.flip_u + 1 else c.flip_u
              flip_v := if (m && v) = true then c.flip_v + 1 else c.flip_v
              total := c.total + 1 } : OrientationCounts)) =
      ⟨c.flip_u + (if (!d && (m && u)) = true then 1 else 0),
        c.flip_v + (if (!d && (m && v)) = true then 1 else 0),
        c.total + (if d = true then 0 else 1)⟩ := by
  cases d <;> cases m <;> cases u <;> cases v <;> simp

theorem accumulateFace_eq {F D : Type} (A : Arith F D) (mesh : Mesh F) (c : OrientationCounts)
    (face : Face) :
    accumulateFace A mesh c face =
      match faceTri A mesh face with
      | none => c
      | some t =>
        ⟨c.flip_u + (if t.votesU A then 1 else 0), c.flip_v + (if t.votesV A then 1 else 0),
          c.total + (if t.degenerate A then 0 else 1)⟩ := by
  unfold accumulateFace faceTri
  split
  · exact counts_step_eq c _ _ _ _
  · rfl

theorem foldl_accumulateFace {F D : Type} (A : Arith F D) (mesh : Mesh F) (faces : List Face)
    (c : OrientationCounts) :
    faces.foldl (accumulateFace A mesh) c =
      ⟨c.flip_u + votesUCount A (faces.filterMap (faceTri A mesh)),
        c.flip_v + votesVCount A (faces.filterMap (faceTri A mesh)),
        c.total + totalCount A (faces.filterMap (faceTri A mesh))⟩ := by
  induction faces generalizing c with
  | nil => simp [votesUCount, votesVCount, totalCount]
  | cons f fs ih =>
    rw [List.foldl_cons, ih, accumulateFace_eq]
    cases hf : faceTri A mesh f with
    | none => simp [List.filterMap_cons, hf]
    | some t =>
      simp only [List.filterMap_cons, hf, votesUCount, votesVCount, totalCount,
        List.countP_cons]
      congr 1
      · cases t.votesU A <;> simp [Nat.add_assoc, Nat.add_comm]
      · cases t.votesV A <;> simp [Nat.add_assoc, Nat.add_comm]
      · cases t.degenerate A <;> simp [Nat.add_assoc, Nat.add_comm]

/-! ## The second face loop, triangle by triangle -/

theorem inspectFace_tiles {F D : Type} (A : Arith F D) (mesh : Mesh F) (st : MatState)
    (face : Face) :
    (inspectFace A mesh st face).tiles =
      match faceTri A mesh face with
      | none => st.tiles
      | some t => tilesStep A st.tiles t := by
  unfold inspectFace faceTri
  split
  · simp only []
    split <;> rfl
  · rfl

theorem inspectFace_cells {F D : Type} (A : Arith F D) (mesh : Mesh F) (st : MatState)
    (face : Face) :
    ((inspectFace A mesh st face).seen_cells, (inspectFace A mesh st face).overlapping_uvs) =
      match faceTri A mesh face with
      | none => (st.seen_cells, st.overlapping_uvs)
      | some t => cellStep A (st.seen_cells, st.overlapping_uvs) t := by
  unfold inspectFace faceTri cellStep
  split
  · simp only [Tri.key, Tri.uvs, faceUVs]
    split <;> rfl
  · rfl

theorem inspectFace_counts {F D : Type} (A : Arith F D) (mesh : Mesh F) (st : MatState)
    (face : Face) : (inspectFace A mesh st face).counts = st.counts := by
  unfold inspectFace
  split
  · simp only []
    split <;> rfl
  · rfl

theorem inspectFace_uv_sets {F D : Type} (A : Arith F D) (mesh : Mesh F) (st : MatState)
    (face : Face) : (inspectFace A mesh st face).uv_sets = st.uv_sets := by
  unfold inspectFace
  split
  · simp only []
    split <;> rfl
  · rfl

/-- A projection of the state that each face updates through its triangle only is,
after the face loop, the fold of that update over the triangles. -/
theorem foldl_inspectFace_proj {F D : Type} (A : Arith F D) {β : Type} (π : MatState → β)
    (g : β → Tri F → β) (mesh : Mesh F)
    (h : ∀ st face, π (inspectFace A mesh st face) =
      match faceTri A mesh face with
      | none => π st
      | some t => g (π st) t)
    (faces : List Face) (st : MatState) :
    π (faces.foldl (inspectFace A mesh) st) =
      (faces.filterMap (faceTri A mesh)).foldl g (π st) := by
  induction faces generalizing st with
  | nil => rfl
  | cons f fs ih =>
    rw [List.foldl_cons, ih, h]
    cases hf : faceTri A mesh f <;> simp [List.filterMap_cons, hf]

/-- A face-loop invariant projection stays put. -/
theorem foldl_inspectFace_const {F D : Type} (A : Arith F D) {β : Type} (π : MatState → β)
    (mesh : Mesh F) (h : ∀ st face, π (inspectFace A mesh st face) = π st)
    (faces : List Face) (st : MatState) :
    π (faces.foldl (inspectFace A mesh) st) = π st := by
  induction faces generalizing st with
  | nil => rfl
  | cons f fs ih => rw [List.foldl_cons, ih, h]

/-- The mesh loop, seen through a projection that only the second face loop changes. -/
theorem foldl_inspectMeshStep_proj {F D : Type} (A : Arith F D) {β : Type} (π : MatState → β)
    (g : β → Tri F → β)
    (h : ∀ mesh st face, π (inspectFace A mesh st face) =
      match faceTri A mesh face with
      | none => π st
      | some t => g (π st) t)
    (hu : ∀ (st : MatState) u, π { st with uv_sets := u } = π st)
    (hc : ∀ (st : MatState) c, π { st with counts := c } = π st)
    (m : Nat) (meshes : List (Mesh F)) (st : MatState) :
    π (meshes.foldl (inspectMeshStep A m) st) =
      ((materialMeshes meshes m).flatMap (meshTriangles A)).foldl g (π st) := by
  induction meshes generalizing st with
  | nil => rfl
  | cons mesh ms ih =>
    rw [List.foldl_cons, ih]
    unfold inspectMeshStep materialMeshes
    by_cases hm : mesh.mMaterialIndex = m
    · by_cases ht : mesh.HasTextureCoords0 = true
      · simp only [hm, ht, ne_eq, not_true_eq_false, if_false, Bool.not_true, decide_True,
          Bool.and_self, List.filter_cons_of_pos, List.flatMap_cons, List.foldl_append,
          Bool.false_eq_true]
        have e : π { st with
            uv_sets := (List.range mesh.GetNumUVChannels).foldl uvSetStep st.uv_sets
            counts := AccumulateOrientation A mesh st.counts } = π st :=
          (hc { st with
            uv_sets := (List.range mesh.GetNumUVChannels).foldl uvSetStep st.uv_sets } _).trans
            (hu st _)
        rw [foldl_inspectFace_proj A π g mesh (h mesh), e]
        rfl
      · simp only [Bool.not_eq_true] at ht
        simp [hm, ht, hu]
    · simp [hm]

/-- The orientation counts after the mesh loop. -/
theorem foldl_inspectMeshStep_counts {F D : Type} (A : Arith F D) (m : Nat)
    (meshes : List (Mesh F)) (st : MatState) :
    (meshes.foldl (inspectMeshStep A m) st).counts =
      ⟨st.counts.flip_u +
          votesUCount A ((materialMeshes meshes m).flatMap (meshTriangles A)),
        st.counts.flip_v +
          votesVCount A ((materialMeshes meshes m).flatMap (meshTriangles A)),
        st.counts.total +
          totalCount A ((materialMeshes meshes m).flatMap (meshTriangles A))⟩ := by
  induction meshes generalizing st with
  | nil => simp [materialMeshes, votesUCount, votesVCount, totalCount]
  | cons mesh ms ih =>
    rw [List.foldl_cons, ih]
    unfold inspectMeshStep materialMeshes
    by_cases hm : mesh.mMaterialIndex = m
    · by_cases ht : mesh.HasTextureCoords0 = true
      · simp only [hm, ht, ne_eq, not_true_eq_false, if_false, Bool.not_true, decide_True,
          Bool.and_self, List.filter_cons_of_pos, List.flatMap_cons, Bool.false_eq_true]
        rw [foldl_inspectFace_const A (fun s => s.counts) mesh (inspectFace_counts A mesh)]
        simp only [AccumulateOrientation, ht, if_true, foldl_accumulateFace, votesUCount,
          votesVCount, totalCount, List.countP_append, meshTriangles, Nat.add_assoc]
      · simp only [Bool.not_eq_true] at ht
        simp [hm, ht]
    · simp [hm]

theorem materialState_counts {F D : Type} (A : Arith F D) (scene : Scene F) (m : Nat) :
    (materialState A scene m).counts =
      ⟨votesUCount A (materialTriangles A scene m), votesVCount A (materialTriangles A scene m),
        totalCount A (materialTriangles A scene m)⟩ := by
  unfold materialState materialTriangles
  rw [foldl_inspectMeshStep_counts]
  simp

theorem materialState_tiles {F D : Type} (A : Arith F D) (scene : Scene F) (m : Nat) :
    (materialState A scene m).tiles = (materialTriangles A scene m).foldl (tilesStep A) [] := by
  unfold materialState materialTriangles
  exact foldl_inspectMeshStep_proj A (fun s => s.tiles) (tilesStep A) (inspectFace_tiles A)
    (fun _ _ => rfl) (fun _ _ => rfl) m scene.mMeshes {}

theorem materialState_cells {F D : Type} (A : Arith F D) (scene : Scene F) (m : Nat) :
    ((materialState A scene m).seen_cells, (materialState A scene m).overlapping_uvs) =
      (materialTriangles A scene m).foldl (cellStep A) ([], false) := by
  unfold materialState materialTriangles
  exact foldl_inspectMeshStep_proj A (fun s => (s.seen_cells, s.overlapping_uvs)) (cellStep A)
    (inspectFace_cells A) (fun _ _ => rfl) (fun _ _ => rfl) m scene.mMeshes {}

/-! ## `InspectMesh` reports one `MaterialInfo` per material -/

theorem mem_zipWith_range {α β : Type} (f : Nat → α → β) (l : List α) (b : β) (k : Nat)
    (h : b ∈ List.zipWith f (List.range' k l.length) l) :
    ∃ m a, a ∈ l ∧ b = f m a := by
  induction l generalizing k with
  | nil => simp at h
  | cons a as ih =>
    simp only [List.length_cons, List.range'_succ, List.zipWith_cons_cons, List.mem_cons] at h
    rcases h with h | h
    · exact ⟨k, a, List.mem_cons_self _ _, h⟩
    · obtain ⟨m, a', ha, hb⟩ := ih (k + 1) h
      exact ⟨m, a', List.mem_cons_of_mem _ ha, hb⟩

/-- Every entry of a returned report is the `MaterialInfo` built for some material. -/
theorem mem_report {F D : Type} (A : Arith F D) (open_ : String → Option (Image F))
    (err : String) (scene : Scene F) (report : InspectReport)
    (h : InspectMesh A open_ err (some scene) = .ok report)
    (info : MaterialInfo) (hi : info ∈ report.materials) :
    ∃ m mat, mat ∈ scene.mMaterials ∧ info = inspectMaterial A open_ scene m mat := by
  simp only [InspectMesh, Except.ok.injEq] at h
  subst h
  simp only [List.range_eq_range'] at hi
  exact mem_zipWith_range _ _ _ _ hi

theorem inspectMaterial_index {F D : Type} (A : Arith F D) (open_ : String → Option (Image F))
    (scene : Scene F) (m : Nat) (mat : Material) :
    (inspectMaterial A open_ scene m mat).index.toNat = m := by
  simp [inspectMaterial]

theorem votesUCount_le_total {F D : Type} (A : Arith F D) (ts : List (Tri F)) :
    votesUCount A ts ≤ totalCount A ts := by
  unfold votesUCount totalCount
  apply List.countP_mono_left
  intro t _ h
  simp only [Tri.votesU, Bool.and_eq_true] at h
  exact h.1

theorem votesVCount_le_total {F D : Type} (A : Arith F D) (ts : List (Tri F)) :
    votesVCount A ts ≤ totalCount A ts := by
  unfold votesVCount totalCount
  apply List.countP_mono_left
  intro t _ h
  simp only [Tri.votesV, Bool.and_eq_true] at h
  exact h.1

theorem inspectMaterial_flip_u {F D : Type} (A : Arith F D) (open_ : String → Option (Image F))
    (scene : Scene F) (m : Nat) (mat : Material) :
    (inspectMaterial A open_ scene m mat).flip_u =
      decide (totalCount A (materialTriangles A scene m) <
        2 * votesUCount A (materialTriangles A scene m)) := by
  have hle := votesUCount_le_total A (materialTriangles A scene m)
  simp only [inspectMaterial, materialState_counts]
  by_cases h0 : 0 < totalCount A (materialTriangles A scene m)
  · simp only [h0, if_true]
    congr 1
    exact propext (by omega)
  · simp only [h0, if_false]
    symm
    rw [decide_eq_false_iff_not]
    omega

theorem inspectMaterial_flip_v {F D : Type} (A : Arith F D) (open_ : String → Option (Image F))
    (scene : Scene F) (m : Nat) (mat : Material) :
    (inspectMaterial A open_ scene m mat).flip_v =
      decide (totalCount A (materialTriangles A scene m) <
        2 * votesVCount A (materialTriangles A scene m)) := by
  have hle := votesVCount_le_total A (materialTriangles A scene m)
  simp only [inspectMaterial, materialState_counts]
  by_cases h0 : 0 < totalCount A (materialTriangles A scene m)
  · simp only [h0, if_true]
    congr 1
    exact propext (by omega)
  · simp only [h0, if_false]
    symm
    rw [decide_eq_false_iff_not]
    omega

/-! ## The two arithmetics -/

theorem epsLiteral_pos : 0 < epsLiteral := by
  norm_num [epsLiteral]

theorem epsLiteral_le : epsLiteral ≤ 1 / 10 ^ 8 := by
  norm_num [epsLiteral]

theorem Format.round_neg (fmt : Format) (q : ℚ) : fmt.round (-q) = (fmt.round q).neg := by
  unfold Format.round
  by_cases h0 : q = 0
  · simp [h0, FP.neg]
  · have h0' : -q ≠ 0 := neg_ne_zero.mpr h0
    rw [if_neg h0', if_neg h0, abs_neg]
    by_cases hov : pow2 (fmt.emax + 1) ≤ fmt.roundMag |q|
    · rw [if_pos hov, if_pos hov]
      simp only [FP.neg, FP.inf.injEq]
      rcases lt_or_gt_of_ne h0 with h | h
      · have h' : ¬ (-q < 0) := by linarith
        simp [h, h']
      · have h' : -q < 0 := by linarith
        have h'' : ¬ (q < 0) := by linarith
        simp [h', h'']
    · rw [if_neg hov, if_neg hov]
      rcases lt_or_gt_of_ne h0 with h | h
      · have h' : ¬ (-q < 0) := by linarith
        rw [if_neg h', if_pos h]
        simp [FP.neg]
      · have h' : -q < 0 := by linarith
        have h'' : ¬ (q < 0) := by linarith
        rw [if_pos h', if_neg h'']
        simp [FP.neg]

theorem FP.neg_neg (a : FP) : a.neg.neg = a := by
  cases a <;> simp [FP.neg]

theorem FP.add_neg (fmt : Format) (a b : FP) :
    FP.add fmt a.neg b.neg = (FP.add fmt a b).neg := by
  cases a with
  | fin x =>
    cases b with
    | fin y =>
      show fmt.round (-x + -y) = (fmt.round (x + y)).neg
      rw [← Format.round_neg]
      congr 1
      ring
    | inf s => simp [FP.neg, FP.add]
    | nan => simp [FP.neg, FP.add]
  | inf s =>
    cases b with
    | fin y => simp [FP.neg, FP.add]
    | inf s' =>
      simp only [FP.neg, FP.add]
      cases s <;> cases s' <;> simp [FP.neg]
    | nan => simp [FP.neg, FP.add]
  | nan => cases b <;> simp [FP.neg, FP.add]

theorem FP.neg_mul (fmt : Format) (a b : FP) :
    FP.mul fmt a.neg b = (FP.mul fmt a b).neg := by
  cases a with
  | fin x =>
    cases b with
    | fin y =>
      show fmt.round (-x * y) = (fmt.round (x * y)).neg
      rw [← Format.round_neg]
      congr 1
      ring
    | inf s =>
      simp only [FP.neg, FP.mul]
      by_cases hx : x = 0
      · simp [hx, FP.neg]
      · rw [if_neg (neg_ne_zero.mpr hx), if_neg hx]
        simp only [FP.neg, FP.inf.injEq]
        rcases lt_or_gt_of_ne hx with h | h
        · have h' : ¬ (-x < 0) := by linarith
          cases s <;> simp [h, h']
        · have h' : -x < 0 := by linarith
          have h'' : ¬ (x < 0) := by linarith
          cases s <;> simp [h', h'']
    | nan => simp [FP.neg, FP.mul]
  | inf s =>
    cases b with
    | fin y =>
      simp only [FP.neg, FP.mul]
      by_cases hy : y = 0
      · simp [hy, FP.neg]
      · rw [if_neg hy, if_neg hy]
        cases s <;> by_cases h : y < 0 <;> simp [FP.neg, h]
    | inf s' =>
      simp only [FP.neg, FP.mul]
      cases s <;> cases s' <;> simp [FP.neg]
    | nan => simp [FP.neg, FP.mul]
  | nan => cases b <;> simp [FP.neg, FP.mul]

theorem FP.mul_neg (fmt : Format) (a b : FP) :
    FP.mul fmt a b.neg = (FP.mul fmt a b).neg := by
  cases a with
  | fin x =>
    cases b with
    | fin y =>
      show fmt.round (x * -y) = (fmt.round (x * y)).neg
      rw [← Format.round_neg]
      congr 1
      ring
    | inf s =>
      simp only [FP.neg, FP.mul]
      by_cases hx : x = 0
      · simp [hx, FP.neg]
      · rw [if_neg hx, if_neg hx]
        cases s <;> by_cases h : x < 0 <;> simp [FP.neg, h]
    | nan => simp [FP.neg, FP.mul]
  | inf s =>
    cases b with
    | fin y =>
      simp only [FP.neg, FP.mul]
      by_cases hy : y = 0
      · simp [hy, FP.neg]
      · rw [if_neg (neg_ne_zero.mpr hy), if_neg hy]
        simp only [FP.neg, FP.inf.injEq]
        rcases lt_or_gt_of_ne hy with h | h
        · have h' : ¬ (-y < 0) := by linarith
          cases s <;> simp [h, h']
        · have h' : -y < 0 := by linarith
          have h'' : ¬ (y < 0) := by linarith
          cases s <;> simp [h', h'']
    | inf s' =>
      simp only [FP.neg, FP.mul]
      cases s <;> cases s' <;> simp [FP.neg]
    | nan => simp [FP.neg, FP.mul]
  | nan => cases b <;> simp [FP.neg, FP.mul]

theorem binary32_ofInt_zero : binary32Arith.ofInt 0 = .fin 0 := by
  show binary32.round ((0 : Int) : ℚ) = .fin 0
  simp [Format.round]

/-- Exact arithmetic is sign-symmetric. -/
theorem exactArith_signSymm : exactArith.SignSymm where
  add_neg a b := by
    show -a + -b = -(a + b)
    ring
  sub_neg a b := by
    show -a - -b = -(a - b)
    ring
  neg_mul a b := by
    show -a * b = -(a * b)
    ring
  mul_neg a b := by
    show a * -b = -(a * b)
    ring
  lt_neg a := by
    show decide (((0 : Int) : ℚ) < -a) = decide (a < ((0 : Int) : ℚ))
    simp

/-- Binary32 arithmetic with round-to-nearest is sign-symmetric. -/
theorem binary32Arith_signSymm : binary32Arith.SignSymm where
  add_neg a b := FP.add_neg binary32 a b
  sub_neg a b := by
    show FP.add binary32 a.neg b.neg.neg = (FP.add binary32 a b.neg).neg
    exact FP.add_neg binary32 a b.neg
  neg_mul a b := FP.neg_mul binary32 a b
  mul_neg a b := FP.mul_neg binary32 a b
  lt_neg a := by
    rw [binary32_ofInt_zero]
    show FP.lt (.fin 0) a.neg = FP.lt a (.fin 0)
    cases a with
    | fin q => simp [FP.neg, FP.lt]
    | inf s => simp [FP.neg, FP.lt]
    | nan => simp [FP.neg, FP.lt]

/-! ## The sign of the tangent frame in a sign-symmetric arithmetic -/

theorem Vec3.cross_neg_left {F D : Type} (A : Arith F D) (hA : A.SignSymm) (a b : Vec3 F) :
    (a.neg A).cross A b = (a.cross A b).neg A := by
  simp only [Vec3.cross, Vec3.neg, hA.neg_mul, hA.sub_neg]

theorem Vec3.cross_neg_right {F D : Type} (A : Arith F D) (hA : A.SignSymm) (a b : Vec3 F) :
    a.cross A (b.neg A) = (a.cross A b).neg A := by
  simp only [Vec3.cross, Vec3.neg, hA.mul_neg, hA.sub_neg]

theorem Vec3.dot_neg_left {F D : Type} (A : Arith F D) (hA : A.SignSymm) (a b : Vec3 F) :
    (a.neg A).dot A b = A.neg (a.dot A b) := by
  simp only [Vec3.dot, Vec3.neg, hA.neg_mul, hA.add_neg]

theorem Tri.testU_eq_mirrored {F D : Type} (A : Arith F D) (hA : A.SignSymm) (t : Tri F) :
    t.testU A = t.mirrored A := by
  simp only [Tri.testU, Tri.mirrored, Vec3.cross_neg_left A hA, Vec3.dot_neg_left A hA, hA.lt_neg]

theorem Tri.testV_eq_mirrored {F D : Type} (A : Arith F D) (hA : A.SignSymm) (t : Tri F) :
    t.testV A = t.mirrored A := by
  simp only [Tri.testV, Tri.mirrored, Vec3.cross_neg_right A hA, Vec3.dot_neg_left A hA,
    hA.lt_neg]

theorem Tri.votesU_eq {F D : Type} (A : Arith F D) (hA : A.SignSymm) (t : Tri F) :
    t.votesU A = (!t.degenerate A && t.mirrored A) := by
  simp only [Tri.votesU, Tri.testU_eq_mirrored A hA, Bool.and_self]

theorem Tri.votesV_eq {F D : Type} (A : Arith F D) (hA : A.SignSymm) (t : Tri F) :
    t.votesV A = (!t.degenerate A && t.mirrored A) := by
  simp only [Tri.votesV, Tri.testV_eq_mirrored A hA, Bool.and_self]

theorem Tri.votesU_eq_votesV {F D : Type} (A : Arith F D) (hA : A.SignSymm) (t : Tri F) :
    t.votesU A = t.votesV A := by
  rw [Tri.votesU_eq A hA, Tri.votesV_eq A hA]

theorem votesUCount_eq_votesVCount {F D : Type} (A : Arith F D) (hA : A.SignSymm)
    (ts : List (Tri F)) : votesUCount A ts = votesVCount A ts := by
  unfold votesUCount votesVCount
  congr 1
  funext t
  exact t.votesU_eq_votesV A hA

/-! ## C2: the majority rule -/

/-- C17: in every sign-symmetric arithmetic (exact arithmetic and binary32 with round to
nearest are sign-symmetric, the last conjunct), for every triangle the conditions
`((-t) x b) . n > 0` and `(t x (-b)) . n > 0` are both equivalent to `(t x b) . n < 0`, so
a mirrored triangle increments `flip_u` and `flip_v` together; the face loop of
`AccumulateOrientation` adds the same amount to both counters over any sequence of faces
(so they stay equal when they start equal), and every `MaterialInfo` reported by
`InspectMesh` has `flip_u = flip_v`. -/
theorem flip_votes_coincide {F D : Type} (A : Arith F D) (hA : A.SignSymm)
    (open_ : String → Option (Image F)) (err : String)
    (scene : Scene F) (report : InspectReport)
    (h : InspectMesh A open_ err (some scene) = .ok report)
    (info : MaterialInfo) (hi : info ∈ report.materials) :
    (∀ t : Tri F,
      (A.lt (A.ofInt 0) ((((t.tangent A).neg A).cross A (t.bitangent A)).dot A (t.normal A))
          = true ↔
        A.lt (((t.tangent A).cross A (t.bitangent A)).dot A (t.normal A)) (A.ofInt 0) = true) ∧
      (A.lt (A.ofInt 0) (((t.tangent A).cross A ((t.bitangent A).neg A)).dot A (t.normal A))
          = true ↔
        A.lt (((t.tangent A).cross A (t.bitangent A)).dot A (t.normal A)) (A.ofInt 0) = true)) ∧
    (∀ (mesh : Mesh F) (faces : List Face) (c : OrientationCounts),
      (faces.foldl (accumulateFace A mesh) c).flip_u + c.flip_v =
        (faces.foldl (accumulateFace A mesh) c).flip_v + c.flip_u) ∧
    (∀ (mesh : Mesh F) (c : OrientationCounts), c.flip_u = c.flip_v →
      (AccumulateOrientation A mesh c).flip_u = (AccumulateOrientation A mesh c).flip_v) ∧
    (materialState A scene info.index.toNat).counts.flip_u =
      (materialState A scene info.index.toNat).counts.flip_v ∧
    info.flip_u = info.flip_v ∧
    (exactArith.SignSymm ∧ binary32Arith.SignSymm) := by
  obtain ⟨m, mat, -, rfl⟩ := mem_report A open_ err scene report h info hi
  refine ⟨?_, ?_, ?_, ?_, ?_, ⟨exactArith_signSymm, binary32Arith_signSymm⟩⟩
  · intro t
    have hu := t.testU_eq_mirrored A hA
    have hv := t.testV_eq_mirrored A hA
    simp only [Tri.testU, Tri.testV, Tri.mirrored] at hu hv
    rw [hu, hv]
    exact ⟨Iff.rfl, Iff.rfl⟩
  · intro mesh faces c
    rw [foldl_accumulateFace]
    simp only [votesUCount_eq_votesVCount A hA]
    omega
  · intro mesh c hc
    unfold AccumulateOrientation
    split
    · rw [foldl_accumulateFace]
      simp only [votesUCount_eq_votesVCount A hA, hc]
    · exact hc
  · rw [inspectMaterial_index, materialState_counts]
    exact votesUCount_eq_votesVCount A hA _
  · rw [inspectMaterial_flip_u, inspectMaterial_flip_v, votesUCount_eq_votesVCount A hA]

/-- On the mirrored quad, computed in binary32, both flags are reported, and they agree. -/
theorem flip_votes_coincide_witness :
    InspectMesh binary32Arith (fun _ => none) "" (some (mirroredQuadScene.map FP.fin)) =
        .ok ⟨[inspectMaterial binary32Arith (fun _ => none) (mirroredQuadScene.map FP.fin) 0
          plainMaterial]⟩ ∧
      (inspectMaterial binary32Arith (fun _ => none) (mirroredQuadScene.map FP.fin) 0
          plainMaterial).flip_u =
        (inspectMaterial binary32Arith (fun _ => none) (mirroredQuadScene.map FP.fin) 0
          plainMaterial).flip_v :=
  ⟨rfl, (flip_votes_coincide binary32Arith binary32Arith_signSymm (fun _ => none) ""
    (mirroredQuadScene.map FP.fin)
    ⟨[inspectMaterial binary32Arith (fun _ => none) (mirroredQuadScene.map FP.fin) 0
      plainMaterial]⟩ rfl
    (inspectMaterial binary32Arith (fun _ => none) (mirroredQuadScene.map FP.fin) 0
      plainMaterial)
    (List.mem_singleton_self _)).2.2.2.2.1⟩

/-! ## The tangent frame over exact arithmetic -/

theorem Tri.r_exact (t : Tri ℚ) : t.r exactArith = t.uvDet := rfl

theorem Tri.degenerate_exact (t : Tri ℚ) :
    t.degenerate exactArith = decide (|t.uvDet| < epsLiteral) := rfl

theorem Tri.cross_tb_eq (t : Tri ℚ) (hr : t.uvDet ≠ 0) :
    (t.tangent exactArith).cross exactArith (t.bitangent exactArith) =
      (t.normal exactArith).scale exactArith (1 / t.uvDet) := by
  have hr2 : (t.uv1.x - t.uv0.x) * (t.uv2.y - t.uv0.y) -
      (t.uv1.y - t.uv0.y) * (t.uv2.x - t.uv0.x) ≠ 0 := hr
  simp only [Tri.tangent, Tri.bitangent, Tri.normal, Tri.e1, Tri.e2, Tri.r, Tri.uvDet,
    Vec3.cross, Vec3.scale, Vec3.sub, Vec3.mk.injEq, exactArith, Int.cast_one] at hr2 ⊢
  refine ⟨?_, ?_, ?_⟩ <;> field_simp <;> ring

theorem Vec3.dot_scale_exact (a b : Vec3 ℚ) (f : ℚ) :
    (a.scale exactArith f).dot exactArith b = a.dot exactArith b * f := by
  simp only [Vec3.dot, Vec3.scale, exactArith]
  ring

theorem Tri.cross_tb_dot_normal (t : Tri ℚ) (hr : t.uvDet ≠ 0) :
    ((t.tangent exactArith).cross exactArith (t.bitangent exactArith)).dot exactArith
        (t.normal exactArith) =
      (t.normal exactArith).dot exactArith (t.normal exactArith) / t.uvDet := by
  rw [Tri.cross_tb_eq t hr, Vec3.dot_scale_exact]
  ring

theorem Vec3.dot_self_nonneg (a : Vec3 ℚ) : 0 ≤ a.dot exactArith a := by
  show 0 ≤ a.x * a.x + a.y * a.y + a.z * a.z
  nlinarith [mul_self_nonneg a.x, mul_self_nonneg a.y, mul_self_nonneg a.z]

theorem Vec3.dot_self_pos (a : Vec3 ℚ) (h : a ≠ Vec3.zero exactArith) :
    0 < a.dot exactArith a := by
  rcases lt_or_eq_of_le (Vec3.dot_self_nonneg a) with h1 | h1
  · exact h1
  · exfalso
    apply h
    obtain ⟨x, y, z⟩ := a
    have h1' : 0 = x * x + y * y + z * z := h1
    have hx : x * x = 0 := by nlinarith [mul_self_nonneg x, mul_self_nonneg y, mul_self_nonneg z]
    have hy : y * y = 0 := by nlinarith [mul_self_nonneg x, mul_self_nonneg y, mul_self_nonneg z]
    have hz : z * z = 0 := by nlinarith [mul_self_nonneg x, mul_self_nonneg y, mul_self_nonneg z]
    rw [mul_self_eq_zero] at hx hy hz
    rw [hx, hy, hz]
    simp [Vec3.zero, exactArith]

theorem Tri.uvDet_ne_zero_of_counted (t : Tri ℚ) (h : t.degenerate exactArith = false) :
    t.uvDet ≠ 0 := by
  rw [Tri.degenerate_exact, decide_eq_false_iff_not, not_lt] at h
  intro h0
  rw [h0, abs_zero] at h
  exact absurd h (not_le.mpr epsLiteral_pos)

/-- The code's `mirrored` flag of a counted triangle, over exact arithmetic: negative UV
determinant and a non-zero geometric normal. -/
theorem Tri.mirrored_exact_iff (t : Tri ℚ) (h : t.degenerate exactArith = false) :
    t.mirrored exactArith = true ↔ t.uvDet < 0 ∧ t.normal exactArith ≠ Vec3.zero exactArith := by
  have hr := t.uvDet_ne_zero_of_counted h
  have hm : t.mirrored exactArith = decide
      (((t.tangent exactArith).cross exactArith (t.bitangent exactArith)).dot exactArith
        (t.normal exactArith) < 0) := by
    simp [Tri.mirrored, exactArith]
  rw [hm, decide_eq_true_eq, t.cross_tb_dot_normal hr]
  constructor
  · intro hlt
    have hn : 0 ≤ (t.normal exactArith).dot exactArith (t.normal exactArith) :=
      Vec3.dot_self_nonneg _
    have hneg : t.uvDet < 0 := by
      by_contra hge
      have hpos : 0 < t.uvDet := lt_of_le_of_ne (not_lt.mp hge) (Ne.symm hr)
      have : 0 ≤ (t.normal exactArith).dot exactArith (t.normal exactArith) / t.uvDet :=
        div_nonneg hn hpos.le
      linarith
    refine ⟨hneg, fun hz => ?_⟩
    rw [hz] at hlt
    simp [Vec3.zero, Vec3.dot, exactArith] at hlt
  · rintro ⟨hneg, hz⟩
    exact div_neg_of_pos_of_neg (Vec3.dot_self_pos _ hz) hneg

/-! ## C18: the tangent frame of a counted triangle -/

/-- C18: over exact arithmetic, for every face that denotes a triangle whose UV determinant
`r = du1*dv2 - dv1*du2` passes the guard (`|r| >= 1e-8f`, hence whenever `|r| >= 1e-8`),
the tangent and bitangent computed by the loop body satisfy `t x b = n / r` with
`n = e1 x e2`, so `(t x b) . n = |n|^2 / r`; the body classifies the triangle as mirrored
iff `r < 0` and `n` is non-zero, whatever the positions otherwise, and updates the counters
accordingly: `total` by one, `flip_u` and `flip_v` by one exactly for `r < 0`, `n != 0`. -/
theorem tangent_frame_orientation (mesh : Mesh ℚ) (face : Face) (t : Tri ℚ)
    (ht : faceTri exactArith mesh face = some t) (h : epsLiteral ≤ |t.uvDet|) :
    t.r exactArith = t.uvDet ∧
    (t.tangent exactArith).cross exactArith (t.bitangent exactArith) =
      (t.normal exactArith).scale exactArith (1 / t.uvDet) ∧
    ((t.tangent exactArith).cross exactArith (t.bitangent exactArith)).dot exactArith
        (t.normal exactArith) =
      (t.normal exactArith).dot exactArith (t.normal exactArith) / t.uvDet ∧
    (t.mirrored exactArith = true ↔
      t.uvDet < 0 ∧ t.normal exactArith ≠ Vec3.zero exactArith) ∧
    (∀ c : OrientationCounts, accumulateFace exactArith mesh c face =
      ⟨c.flip_u + (if t.uvDet < 0 ∧ t.normal exactArith ≠ Vec3.zero exactArith then 1 else 0),
        c.flip_v + (if t.uvDet < 0 ∧ t.normal exactArith ≠ Vec3.zero exactArith then 1 else 0),
        c.total + 1⟩) ∧
    (∀ t' : Tri ℚ, t'.uvDet = t.uvDet → t.normal exactArith ≠ Vec3.zero exactArith →
      t'.normal exactArith ≠ Vec3.zero exactArith →
      t'.mirrored exactArith = t.mirrored exactArith) ∧
    (1 / 10 ^ 8 ≤ |t.uvDet| → epsLiteral ≤ |t.uvDet|) := by
  have hd : t.degenerate exactArith = false := by
    rw [Tri.degenerate_exact, decide_eq_false_iff_not, not_lt]
    exact h
  have hr := t.uvDet_ne_zero_of_counted hd
  have hm := t.mirrored_exact_iff hd
  refine ⟨rfl, t.cross_tb_eq hr, t.cross_tb_dot_normal hr, hm, ?_, ?_,
    fun h8 => le_trans epsLiteral_le h8⟩
  · intro c
    rw [accumulateFace_eq, ht]
    simp only [Tri.votesU_eq exactArith exactArith_signSymm,
      Tri.votesV_eq exactArith exactArith_signSymm, hd, Bool.not_false, Bool.true_and,
      Bool.false_eq_true, if_false]
    by_cases hc : t.uvDet < 0 ∧ t.normal exactArith ≠ Vec3.zero exactArith
    · rw [if_pos hc, if_pos (hm.mpr hc)]
    · rw [if_neg hc, if_neg (fun hmt => hc (hm.mp hmt))]
  · intro t' hr' hn hn'
    have hd' : t'.degenerate exactArith = false := by
      rw [Tri.degenerate_exact, decide_eq_false_iff_not, not_lt, hr']
      exact h
    rw [Bool.eq_iff_iff, t.mirrored_exact_iff hd, t'.mirrored_exact_iff hd', hr']
    simp [hn, hn']

/-- The first face of the mirrored quad: `r = -1`, `n = (0, 0, 1)`; the loop body counts
it and adds a vote to both counters. -/
theorem tangent_frame_orientation_witness :
    faceTri exactArith mirroredQuadMesh ⟨[0, 1, 2]⟩ =
        some ⟨⟨0, 0, 0⟩, ⟨1, 0, 0⟩, ⟨1, 1, 0⟩, ⟨1, 0, 0⟩, ⟨0, 0, 0⟩, ⟨0, 1, 0⟩⟩ ∧
      (⟨⟨0, 0, 0⟩, ⟨1, 0, 0⟩, ⟨1, 1, 0⟩, ⟨1, 0, 0⟩, ⟨0, 0, 0⟩, ⟨0, 1, 0⟩⟩ : Tri ℚ).uvDet = -1 ∧
      accumulateFace exactArith mirroredQuadMesh ⟨0, 0, 0⟩ ⟨[0, 1, 2]⟩ = ⟨1, 1, 1⟩ := by
  have ht : faceTri exactArith mirroredQuadMesh ⟨[0, 1, 2]⟩ =
      some ⟨⟨0, 0, 0⟩, ⟨1, 0, 0⟩, ⟨1, 1, 0⟩, ⟨1, 0, 0⟩, ⟨0, 0, 0⟩, ⟨0, 1, 0⟩⟩ := by decide!
  have hr : (⟨⟨0, 0, 0⟩, ⟨1, 0, 0⟩, ⟨1, 1, 0⟩, ⟨1, 0, 0⟩, ⟨0, 0, 0⟩, ⟨0, 1, 0⟩⟩ : Tri ℚ).uvDet
      = -1 := by decide!
  have h : epsLiteral ≤
      |(⟨⟨0, 0, 0⟩, ⟨1, 0, 0⟩, ⟨1, 1, 0⟩, ⟨1, 0, 0⟩, ⟨0, 0, 0⟩, ⟨0, 1, 0⟩⟩ : Tri ℚ).uvDet| := by
    decide!
  have hn : (⟨⟨0, 0, 0⟩, ⟨1, 0, 0⟩, ⟨1, 1, 0⟩, ⟨1, 0, 0⟩, ⟨0, 0, 0⟩, ⟨0, 1, 0⟩⟩ : Tri ℚ).uvDet
        < 0 ∧
      (⟨⟨0, 0, 0⟩, ⟨1, 0, 0⟩, ⟨1, 1, 0⟩, ⟨1, 0, 0⟩, ⟨0, 0, 0⟩, ⟨0, 1, 0⟩⟩ : Tri ℚ).normal
        exactArith ≠ Vec3.zero exactArith := by decide!
  refine ⟨ht, hr, ?_⟩
  rw [(tangent_frame_orientation mirroredQuadMesh ⟨[0, 1, 2]⟩ _ ht h).2.2.2.2.1 ⟨0, 0, 0⟩,
    if_pos hn]

/-! ## C3: mirrored-UV detection -/

/-- C3 as stated fails in both halves, the code computing in binary32. The single triangle
of `tinyMirroredScene` has non-degenerate positions and a mirrored UV winding
(`r = -2^-28 < 0`), yet it is skipped by the `1e-8f` guard and `InspectMesh` reports
`flip_u = flip_v = false`. The single triangle of `sliverScene` has non-degenerate positions
and is not mirrored (`r = 2^-24 - 2^-47 > 0`), yet the rounded determinant is `-2^-23` and
`InspectMesh` reports `flip_u = flip_v = true`. -/
theorem mirrored_detection_counterexample :
    ((tinyMirroredScene.map FP.fin).isBinary32 = true ∧
      InspectMesh binary32Arith (fun _ => none) "" (some (tinyMirroredScene.map FP.fin)) =
        .ok ⟨[inspectMaterial binary32Arith (fun _ => none) (tinyMirroredScene.map FP.fin) 0
          plainMaterial]⟩ ∧
      materialTriangles exactArith tinyMirroredScene 0 ≠ [] ∧
      (∀ t ∈ materialTriangles exactArith tinyMirroredScene 0,
        t.normal exactArith ≠ Vec3.zero exactArith ∧ t.uvMirrored) ∧
      (inspectMaterial binary32Arith (fun _ => none) (tinyMirroredScene.map FP.fin) 0
        plainMaterial).flip_u = false ∧
      (inspectMaterial binary32Arith (fun _ => none) (tinyMirroredScene.map FP.fin) 0
        plainMaterial).flip_v = false) ∧
    ((sliverScene.map FP.fin).isBinary32 = true ∧
      InspectMesh binary32Arith (fun _ => none) "" (some (sliverScene.map FP.fin)) =
        .ok ⟨[inspectMaterial binary32Arith (fun _ => none) (sliverScene.map FP.fin) 0
          plainMaterial]⟩ ∧
      (∀ t ∈ materialTriangles exactArith sliverScene 0,
        t.normal exactArith ≠ Vec3.zero exactArith ∧ ¬ t.uvMirrored ∧
          t.uvDet = 1 / 2 ^ 24 - 1 / 2 ^ 47) ∧
      (materialTriangles binary32Arith (sliverScene.map FP.fin) 0).map (Tri.r binary32Arith) =
        [.fin (-(1 / 2 ^ 23))] ∧
      (inspectMaterial binary32Arith (fun _ => none) (sliverScene.map FP.fin) 0
        plainMaterial).flip_u = true ∧
      (inspectMaterial binary32Arith (fun _ => none) (sliverScene.map FP.fin) 0
        plainMaterial).flip_v = true) := by
  have hT : materialTriangles exactArith tinyMirroredScene 0 =
      [⟨⟨0, 0, 0⟩, ⟨1, 0, 0⟩, ⟨0, 1, 0⟩, ⟨0, 0, 0⟩, ⟨0, 1 / 2 ^ 14, 0⟩,
        ⟨1 / 2 ^ 14, 0, 0⟩⟩] := by decide!
  have hS : materialTriangles exactArith sliverScene 0 =
      [⟨⟨0, 0, 0⟩, ⟨1, 0, 0⟩, ⟨0, 1, 0⟩, ⟨0, -(1 / 2 ^ 24), 0⟩,
        ⟨2 - 1 / 2 ^ 23, 2 - 1 / 2 ^ 23, 0⟩, ⟨1, 1, 0⟩⟩] := by decide!
  refine ⟨⟨by decide!, rfl, by rw [hT]; exact List.cons_ne_nil _ _, ?_, by decide!,
    by decide!⟩, ⟨by decide!, rfl, ?_, by decide!, by decide!, by decide!⟩⟩
  · intro t ht
    rw [hT, List.mem_singleton] at ht
    subst ht
    exact ⟨by decide!, by unfold Tri.uvMirrored; decide!⟩
  · intro t ht
    rw [hS, List.mem_singleton] at ht
    subst ht
    exact ⟨by decide!, by unfold Tri.uvMirrored; decide!, by decide!⟩

theorem votes_of_all_mirrored {F D : Type} (A : Arith F D) (hA : A.SignSymm)
    (ts : List (Tri F)) (hex : ∃ t ∈ ts, t.degenerate A = false)
    (hall : ∀ t ∈ ts, t.degenerate A = false → t.mirrored A = true) :
    totalCount A ts < 2 * votesUCount A ts := by
  obtain ⟨t0, ht0, hd0⟩ := hex
  have hvu : votesUCount A ts = totalCount A ts := by
    unfold votesUCount totalCount
    apply List.countP_congr
    intro t ht
    rw [Tri.votesU_eq A hA]
    cases hd : t.degenerate A with
    | true => simp
    | false => simp [hall t ht hd]
  have hpos : 0 < totalCount A ts := by
    unfold totalCount
    rw [List.countP_pos_iff]
    exact ⟨t0, ht0, by simp [hd0]⟩
  omega

theorem votes_of_none_mirrored {F D : Type} (A : Arith F D) (hA : A.SignSymm)
    (ts : List (Tri F))
    (hall : ∀ t ∈ ts, t.degenerate A = false → t.mirrored A = false) :
    votesUCount A ts = 0 := by
  unfold votesUCount
  rw [List.countP_eq_zero]
  intro t ht hv
  rw [Tri.votesU_eq A hA, Bool.and_eq_true, Bool.not_eq_true'] at hv
  rw [hall t ht hv.1] at hv
  exact absurd hv.2 (by decide)

/-- C3, amended: in every sign-symmetric arithmetic (binary32 with round to nearest is
one, the last conjunct), for every material
reported by `InspectMesh`: if at least one triangle passes the degeneracy guard and every
triangle that passes it is classified mirrored by the code's test `(t x b) . n < 0`, then
`flip_u` and `flip_v` are true; if no triangle that passes the guard is classified mirrored,
both flags are false. Over exact arithmetic the guard is `|r| < 1e-8f` on the exact UV
determinant and a counted triangle with non-degenerate positions is classified mirrored
iff its UV winding is mirrored (`r < 0`); so, over exact arithmetic, for a material whose
triangles have non-degenerate positions: if every triangle is mirrored and at least one has
`|r| >= 1e-8f`, both flags are true, and if no triangle is mirrored, both are false. -/
theorem mirrored_detection {F D : Type} (A : Arith F D) (hA : A.SignSymm)
    (open_ : String → Option (Image F)) (err : String)
    (scene : Scene F) (report : InspectReport)
    (h : InspectMesh A open_ err (some scene) = .ok report)
    (info : MaterialInfo) (hi : info ∈ report.materials) :
    ((∃ t ∈ materialTriangles A scene info.index.toNat, t.degenerate A = false) →
      (∀ t ∈ materialTriangles A scene info.index.toNat, t.degenerate A = false →
        t.mirrored A = true) →
      (info.flip_u = true ∧ info.flip_v = true)) ∧
    ((∀ t ∈ materialTriangles A scene info.index.toNat, t.degenerate A = false →
        t.mirrored A = false) →
      info.flip_u = false ∧ info.flip_v = false) ∧
    (∀ t : Tri ℚ, (t.degenerate exactArith = true ↔ |t.uvDet| < epsLiteral) ∧
      (t.normal exactArith ≠ Vec3.zero exactArith → t.degenerate exactArith = false →
        (t.mirrored exactArith = true ↔ t.uvMirrored))) ∧
    (∀ (open2 : String → Option (Image ℚ)) (sc : Scene ℚ) (m : Nat) (mat : Material),
      (∀ t ∈ materialTriangles exactArith sc m, t.normal exactArith ≠ Vec3.zero exactArith) →
      ((∃ t ∈ materialTriangles exactArith sc m, epsLiteral ≤ |t.uvDet|) →
        (∀ t ∈ materialTriangles exactArith sc m, t.uvMirrored) →
        (inspectMaterial exactArith open2 sc m mat).flip_u = true ∧
          (inspectMaterial exactArith open2 sc m mat).flip_v = true) ∧
      ((∀ t ∈ materialTriangles exactArith sc m, ¬ t.uvMirrored) →
        (inspectMaterial exactArith open2 sc m mat).flip_u = false ∧
          (inspectMaterial exactArith open2 sc m mat).flip_v = false)) ∧
    (exactArith.SignSymm ∧ binary32Arith.SignSymm) := by
  obtain ⟨m, mat, -, rfl⟩ := mem_report A open_ err scene report h info hi
  rw [inspectMaterial_index, inspectMaterial_flip_u, inspectMaterial_flip_v,
    ← votesUCount_eq_votesVCount A hA]
  refine ⟨?_, ?_, ?_, ?_, ⟨exactArith_signSymm, binary32Arith_signSymm⟩⟩
  · intro hex hall
    have := votes_of_all_mirrored A hA _ hex hall
    rw [decide_eq_true_eq]
    exact ⟨this, this⟩
  · intro hall
    rw [votes_of_none_mirrored A hA _ hall]
    simp
  · intro t
    refine ⟨by rw [Tri.degenerate_exact, decide_eq_true_eq], fun hn hd => ?_⟩
    rw [t.mirrored_exact_iff hd]
    exact ⟨fun hh => hh.1, fun hh => ⟨hh, hn⟩⟩
  · intro open2 sc m2 mat2 hn
    rw [inspectMaterial_flip_u, inspectMaterial_flip_v,
      ← votesUCount_eq_votesVCount exactArith exactArith_signSymm]
    constructor
    · rintro ⟨t0, ht0, hd0⟩ hall
      have hex : ∃ t ∈ materialTriangles exactArith sc m2, t.degenerate exactArith = false := by
        refine ⟨t0, ht0, ?_⟩
        rw [Tri.degenerate_exact, decide_eq_false_iff_not, not_lt]
        exact hd0
      have := votes_of_all_mirrored exactArith exactArith_signSymm _ hex
        (fun t ht hd => (t.mirrored_exact_iff hd).mpr ⟨hall t ht, hn t ht⟩)
      rw [decide_eq_true_eq]
      exact ⟨this, this⟩
    · intro hall
      have hnone : ∀ t ∈ materialTriangles exactArith sc m2, t.degenerate exactArith = false →
          t.mirrored exactArith = false := by
        intro t ht hd
        rw [← Bool.not_eq_true]
        intro hmt
        exact hall t ht ((t.mirrored_exact_iff hd).mp hmt).1
      rw [votes_of_none_mirrored exactArith exactArith_signSymm _ hnone]
      simp

/-- The amended detection law in binary32 on the fixtures of the unit tests: both triangles
of the mirrored quad are counted and classified mirrored, and both flags are raised; no
triangle of the stacked quads is classified mirrored, and both flags stay false. -/
theorem mirrored_detection_witness :
    (InspectMesh binary32Arith (fun _ => none) "" (some (mirroredQuadScene.map FP.fin)) =
        .ok ⟨[inspectMaterial binary32Arith (fun _ => none) (mirroredQuadScene.map FP.fin) 0
          plainMaterial]⟩ ∧
      (materialTriangles binary32Arith (mirroredQuadScene.map FP.fin) 0).map
        (fun t => (t.degenerate binary32Arith, t.mirrored binary32Arith)) =
          [(false, true), (false, true)] ∧
      (inspectMaterial binary32Arith (fun _ => none) (mirroredQuadScene.map FP.fin) 0
        plainMaterial).flip_u = true ∧
      (inspectMaterial binary32Arith (fun _ => none) (mirroredQuadScene.map FP.fin) 0
        plainMaterial).flip_v = true) ∧
    (InspectMesh binary32Arith (fun _ => none) "" (some (stackedQuadsScene.map FP.fin)) =
        .ok ⟨[inspectMaterial binary32Arith (fun _ => none) (stackedQuadsScene.map FP.fin) 0
          plainMaterial]⟩ ∧
      (materialTriangles binary32Arith (stackedQuadsScene.map FP.fin) 0).map
        (fun t => (t.degenerate binary32Arith, t.mirrored binary32Arith)) =
          [(false, false), (false, false), (false, false), (false, false)] ∧
      (inspectMaterial binary32Arith (fun _ => none) (stackedQuadsScene.map FP.fin) 0
        plainMaterial).flip_u = false ∧
      (inspectMaterial binary32Arith (fun _ => none) (stackedQuadsScene.map FP.fin) 0
        plainMaterial).flip_v = false) := by
  have hq : (materialTriangles binary32Arith (mirroredQuadScene.map FP.fin) 0).map
      (fun t => (t.degenerate binary32Arith, t.mirrored binary32Arith)) =
        [(false, true), (false, true)] := by decide!
  have hs : (materialTriangles binary32Arith (stackedQuadsScene.map FP.fin) 0).map
      (fun t => (t.degenerate binary32Arith, t.mirrored binary32Arith)) =
        [(false, false), (false, false), (false, false), (false, false)] := by decide!
  have hq1 : ∀ t ∈ materialTriangles binary32Arith (mirroredQuadScene.map FP.fin) 0,
      t.degenerate binary32Arith = false ∧ t.mirrored binary32Arith = true := by
    intro t ht
    have hm := List.mem_map_of_mem
      (fun t => (t.degenerate binary32Arith, t.mirrored binary32Arith)) ht
    rw [hq] at hm
    simp only [List.mem_cons, List.mem_singleton, List.not_mem_nil, or_false, or_self,
      Prod.mk.injEq] at hm
    exact hm
  have hs1 : ∀ t ∈ materialTriangles binary32Arith (stackedQuadsScene.map FP.fin) 0,
      t.degenerate binary32Arith = false → t.mirrored binary32Arith = false := by
    intro t ht _
    have hm := List.mem_map_of_mem
      (fun t => (t.degenerate binary32Arith, t.mirrored binary32Arith)) ht
    rw [hs] at hm
    simp only [List.mem_cons, List.mem_singleton, List.not_mem_nil, or_false, or_self,
      Prod.mk.injEq] at hm
    exact hm.2
  have hne : ∃ t ∈ materialTriangles binary32Arith (mirroredQuadScene.map FP.fin) 0,
      t.degenerate binary32Arith = false := by
    have hl : (materialTriangles binary32Arith (mirroredQuadScene.map FP.fin) 0).length = 2 := by
      have := congrArg List.length hq
      simpa using this
    match hT : materialTriangles binary32Arith (mirroredQuadScene.map FP.fin) 0 with
    | [] => rw [hT] at hl; cases hl
    | t :: _ => exact ⟨t, List.mem_cons_self _ _, (hq1 t (hT ▸ List.mem_cons_self _ _)).1⟩
  have hA := mirrored_detection binary32Arith binary32Arith_signSymm (fun _ => none) ""
    (mirroredQuadScene.map FP.fin)
    ⟨[inspectMaterial binary32Arith (fun _ => none) (mirroredQuadScene.map FP.fin) 0
      plainMaterial]⟩ rfl
    (inspectMaterial binary32Arith (fun _ => none) (mirroredQuadScene.map FP.fin) 0
      plainMaterial) (List.mem_singleton_self _)
  have hB := mirrored_detection binary32Arith binary32Arith_signSymm (fun _ => none) ""
    (stackedQuadsScene.map FP.fin)
    ⟨[inspectMaterial binary32Arith (fun _ => none) (stackedQuadsScene.map FP.fin) 0
      plainMaterial]⟩ rfl
    (inspectMaterial binary32Arith (fun _ => none) (stackedQuadsScene.map FP.fin) 0
      plainMaterial) (List.mem_singleton_self _)
  rw [inspectMaterial_index] at hA hB
  exact ⟨⟨rfl, hq, hA.1 hne (fun t ht _ => (hq1 t ht).2)⟩, ⟨rfl, hs, hB.2.1 hs1⟩⟩

/-! ## Conversions to `int` -/

theorem truncInt_intCast (z : Int) : truncInt (z : ℚ) = z := by
  unfold truncInt
  split <;> simp

theorem castInt_of_inInt32 (z : Int) (h : inInt32 z) : castInt z = z := by
  unfold castInt
  exact if_pos h

theorem wrap32_of_inInt32 (z : Int) (h : inInt32 z) : wrap32 z = z := by
  unfold inInt32 at h
  unfold wrap32
  norm_num at h ⊢
  omega

theorem wrap32_range (z : Int) : inInt32 (wrap32 z) := by
  unfold inInt32 wrap32
  norm_num
  omega

theorem binary32_toInt_floor (q : ℚ) (h : inInt32 ⌊q⌋) :
    binary32Arith.toInt (binary32Arith.floor (.fin q)) = ⌊q⌋ := by
  show castInt (truncInt ((⌊q⌋ : Int) : ℚ)) = ⌊q⌋
  rw [truncInt_intCast, castInt_of_inInt32 _ h]

theorem exact_toInt_floor (q : ℚ) (h : inInt32 ⌊q⌋) :
    exactArith.toInt (exactArith.floor q) = ⌊q⌋ := by
  show castInt (truncInt ((⌊q⌋ : Int) : ℚ)) = ⌊q⌋
  rw [truncInt_intCast, castInt_of_inInt32 _ h]

/-! ## UDIM tiles -/

theorem tile_wrap_eq (a b : Int) (h1 : inInt32 (b * 10)) (h2 : inInt32 (a + b * 10))
    (h3 : inInt32 (a + b * 10 + 1001)) :
    wrap32 (wrap32 (a + wrap32 (b * 10)) + 1001) = 1001 + a + 10 * b := by
  rw [wrap32_of_inInt32 _ h1, wrap32_of_inInt32 _ h2, wrap32_of_inInt32 _ h3]
  ring

/-- Within the range of `int`, the tile computed in binary32 is `1001 + floor(u) + 10*floor(v)`. -/
theorem udimTile_binary32 (u v : ℚ) (z : FP) (h : tileFits u v) :
    udimTile binary32Arith ⟨.fin u, .fin v, z⟩ = 1001 + ⌊u⌋ + 10 * ⌊v⌋ := by
  obtain ⟨hu, hv, h1, h2, h3⟩ := h
  unfold udimTile
  simp only [binary32_toInt_floor u hu, binary32_toInt_floor v hv]
  exact tile_wrap_eq _ _ h1 h2 h3

/-- Within the range of `int`, the tile computed exactly is `1001 + floor(u) + 10*floor(v)`. -/
theorem udimTile_exact (u v z : ℚ) (h : tileFits u v) :
    udimTile exactArith ⟨u, v, z⟩ = 1001 + ⌊u⌋ + 10 * ⌊v⌋ := by
  obtain ⟨hu, hv, h1, h2, h3⟩ := h
  unfold udimTile
  simp only [exact_toInt_floor u hu, exact_toInt_floor v hv]
  exact tile_wrap_eq _ _ h1 h2 h3

theorem tileFits_of_abs_le (u v : ℚ) (hu : |u| ≤ 10 ^ 8) (hv : |v| ≤ 10 ^ 8) : tileFits u v := by
  have hu1 : (-(10 ^ 8 : Int)) ≤ ⌊u⌋ := by
    rw [Int.le_floor]
    have := (abs_le.mp hu).1
    push_cast
    linarith
  have hu2 : ⌊u⌋ ≤ (10 ^ 8 : Int) := by
    have h1 : ⌊u⌋ < (10 ^ 8 : Int) + 1 := by
      rw [Int.floor_lt]
      have := (abs_le.mp hu).2
      push_cast
      linarith
    omega
  have hv1 : (-(10 ^ 8 : Int)) ≤ ⌊v⌋ := by
    rw [Int.le_floor]
    have := (abs_le.mp hv).1
    push_cast
    linarith
  have hv2 : ⌊v⌋ ≤ (10 ^ 8 : Int) := by
    have h1 : ⌊v⌋ < (10 ^ 8 : Int) + 1 := by
      rw [Int.floor_lt]
      have := (abs_le.mp hv).2
      push_cast
      linarith
    omega
  unfold tileFits inInt32
  norm_num at hu1 hu2 hv1 hv2 ⊢
  omega

theorem mem_foldl_insert_tile {F D : Type} (A : Arith F D) (uvs : List (Vec3 F))
    (ts : List Int) (x : Int) :
    x ∈ uvs.foldl (fun ts uv => List.insert (udimTile A uv) ts) ts ↔
      x ∈ ts ∨ ∃ uv ∈ uvs, x = udimTile A uv := by
  induction uvs generalizing ts with
  | nil => simp
  | cons uv uvs ih =>
    rw [List.foldl_cons, ih, List.mem_insert_iff]
    simp only [List.mem_cons, exists_eq_or_imp]
    tauto

theorem nodup_foldl_insert_tile {F D : Type} (A : Arith F D) (uvs : List (Vec3 F))
    (ts : List Int) (h : ts.Nodup) :
    (uvs.foldl (fun ts uv => List.insert (udimTile A uv) ts) ts).Nodup := by
  induction uvs generalizing ts with
  | nil => exact h
  | cons uv uvs ih =>
    rw [List.foldl_cons]
    exact ih _ h.insert

theorem mem_foldl_tilesStep {F D : Type} (A : Arith F D) (tris : List (Tri F)) (ts : List Int)
    (x : Int) :
    x ∈ tris.foldl (tilesStep A) ts ↔
      x ∈ ts ∨ ∃ t ∈ tris, ∃ uv ∈ t.uvs, x = udimTile A uv := by
  induction tris generalizing ts with
  | nil => simp
  | cons t tris ih =>
    rw [List.foldl_cons, ih, tilesStep, mem_foldl_insert_tile]
    simp only [List.mem_cons, exists_eq_or_imp]
    exact or_assoc

theorem nodup_foldl_tilesStep {F D : Type} (A : Arith F D) (tris : List (Tri F)) (ts : List Int)
    (h : ts.Nodup) : (tris.foldl (tilesStep A) ts).Nodup := by
  induction tris generalizing ts with
  | nil => exact h
  | cons t tris ih =>
    rw [List.foldl_cons]
    exact ih _ (nodup_foldl_insert_tile A _ _ h)

/-- Membership in the reported `udim_tiles` of a material. -/
theorem mem_udim_tiles {F D : Type} (A : Arith F D) (open_ : String → Option (Image F))
    (scene : Scene F) (m : Nat) (mat : Material) (x : Int) :
    x ∈ (inspectMaterial A open_ scene m mat).udim_tiles ↔
      ∃ t ∈ materialTriangles A scene m, ∃ uv ∈ [t.uv0, t.uv1, t.uv2], x = udimTile A uv := by
  simp only [inspectMaterial, List.mem_insertionSort, materialState_tiles, mem_foldl_tilesStep,
    List.not_mem_nil, false_or, Tri.uvs]

/-! ## C4: the tiles of the vertices -/

/-- C4 as stated fails, the tile being computed in 32-bit `int`: the first vertex of
`farScene` has the UV coordinate `(1/2, 300000000)`, whose value
`1001 + floor(u) + 10*floor(v)` is `3000001001`; `tile_v * 10` wraps, and `InspectMesh`
reports the tiles `[-1294966295, 1001]`. The value of that vertex is absent, and the
reported `-1294966295` is the value of no vertex. -/
theorem udim_tiles_exact_counterexample :
    (farScene.map FP.fin).isBinary32 = true ∧
      InspectMesh binary32Arith (fun _ => none) "" (some (farScene.map FP.fin)) =
        .ok ⟨[inspectMaterial binary32Arith (fun _ => none) (farScene.map FP.fin) 0
          plainMaterial]⟩ ∧
      (inspectMaterial binary32Arith (fun _ => none) (farScene.map FP.fin) 0
        plainMaterial).udim_tiles = [-1294966295, 1001] ∧
      (materialTriangles exactArith farScene 0).map
          (fun t => t.uvs.map (fun uv => 1001 + ⌊uv.x⌋ + 10 * ⌊uv.y⌋)) =
        [[3000001001, 1001, 1001]] := by
  refine ⟨by decide!, rfl, by decide!, by decide!⟩

/-- C4, amended: for every material reported by `InspectMesh`, `udim_tiles` holds exactly
the values of the code's tile expression over the channel-0 UV coordinates of every vertex
of every triangle of the material; when every such coordinate `(u, v)` is finite and its
tile computation stays in the range of `int` (`floor(u)`, `floor(v)`, `10*floor(v)`,
`floor(u) + 10*floor(v)` and that plus `1001` are 32-bit values, as for `|u|, |v| <= 10^8`),
these are exactly the values `1001 + floor(u) + 10*floor(v)`. -/
theorem udim_tiles_exact (open_ : String → Option (Image FP)) (err : String)
    (scene : Scene FP) (report : InspectReport)
    (h : InspectMesh binary32Arith open_ err (some scene) = .ok report)
    (info : MaterialInfo) (hi : info ∈ report.materials) :
    (∀ x : Int, x ∈ info.udim_tiles ↔
      ∃ t ∈ materialTriangles binary32Arith scene info.index.toNat,
        ∃ uv ∈ [t.uv0, t.uv1, t.uv2], x = udimTile binary32Arith uv) ∧
    ((∀ t ∈ materialTriangles binary32Arith scene info.index.toNat,
        ∀ uv ∈ [t.uv0, t.uv1, t.uv2],
          ∃ u v : ℚ, uv.x = .fin u ∧ uv.y = .fin v ∧ tileFits u v) →
      ∀ x : Int, x ∈ info.udim_tiles ↔
        ∃ t ∈ materialTriangles binary32Arith scene info.index.toNat,
          ∃ uv ∈ [t.uv0, t.uv1, t.uv2],
            ∃ u v : ℚ, uv.x = .fin u ∧ uv.y = .fin v ∧ x = 1001 + ⌊u⌋ + 10 * ⌊v⌋) ∧
    (∀ u v : ℚ, |u| ≤ 10 ^ 8 → |v| ≤ 10 ^ 8 → tileFits u v) := by
  obtain ⟨m, mat, -, rfl⟩ := mem_report binary32Arith open_ err scene report h info hi
  rw [inspectMaterial_index]
  refine ⟨fun x => mem_udim_tiles binary32Arith open_ scene m mat x, fun hfit x => ?_,
    tileFits_of_abs_le⟩
  rw [mem_udim_tiles]
  constructor
  · rintro ⟨t, ht, uv, huv, rfl⟩
    obtain ⟨u, v, hu, hv, hf⟩ := hfit t ht uv huv
    refine ⟨t, ht, uv, huv, u, v, hu, hv, ?_⟩
    obtain ⟨ux, uy, uz⟩ := uv
    simp only at hu hv
    subst hu hv
    exact udimTile_binary32 u v uz hf
  · rintro ⟨t, ht, uv, huv, u, v, hu, hv, rfl⟩
    obtain ⟨u', v', hu', hv', hf⟩ := hfit t ht uv huv
    refine ⟨t, ht, uv, huv, ?_⟩
    obtain ⟨ux, uy, uz⟩ := uv
    simp only at hu hv hu' hv'
    subst hu hv
    rw [FP.fin.injEq] at hu' hv'
    subst hu' hv'
    exact (udimTile_binary32 u v uz hf).symm

theorem cornerTriangles_binary32 :
    materialTriangles binary32Arith (cornerScene.map FP.fin) 0 =
      [⟨⟨.fin 0, .fin 0, .fin 0⟩, ⟨.fin 1, .fin 0, .fin 0⟩, ⟨.fin 0, .fin 1, .fin 0⟩,
        ⟨.fin (1 / 2), .fin (1 / 2), .fin 0⟩, ⟨.fin (3 / 2), .fin (1 / 2), .fin 0⟩,
        ⟨.fin (5 / 8), .fin (5 / 8), .fin 0⟩⟩] := by decide!

theorem cornerScene_fits :
    ∀ t ∈ materialTriangles binary32Arith (cornerScene.map FP.fin) 0,
      ∀ uv ∈ [t.uv0, t.uv1, t.uv2],
        ∃ u v : ℚ, uv.x = .fin u ∧ uv.y = .fin v ∧ tileFits u v := by
  intro t ht uv huv
  rw [cornerTriangles_binary32, List.mem_singleton] at ht
  subst ht
  simp only [List.mem_cons, List.mem_singleton, List.not_mem_nil, or_false] at huv
  rcases huv with rfl | rfl | rfl
  · exact ⟨1 / 2, 1 / 2, rfl, rfl, tileFits_of_abs_le _ _ (by norm_num [abs_le])
      (by norm_num [abs_le])⟩
  · exact ⟨3 / 2, 1 / 2, rfl, rfl, tileFits_of_abs_le _ _ (by norm_num [abs_le])
      (by norm_num [abs_le])⟩
  · exact ⟨5 / 8, 5 / 8, rfl, rfl, tileFits_of_abs_le _ _ (by norm_num [abs_le])
      (by norm_num [abs_le])⟩

/-- The tile `1002` of the corner `(3/2, 1/2)` is reported for `cornerScene`, computed in
binary32, and the reported tiles are the values `1001 + floor(u) + 10*floor(v)` of its
vertices. -/
theorem udim_tiles_exact_witness :
    InspectMesh binary32Arith (fun _ => none) "" (some (cornerScene.map FP.fin)) =
        .ok ⟨[inspectMaterial binary32Arith (fun _ => none) (cornerScene.map FP.fin) 0
          plainMaterial]⟩ ∧
      (inspectMaterial binary32Arith (fun _ => none) (cornerScene.map FP.fin) 0
        plainMaterial).udim_tiles = [1001, 1002] ∧
      ((1002 : Int) ∈ (inspectMaterial binary32Arith (fun _ => none) (cornerScene.map FP.fin) 0
          plainMaterial).udim_tiles ↔
        ∃ t ∈ materialTriangles binary32Arith (cornerScene.map FP.fin) 0,
          ∃ uv ∈ [t.uv0, t.uv1, t.uv2],
            ∃ u v : ℚ, uv.x = .fin u ∧ uv.y = .fin v ∧ (1002 : Int) = 1001 + ⌊u⌋ + 10 * ⌊v⌋) := by
  have h := (udim_tiles_exact (fun _ => none) "" (cornerScene.map FP.fin)
    ⟨[inspectMaterial binary32Arith (fun _ => none) (cornerScene.map FP.fin) 0
      plainMaterial]⟩ rfl
    (inspectMaterial binary32Arith (fun _ => none) (cornerScene.map FP.fin) 0 plainMaterial)
    (List.mem_singleton_self _)).2.1
  rw [inspectMaterial_index] at h
  exact ⟨rfl, by decide!, h cornerScene_fits 1002⟩

/-! ## C5: the tile list is strictly ascending -/

/-- C5: for every material in every report returned by `InspectMesh`, `udim_tiles` is
sorted in strictly ascending order (sorted and free of duplicates). It holds in every
arithmetic, the machine's included. -/
theorem udim_tiles_strictly_sorted {F D : Type} (A : Arith F D)
    (open_ : String → Option (Image F)) (err : String)
    (scene : Scene F) (report : InspectReport)
    (h : InspectMesh A open_ err (some scene) = .ok report)
    (info : MaterialInfo) (hi : info ∈ report.materials) :
    info.udim_tiles.Sorted (· < ·) := by
  obtain ⟨m, mat, -, rfl⟩ := mem_report A open_ err scene report h info hi
  simp only [inspectMaterial]
  apply List.Sorted.lt_of_le (List.sorted_insertionSort _ _)
  rw [(List.perm_insertionSort _ _).nodup_iff, materialState_tiles]
  exact nodup_foldl_tilesStep A _ _ List.nodup_nil

/-- The four tiles of the mirrored quad, computed in binary32, come out in ascending
order. -/
theorem udim_tiles_strictly_sorted_witness :
    InspectMesh binary32Arith (fun _ => none) "" (some (mirroredQuadScene.map FP.fin)) =
        .ok ⟨[inspectMaterial binary32Arith (fun _ => none) (mirroredQuadScene.map FP.fin) 0
          plainMaterial]⟩ ∧
      (inspectMaterial binary32Arith (fun _ => none) (mirroredQuadScene.map FP.fin) 0
        plainMaterial).udim_tiles = [1001, 1002, 1011, 1012] ∧
      (inspectMaterial binary32Arith (fun _ => none) (mirroredQuadScene.map FP.fin) 0
        plainMaterial).udim_tiles.Sorted (· < ·) :=
  ⟨rfl, by decide!, udim_tiles_strictly_sorted binary32Arith (fun _ => none) ""
    (mirroredQuadScene.map FP.fin)
    ⟨[inspectMaterial binary32Arith (fun _ => none) (mirroredQuadScene.map FP.fin) 0
      plainMaterial]⟩ rfl
    (inspectMaterial binary32Arith (fun _ => none) (mirroredQuadScene.map FP.fin) 0
      plainMaterial)
    (List.mem_singleton_self _)⟩

/-! ## C6: tiles and centroids -/

/-- C6 as stated fails: for `cornerScene`, computed in binary32, the tile `1002` is reported
(the corner `(3/2, 1/2)` lies in it), but the only triangle has its UV centroid
`(7/8, 13/24)` in the cell of tile `1001`. -/
theorem udim_tiles_centroid_counterexample :
    (cornerScene.map FP.fin).isBinary32 = true ∧
      InspectMesh binary32Arith (fun _ => none) "" (some (cornerScene.map FP.fin)) =
        .ok ⟨[inspectMaterial binary32Arith (fun _ => none) (cornerScene.map FP.fin) 0
          plainMaterial]⟩ ∧
      (1002 : Int) ∈ (inspectMaterial binary32Arith (fun _ => none) (cornerScene.map FP.fin) 0
        plainMaterial).udim_tiles ∧
      (materialTriangles exactArith cornerScene 0).map Tri.centroidTile = [1001] :=
  ⟨by decide!, rfl, by decide!, by decide!⟩

/-- C6, amended: for every material, every tile id in `udim_tiles` is the value of the
code's tile expression at the channel-0 UV coordinate of a vertex of a triangle of that
material; when that coordinate `(u, v)` is finite and its tile computation stays in the
range of `int`, the tile id equals `1001 + cu + 10*cv` for the unit UV cell `(cu, cv)` that
contains `(u, v)`. -/
theorem udim_tiles_vertex_cell (open_ : String → Option (Image FP)) (err : String)
    (scene : Scene FP) (report : InspectReport)
    (h : InspectMesh binary32Arith open_ err (some scene) = .ok report)
    (info : MaterialInfo) (hi : info ∈ report.materials) (x : Int)
    (hx : x ∈ info.udim_tiles) :
    ∃ t ∈ materialTriangles binary32Arith scene info.index.toNat,
      ∃ uv ∈ [t.uv0, t.uv1, t.uv2], x = udimTile binary32Arith uv ∧
        ∀ u v : ℚ, uv.x = .fin u → uv.y = .fin v → tileFits u v →
          ∃ cu cv : Int, x = 1001 + cu + 10 * cv ∧
            ((cu : ℚ) ≤ u ∧ u < cu + 1) ∧ ((cv : ℚ) ≤ v ∧ v < cv + 1) := by
  obtain ⟨m, mat, -, rfl⟩ := mem_report binary32Arith open_ err scene report h info hi
  rw [inspectMaterial_index]
  obtain ⟨t, ht, uv, huv, rfl⟩ := (mem_udim_tiles binary32Arith open_ scene m mat x).mp hx
  refine ⟨t, ht, uv, huv, rfl, fun u v hu hv hf => ?_⟩
  refine ⟨⌊u⌋, ⌊v⌋, ?_, ⟨Int.floor_le _, Int.lt_floor_add_one _⟩,
    ⟨Int.floor_le _, Int.lt_floor_add_one _⟩⟩
  obtain ⟨ux, uy, uz⟩ := uv
  simp only at hu hv
  subst hu hv
  exact udimTile_binary32 u v uz hf

/-- The tile `1002` of `cornerScene` is the cell of a vertex. -/
theorem udim_tiles_vertex_cell_witness :
    InspectMesh binary32Arith (fun _ => none) "" (some (cornerScene.map FP.fin)) =
        .ok ⟨[inspectMaterial binary32Arith (fun _ => none) (cornerScene.map FP.fin) 0
          plainMaterial]⟩ ∧
      (1002 : Int) ∈ (inspectMaterial binary32Arith (fun _ => none) (cornerScene.map FP.fin) 0
        plainMaterial).udim_tiles ∧
      ∃ t ∈ materialTriangles binary32Arith (cornerScene.map FP.fin) 0,
        ∃ uv ∈ [t.uv0, t.uv1, t.uv2], (1002 : Int) = udimTile binary32Arith uv ∧
          ∀ u v : ℚ, uv.x = .fin u → uv.y = .fin v → tileFits u v →
            ∃ cu cv : Int, (1002 : Int) = 1001 + cu + 10 * cv ∧
              ((cu : ℚ) ≤ u ∧ u < cu + 1) ∧ ((cv : ℚ) ≤ v ∧ v < cv + 1) := by
  have hx : (1002 : Int) ∈
      (inspectMaterial binary32Arith (fun _ => none) (cornerScene.map FP.fin) 0
        plainMaterial).udim_tiles := by decide!
  have h := udim_tiles_vertex_cell (fun _ => none) "" (cornerScene.map FP.fin)
    ⟨[inspectMaterial binary32Arith (fun _ => none) (cornerScene.map FP.fin) 0
      plainMaterial]⟩ rfl
    (inspectMaterial binary32Arith (fun _ => none) (cornerScene.map FP.fin) 0 plainMaterial)
    (List.mem_singleton_self _) 1002 hx
  rw [inspectMaterial_index] at h
  exact ⟨rfl, hx, h⟩

/-! ## Overlap cells -/

theorem xor_two_pow_mul_add (i a b : Nat) (hb : b < 2 ^ i) :
    Nat.xor (2 ^ i * a) b = 2 ^ i * a + b := by
  rw [Nat.mul_add_lt_is_or hb]
  apply Nat.eq_of_testBit_eq
  intro j
  show (2 ^ i * a ^^^ b).testBit j = _
  rw [Nat.testBit_xor, Nat.testBit_or, Nat.testBit_mul_pow_two]
  by_cases hj : j < i
  · simp [Nat.not_le_of_lt hj]
  · have hle : i ≤ j := Nat.le_of_not_lt hj
    have : b < 2 ^ j := lt_of_lt_of_le hb (Nat.pow_le_pow_right (by norm_num) hle)
    simp [Nat.testBit_lt_two_pow this]

/-- The key holds the low 32 bits of `cu` in its upper half and those of `cv` in its lower
half. -/
theorem cellKey_eq (cu cv : Int) :
    cellKey cu cv = 2 ^ 32 * (cu % 2 ^ 32).toNat + (cv % 2 ^ 32).toNat := by
  unfold cellKey
  have h1 : ((cu % 2 ^ 64).toNat * 2 ^ 32) % 2 ^ 64 = 2 ^ 32 * (cu % 2 ^ 32).toNat := by
    omega
  have h2 : (cv % 2 ^ 32).toNat < 2 ^ 32 := by omega
  rw [h1, xor_two_pow_mul_add _ _ _ h2]

/-- The key is injective on pairs of 32-bit signed cell indices. -/
theorem cellKey_injective (cu cv cu' cv' : Int) (h1 : inInt32 cu) (h2 : inInt32 cv)
    (h3 : inInt32 cu') (h4 : inInt32 cv') (h : cellKey cu cv = cellKey cu' cv') :
    cu = cu' ∧ cv = cv' := by
  rw [cellKey_eq, cellKey_eq] at h
  unfold inInt32 at *
  omega

theorem Tri.key_eq_cellKey {F D : Type} (A : Arith F D) (t : Tri F) :
    t.key A = cellKey (t.cell A).1 (t.cell A).2 := rfl

/-- The cell indices the code computes are `int` values. -/
theorem Tri.cell_range {F D : Type} (A : Arith F D) (t : Tri F) :
    inInt32 (t.cell A).1 ∧ inInt32 (t.cell A).2 :=
  ⟨A.toInt_range _, A.toInt_range _⟩

/-- Two triangles produce the same key iff the code computes the same cell for them. -/
theorem Tri.key_eq_iff {F D : Type} (A : Arith F D) (a b : Tri F) :
    a.key A = b.key A ↔ a.cell A = b.cell A := by
  constructor
  · intro h
    rw [Tri.key_eq_cellKey, Tri.key_eq_cellKey] at h
    obtain ⟨e1, e2⟩ := cellKey_injective _ _ _ _ (a.cell_range A).1 (a.cell_range A).2
      (b.cell_range A).1 (b.cell_range A).2 h
    exact Prod.ext e1 e2
  · intro h
    rw [Tri.key_eq_cellKey, Tri.key_eq_cellKey, h]

theorem foldl_cellStep_flag {F D : Type} (A : Arith F D) (tris : List (Tri F))
    (s : List Nat × Bool) :
    (tris.foldl (cellStep A) s).2 = true ↔
      s.2 = true ∨ ¬ (tris.map (Tri.key A)).Nodup ∨ ∃ k ∈ tris.map (Tri.key A), k ∈ s.1 := by
  induction tris generalizing s with
  | nil => simp
  | cons t tris ih =>
    rw [List.foldl_cons, ih]
    unfold cellStep
    by_cases hk : t.key A ∈ s.1
    · simp only [hk, if_true, true_or, true_iff]
      right
      right
      exact ⟨t.key A, by simp, hk⟩
    · simp only [hk, if_false, List.map_cons, List.nodup_cons, List.mem_cons, not_and_or,
        not_not, exists_eq_or_imp, false_or]
      constructor
      · rintro (h | h | ⟨k, hk1, hk2 | hk2⟩)
        · exact Or.inl h
        · exact Or.inr (Or.inl (Or.inr h))
        · exact Or.inr (Or.inl (Or.inl (hk2 ▸ hk1)))
        · exact Or.inr (Or.inr ⟨k, hk1, hk2⟩)
      · rintro (h | (h | h) | ⟨k, hk1, hk2⟩)
        · exact Or.inl h
        · exact Or.inr (Or.inr ⟨t.key A, h, Or.inl rfl⟩)
        · exact Or.inr (Or.inl h)
        · exact Or.inr (Or.inr ⟨k, hk1, Or.inr hk2⟩)

/-- The flag `overlapping_uvs` of a material: some key was produced twice. -/
theorem overlapping_uvs_iff {F D : Type} (A : Arith F D) (open_ : String → Option (Image F))
    (scene : Scene F) (m : Nat) (mat : Material) :
    (inspectMaterial A open_ scene m mat).overlapping_uvs = true ↔
      ¬ ((materialTriangles A scene m).map (Tri.key A)).Nodup := by
  have h := congrArg Prod.snd (materialState_cells A scene m)
  simp only at h
  simp only [inspectMaterial, h, foldl_cellStep_flag]
  simp

theorem not_nodup_of_getElem?_eq {α : Type} (l : List α) (i j : Nat) (a : α) (hij : i ≠ j)
    (hi : l[i]? = some a) (hj : l[j]? = some a) : ¬ l.Nodup := by
  intro hn
  rw [List.nodup_iff_getElem?_ne_getElem?] at hn
  have hi' : i < l.length := by
    by_contra hc
    rw [List.getElem?_eq_none (not_lt.mp hc)] at hi
    cases hi
  have hj' : j < l.length := by
    by_contra hc
    rw [List.getElem?_eq_none (not_lt.mp hc)] at hj
    cases hj
  rcases lt_or_gt_of_ne hij with hlt | hgt
  · exact hn i j hlt hj' (hi.trans hj.symm)
  · exact hn j i hgt hi' (hj.trans hi.symm)

theorem exists_getElem?_eq_of_not_nodup {α : Type} (l : List α) (h : ¬ l.Nodup) :
    ∃ i j : Nat, ∃ a : α, i ≠ j ∧ l[i]? = some a ∧ l[j]? = some a := by
  rw [List.nodup_iff_getElem?_ne_getElem?] at h
  push_neg at h
  obtain ⟨i, j, hij, hj, he⟩ := h
  exact ⟨i, j, l[j], hij.ne, by rw [he, List.getElem?_eq_getElem hj],
    List.getElem?_eq_getElem hj⟩

/-- The flag `overlapping_uvs` of a material: two distinct triangles for which the code
computes the same cell. -/
theorem overlapping_uvs_iff_cells {F D : Type} (A : Arith F D)
    (open_ : String → Option (Image F)) (scene : Scene F) (m : Nat) (mat : Material) :
    (inspectMaterial A open_ scene m mat).overlapping_uvs = true ↔
      ∃ (i j : Nat) (a b : Tri F), i ≠ j ∧
        (materialTriangles A scene m)[i]? = some a ∧
        (materialTriangles A scene m)[j]? = some b ∧ a.cell A = b.cell A := by
  rw [overlapping_uvs_iff]
  constructor
  · intro hn
    obtain ⟨i, j, k, hij, hi, hj⟩ := exists_getElem?_eq_of_not_nodup _ hn
    rw [List.getElem?_map, Option.map_eq_some'] at hi hj
    obtain ⟨a, ha, hak⟩ := hi
    obtain ⟨b, hb, hbk⟩ := hj
    exact ⟨i, j, a, b, hij, ha, hb, (Tri.key_eq_iff A a b).mp (hak.trans hbk.symm)⟩
  · rintro ⟨i, j, a, b, hij, ha, hb, hab⟩
    have hk : a.key A = b.key A := (Tri.key_eq_iff A a b).mpr hab
    apply not_nodup_of_getElem?_eq _ i j (a.key A) hij
    · simp [List.getElem?_map, ha]
    · simp [List.getElem?_map, hb, hk]

/-- Over exact arithmetic and within the range of `int`, the computed cell is
`(floor(1024 * mean u), floor(1024 * mean v))`. -/
theorem Tri.cell_exact (t : Tri ℚ) (hu : inInt32 t.centroidGridCell.1)
    (hv : inInt32 t.centroidGridCell.2) : t.cell exactArith = t.centroidGridCell := by
  have eu : (exactArith.mul (exactArith.div (uSum exactArith t.uvs) (exactArith.ofInt 3))
      (exactArith.ofInt grid)) = 1024 * ((t.uv0.x + t.uv1.x + t.uv2.x) / 3) := by
    simp only [uSum, Tri.uvs, List.foldl_cons, List.foldl_nil, exactArith, grid]
    push_cast
    ring
  have ev : (exactArith.mul (exactArith.div (vSum exactArith t.uvs) (exactArith.ofInt 3))
      (exactArith.ofInt grid)) = 1024 * ((t.uv0.y + t.uv1.y + t.uv2.y) / 3) := by
    simp only [vSum, Tri.uvs, List.foldl_cons, List.foldl_nil, exactArith, grid]
    push_cast
    ring
  unfold Tri.cell centroidCell
  rw [eu, ev]
  exact Prod.ext (exact_toInt_floor _ hu) (exact_toInt_floor _ hv)

/-! ## C7: overlap detection -/

theorem stackedTriangles_binary32 :
    materialTriangles binary32Arith (stackedQuadsScene.map FP.fin) 0 =
      [⟨⟨.fin 0, .fin 0, .fin 0⟩, ⟨.fin 1, .fin 0, .fin 0⟩, ⟨.fin 1, .fin 1, .fin 0⟩,
        ⟨.fin 0, .fin 0, .fin 0⟩, ⟨.fin 1, .fin 0, .fin 0⟩, ⟨.fin 1, .fin 1, .fin 0⟩⟩,
       ⟨⟨.fin 0, .fin 0, .fin 0⟩, ⟨.fin 1, .fin 1, .fin 0⟩, ⟨.fin 0, .fin 1, .fin 0⟩,
        ⟨.fin 0, .fin 0, .fin 0⟩, ⟨.fin 1, .fin 1, .fin 0⟩, ⟨.fin 0, .fin 1, .fin 0⟩⟩,
       ⟨⟨.fin 0, .fin 0, .fin tenth⟩, ⟨.fin 1, .fin 0, .fin tenth⟩,
        ⟨.fin 1, .fin 1, .fin tenth⟩,
        ⟨.fin 0, .fin 0, .fin 0⟩, ⟨.fin 1, .fin 0, .fin 0⟩, ⟨.fin 1, .fin 1, .fin 0⟩⟩,
       ⟨⟨.fin 0, .fin 0, .fin tenth⟩, ⟨.fin 1, .fin 1, .fin tenth⟩,
        ⟨.fin 0, .fin 1, .fin tenth⟩,
        ⟨.fin 0, .fin 0, .fin 0⟩, ⟨.fin 1, .fin 1, .fin 0⟩, ⟨.fin 0, .fin 1, .fin 0⟩⟩] := by
  decide!

/-- C16 as stated fails in both directions, the cell being computed in binary32. The two
triangles of `gridLineScene` have the centroid grid cells `(0, 256)` and `(1, 256)`
(`floor(1024 * mean u)` is `0` for the first: the mean is `2^-10 - 2^-34 / 3`), yet the
code computes `(1, 256)` for both and reports `overlapping_uvs = true`. The two faces of
`twinScene` have the same UV coordinates, hence the same centroid grid cell `(767, 341)`,
yet the code computes `(768, 341)` and `(767, 341)` and leaves the flag false. -/
theorem overlap_flag_iff_shared_cell_counterexample :
    ((gridLineScene.map FP.fin).isBinary32 = true ∧
      InspectMesh binary32Arith (fun _ => none) "" (some (gridLineScene.map FP.fin)) =
        .ok ⟨[inspectMaterial binary32Arith (fun _ => none) (gridLineScene.map FP.fin) 0
          plainMaterial]⟩ ∧
      (materialTriangles exactArith gridLineScene 0).map Tri.centroidGridCell =
        [(0, 256), (1, 256)] ∧
      (materialTriangles binary32Arith (gridLineScene.map FP.fin) 0).map
        (Tri.cell binary32Arith) = [(1, 256), (1, 256)] ∧
      (inspectMaterial binary32Arith (fun _ => none) (gridLineScene.map FP.fin) 0
        plainMaterial).overlapping_uvs = true) ∧
    ((twinScene.map FP.fin).isBinary32 = true ∧
      InspectMesh binary32Arith (fun _ => none) "" (some (twinScene.map FP.fin)) =
        .ok ⟨[inspectMaterial binary32Arith (fun _ => none) (twinScene.map FP.fin) 0
          plainMaterial]⟩ ∧
      (materialTriangles exactArith twinScene 0).map Tri.centroidGridCell =
        [(767, 341), (767, 341)] ∧
      (materialTriangles binary32Arith (twinScene.map FP.fin) 0).map
        (Tri.cell binary32Arith) = [(768, 341), (767, 341)] ∧
      (inspectMaterial binary32Arith (fun _ => none) (twinScene.map FP.fin) 0
        plainMaterial).overlapping_uvs = false) :=
  ⟨⟨by decide!, rfl, by decide!, by decide!, by decide!⟩,
    ⟨by decide!, rfl, by decide!, by decide!, by decide!⟩⟩

/-- C16, amended: for every material, `overlapping_uvs` is true if and only if two distinct
triangles of the material (across its meshes having UV channel 0) have the same centroid
grid cell as the code computes it, `(int)floor((u_sum / 3.0f) * 1024)` and likewise for
`v`, the sums being accumulated in vertex order; the computed indices are 32-bit values and
the 64-bit key is injective on pairs of 32-bit signed cell indices, negative ones included,
so two different cells never collide. It holds in every arithmetic, the machine's included;
over exact arithmetic and within the range of `int` the computed cell is
`(floor(1024 * mean u), floor(1024 * mean v))`. -/
theorem overlap_flag_iff_shared_cell {F D : Type} (A : Arith F D)
    (open_ : String → Option (Image F)) (err : String)
    (scene : Scene F) (report : InspectReport)
    (h : InspectMesh A open_ err (some scene) = .ok report)
    (info : MaterialInfo) (hi : info ∈ report.materials) :
    (info.overlapping_uvs = true ↔
      ∃ (i j : Nat) (a b : Tri F), i ≠ j ∧
        (materialTriangles A scene info.index.toNat)[i]? = some a ∧
        (materialTriangles A scene info.index.toNat)[j]? = some b ∧
        a.cell A = b.cell A) ∧
    (∀ t : Tri F, t.cell A =
        (A.toInt (A.floor (A.mul (A.div (A.add (A.add (A.add (A.ofInt 0) t.uv0.x) t.uv1.x)
            t.uv2.x) (A.ofInt 3)) (A.ofInt 1024))),
          A.toInt (A.floor (A.mul (A.div (A.add (A.add (A.add (A.ofInt 0) t.uv0.y) t.uv1.y)
            t.uv2.y) (A.ofInt 3)) (A.ofInt 1024)))) ∧
      inInt32 (t.cell A).1 ∧ inInt32 (t.cell A).2) ∧
    (∀ cu cv cu' cv' : Int, inInt32 cu → inInt32 cv → inInt32 cu' → inInt32 cv' →
      (cellKey cu cv = cellKey cu' cv' ↔ cu = cu' ∧ cv = cv')) ∧
    (∀ t : Tri ℚ, inInt32 ⌊1024 * ((t.uv0.x + t.uv1.x + t.uv2.x) / 3)⌋ →
      inInt32 ⌊1024 * ((t.uv0.y + t.uv1.y + t.uv2.y) / 3)⌋ →
      t.cell exactArith = (⌊1024 * ((t.uv0.x + t.uv1.x + t.uv2.x) / 3)⌋,
        ⌊1024 * ((t.uv0.y + t.uv1.y + t.uv2.y) / 3)⌋)) := by
  obtain ⟨m, mat, -, rfl⟩ := mem_report A open_ err scene report h info hi
  rw [inspectMaterial_index]
  refine ⟨overlapping_uvs_iff_cells A open_ scene m mat, fun t => ⟨rfl, t.cell_range A⟩, ?_,
    fun t hu hv => t.cell_exact hu hv⟩
  intro cu cv cu' cv' h1 h2 h3 h4
  constructor
  · exact cellKey_injective cu cv cu' cv' h1 h2 h3 h4
  · rintro ⟨rfl, rfl⟩
    rfl

/-- The stacked quads of the unit test, computed in binary32: triangles 0 and 2 share the
computed cell `(682, 341)`, and the flag is raised. -/
theorem overlap_flag_iff_shared_cell_witness :
    InspectMesh binary32Arith (fun _ => none) "" (some (stackedQuadsScene.map FP.fin)) =
        .ok ⟨[inspectMaterial binary32Arith (fun _ => none) (stackedQuadsScene.map FP.fin) 0
          plainMaterial]⟩ ∧
      (materialTriangles binary32Arith (stackedQuadsScene.map FP.fin) 0).map
        (Tri.cell binary32Arith) = [(682, 341), (341, 682), (682, 341), (341, 682)] ∧
      (inspectMaterial binary32Arith (fun _ => none) (stackedQuadsScene.map FP.fin) 0
        plainMaterial).overlapping_uvs = true := by
  have hcell : (materialTriangles binary32Arith (stackedQuadsScene.map FP.fin) 0).map
      (Tri.cell binary32Arith) = [(682, 341), (341, 682), (682, 341), (341, 682)] := by decide!
  refine ⟨rfl, hcell, ?_⟩
  apply (overlap_flag_iff_shared_cell binary32Arith (fun _ => none) ""
    (stackedQuadsScene.map FP.fin)
    ⟨[inspectMaterial binary32Arith (fun _ => none) (stackedQuadsScene.map FP.fin) 0
      plainMaterial]⟩ rfl
    (inspectMaterial binary32Arith (fun _ => none) (stackedQuadsScene.map FP.fin) 0
      plainMaterial)
    (List.mem_singleton_self _)).1.mpr
  rw [inspectMaterial_index, stackedTriangles_binary32]
  exact ⟨0, 2, _, _, by decide, rfl, rfl, rfl⟩

/-! ## C11: the only failure is a missing scene -/

/-- C11: `InspectMesh` returns the error `MeshParseError` if and only if the import
collaborator yields no scene; in that case no report is produced, and whenever a scene is
returned `InspectMesh` succeeds with a report (one entry per material). It holds in every
arithmetic, the machine's included. -/
theorem InspectMesh_error_iff_no_scene {F D : Type} (A : Arith F D)
    (open_ : String → Option (Image F)) (err : String) (readFile : Option (Scene F)) :
    ((∃ msg, InspectMesh A open_ err readFile = .error ⟨ErrorCode.MeshParseError, msg⟩) ↔
      readFile = none) ∧
    (∀ e, InspectMesh A open_ err readFile = .error e →
      e.code = ErrorCode.MeshParseError ∧ readFile = none) ∧
    (readFile = none → ∀ report, InspectMesh A open_ err readFile ≠ .ok report) ∧
    (∀ scene, readFile = some scene →
      ∃ report, InspectMesh A open_ err readFile = .ok report ∧
        report.materials.length = scene.mMaterials.length) := by
  cases readFile with
  | none =>
    refine ⟨⟨fun _ => rfl, fun _ => ⟨err, rfl⟩⟩, ?_, ?_, ?_⟩
    · intro e he
      simp only [InspectMesh, Except.error.injEq] at he
      subst he
      exact ⟨rfl, rfl⟩
    · intro _ report h
      simp [InspectMesh] at h
    · intro scene h
      cases h
  | some scene =>
    refine ⟨⟨?_, ?_⟩, ?_, ?_, ?_⟩
    · rintro ⟨msg, h⟩
      simp [InspectMesh] at h
    · intro h
      cases h
    · intro e h
      simp [InspectMesh] at h
    · intro h
      cases h
    · intro scene' h
      cases h
      exact ⟨_, rfl, by simp⟩

/-! ## C13: UV-set enumeration -/

theorem uvName_ne_empty (uv : Nat) : uvName uv ≠ "" := by
  intro h
  have h2 := congrArg String.length h
  simp [uvName, String.length_append] at h2
  have : ("UV" : String).length = 2 := by decide
  omega

/-- The channel loop of one mesh extends the list of names to the mesh's channel count. -/
theorem foldl_uvSetStep (l n : Nat) :
    (List.range n).foldl uvSetStep ((List.range l).map uvName) =
      (List.range (max l n)).map uvName := by
  induction n with
  | zero => simp
  | succ n ih =>
    rw [List.range_succ, List.foldl_append, ih, List.foldl_cons, List.foldl_nil]
    unfold uvSetStep
    simp only [List.length_map, List.length_range]
    by_cases hl : l ≤ n
    · rw [max_eq_right hl, max_eq_right (by omega : l ≤ n + 1), if_pos le_rfl]
      unfold resizeStrings
      simp only [List.length_map, List.length_range]
      rw [List.take_of_length_le (by simp), List.range_succ, List.map_append]
      simp only [Nat.add_sub_cancel_left, List.replicate_one, List.map_cons, List.map_nil]
      have hlen : ((List.range n).map uvName).length = n := by simp
      rw [List.set_append_right _ _ (by omega), hlen, Nat.sub_self]
      rfl
    · rw [max_eq_left (by omega : n ≤ l), max_eq_left (by omega : n + 1 ≤ l),
        if_neg (by omega)]

theorem inspectMeshStep_uv_sets {F D : Type} (A : Arith F D) (m : Nat) (st : MatState)
    (mesh : Mesh F) :
    (inspectMeshStep A m st mesh).uv_sets =
      if mesh.mMaterialIndex = m then
        (List.range mesh.GetNumUVChannels).foldl uvSetStep st.uv_sets
      else st.uv_sets := by
  unfold inspectMeshStep
  by_cases hm : mesh.mMaterialIndex = m
  · simp only [hm, ne_eq, not_true_eq_false, if_false, if_true]
    split
    · rfl
    · rw [foldl_inspectFace_const A (fun s => s.uv_sets) mesh (inspectFace_uv_sets A mesh)]
  · simp [hm]

theorem foldl_inspectMeshStep_uv_sets {F D : Type} (A : Arith F D) (m : Nat)
    (meshes : List (Mesh F)) (st : MatState) (l : Nat)
    (hst : st.uv_sets = (List.range l).map uvName) :
    (meshes.foldl (inspectMeshStep A m) st).uv_sets =
      (List.range (((meshes.filter (fun mesh => decide (mesh.mMaterialIndex = m))).map
        Mesh.GetNumUVChannels).foldl max l)).map uvName := by
  induction meshes generalizing st l with
  | nil => simpa using hst
  | cons mesh ms ih =>
    rw [List.foldl_cons]
    by_cases hm : mesh.mMaterialIndex = m
    · rw [ih _ (max l mesh.GetNumUVChannels)]
      · simp [hm]
      · rw [inspectMeshStep_uv_sets, if_pos hm, hst, foldl_uvSetStep]
    · rw [ih _ l]
      · simp [hm]
      · rw [inspectMeshStep_uv_sets, if_neg hm, hst]

/-- C13: for every material reported by `InspectMesh`, `uv_sets` is the list
`["UV0", "UV1", ..., "UV(k-1)"]` where `k` is the largest number of UV channels of any
mesh using that material (`k = 0`, the empty list, when no mesh uses it); entry `i` is
named by its channel index `i` and no entry is left empty. It holds in every arithmetic,
the machine's included. -/
theorem uv_sets_enumeration {F D : Type} (A : Arith F D)
    (open_ : String → Option (Image F)) (err : String)
    (scene : Scene F) (report : InspectReport)
    (h : InspectMesh A open_ err (some scene) = .ok report)
    (info : MaterialInfo) (hi : info ∈ report.materials) :
    info.uv_sets =
      (List.range (maxUVChannels scene.mMeshes info.index.toNat)).map
        (fun i => "UV" ++ toString i) ∧
    info.uv_sets.length = maxUVChannels scene.mMeshes info.index.toNat ∧
    (∀ i, i < maxUVChannels scene.mMeshes info.index.toNat →
      info.uv_sets[i]? = some ("UV" ++ toString i)) ∧
    (∀ s ∈ info.uv_sets, s ≠ "") ∧
    ((∀ mesh ∈ scene.mMeshes, mesh.mMaterialIndex ≠ info.index.toNat) → info.uv_sets = []) := by
  obtain ⟨m, mat, -, rfl⟩ := mem_report A open_ err scene report h info hi
  rw [inspectMaterial_index]
  have huv : (inspectMaterial A open_ scene m mat).uv_sets =
      (List.range (maxUVChannels scene.mMeshes m)).map uvName := by
    simp only [inspectMaterial, materialState, maxUVChannels]
    exact foldl_inspectMeshStep_uv_sets A m scene.mMeshes {} 0 rfl
  refine ⟨huv, ?_, ?_, ?_, ?_⟩
  · rw [huv]
    simp
  · intro i hi'
    rw [huv, List.getElem?_map, List.getElem?_range hi']
    rfl
  · intro s hs
    rw [huv, List.mem_map] at hs
    obtain ⟨i, -, rfl⟩ := hs
    exact uvName_ne_empty i
  · intro hno
    rw [huv]
    have : scene.mMeshes.filter (fun mesh => decide (mesh.mMaterialIndex = m)) = [] := by
      rw [List.filter_eq_nil_iff]
      intro mesh hmesh
      simpa using hno mesh hmesh
    simp [maxUVChannels, this]

/-- Material 0 of `uvChannelsScene` is used by a two-channel and a one-channel mesh. -/
theorem uv_sets_enumeration_witness :
    InspectMesh binary32Arith (fun _ => none) "" (some (uvChannelsScene.map FP.fin)) =
        .ok ⟨[inspectMaterial binary32Arith (fun _ => none) (uvChannelsScene.map FP.fin) 0
            plainMaterial,
          inspectMaterial binary32Arith (fun _ => none) (uvChannelsScene.map FP.fin) 1
            plainMaterial]⟩ ∧
      maxUVChannels (uvChannelsScene.map FP.fin).mMeshes 0 = 2 ∧
      (inspectMaterial binary32Arith (fun _ => none) (uvChannelsScene.map FP.fin) 0
        plainMaterial).uv_sets = ["UV0", "UV1"] := by
  have hk : maxUVChannels (uvChannelsScene.map FP.fin).mMeshes 0 = 2 := by decide
  refine ⟨rfl, hk, ?_⟩
  have h := (uv_sets_enumeration binary32Arith (fun _ => none) ""
    (uvChannelsScene.map FP.fin)
    ⟨[inspectMaterial binary32Arith (fun _ => none) (uvChannelsScene.map FP.fin) 0
        plainMaterial,
      inspectMaterial binary32Arith (fun _ => none) (uvChannelsScene.map FP.fin) 1
        plainMaterial]⟩ rfl
    (inspectMaterial binary32Arith (fun _ => none) (uvChannelsScene.map FP.fin) 0
      plainMaterial)
    (List.mem_cons_self _ _)).1
  rw [inspectMaterial_index, hk] at h
  rw [h]
  decide

/-! ## C12: the Y-convention guess -/

/-- With enough fuel the loop of `GuessYDown`, entered at the green sample of pixel `k`,
adds the green samples of the pixels `k .. P - 1` in pixel order. -/
theorem greenSumLoop_eq {F D : Type} (A : Arith F D) (pixels : List F) (step P : Nat)
    (hstep : 2 ≤ step) (hlen : pixels.length = P * step) (d : Nat) :
    ∀ (k fuel : Nat) (sum : D), k + d = P → d ≤ fuel →
      greenSumLoop A pixels step fuel (k * step + 1) sum =
        ((List.range' k d).filterMap (fun j => pixels.get? (j * step + 1))).foldl
          (fun s g => A.dadd s (A.toDouble g)) sum := by
  induction d with
  | zero =>
    intro k fuel sum hk _
    have hk' : k = P := by omega
    subst hk'
    simp only [List.range'_zero, List.filterMap_nil, List.foldl_nil]
    cases fuel with
    | zero => rfl
    | succ fuel =>
      rw [greenSumLoop, dif_neg (by omega)]
  | succ d ih =>
    intro k fuel sum hk hfuel
    obtain ⟨fuel, rfl⟩ : ∃ f, fuel = f + 1 := ⟨fuel - 1, by omega⟩
    have hlt : k * step + 1 < pixels.length := by
      rw [hlen]
      have h1 : (k + 1) * step ≤ P * step := Nat.mul_le_mul_right _ (by omega)
      have h2 : (k + 1) * step = k * step + step := by ring
      omega
    rw [greenSumLoop, dif_pos hlt]
    have e : k * step + 1 + step = (k + 1) * step + 1 := by ring
    rw [e, ih (k + 1) fuel _ (by omega) (by omega), List.range'_succ, List.filterMap_cons,
      List.get?_eq_get hlt]
    rfl

/-- On an image with at least two channels, `GuessYDown` compares the average it computes
over the green samples with `0.5`. -/
theorem GuessYDown_eq {F D : Type} (A : Arith F D) (open_ : String → Option (Image F))
    (path : String) (img : Image F) (hopen : open_ path = some img)
    (hch : 2 ≤ img.nchannels) :
    GuessYDown A open_ path = A.dlt (img.greenAverageComputed A) A.dhalf := by
  have hfuel : img.width * img.height ≤ img.pixels.length := by
    rw [img.size_eq]
    exact Nat.le_mul_of_pos_right _ (by omega)
  have h := greenSumLoop_eq A img.pixels img.nchannels (img.width * img.height) hch
    img.size_eq (img.width * img.height) 0 img.pixels.length (A.dofInt 0) (by omega) hfuel
  simp only [Nat.zero_mul, Nat.zero_add] at h
  unfold GuessYDown
  rw [hopen]
  simp only [h, Image.greenAverageComputed, Image.greens, List.range_eq_range']

theorem foldl_add_eq_sum (l : List ℚ) (s : ℚ) : l.foldl (fun s g => s + g) s = s + l.sum := by
  induction l generalizing s with
  | nil => simp
  | cons a l ih =>
    rw [List.foldl_cons, ih, List.sum_cons]
    ring

/-- Over exact arithmetic the computed average is the average of the green samples. -/
theorem Image.greenAverageComputed_exact (img : Image ℚ) :
    img.greenAverageComputed exactArith = img.greenAverage := by
  unfold Image.greenAverageComputed Image.greenAverage
  show (img.greens.foldl (fun s g => s + g) ((0 : Int) : ℚ)) /
    (((img.width * img.height : Nat) : Int) : ℚ) = _
  rw [foldl_add_eq_sum]
  simp

/-- C12 as stated fails, the sum being accumulated in `double`: the image `edge.png` is
readable, has `4 x 1` pixels and two channels, its green samples `1 - 2^-24`,
`2^-24 - 2^-48`, `2^-48 - 2^-72`, `1` are `float` values and their average
`1/2 - 2^-74` is strictly below `0.5`; the `double` sum rounds to `2.0` at each addition,
the computed average is `0.5`, and `GuessYDown` (hence `y_is_down`) is false. -/
theorem y_is_down_iff_green_average_counterexample :
    testImagesFP "edge.png" = some (edgeGreenImage.map FP.fin) ∧
      1 ≤ edgeGreenImage.width * edgeGreenImage.height ∧ 2 ≤ edgeGreenImage.nchannels ∧
      (edgeGreenImage.map FP.fin).pixels.all binary32.representable = true ∧
      edgeGreenImage.greens = [1 - 1 / 2 ^ 24, 1 / 2 ^ 24 - 1 / 2 ^ 48,
        1 / 2 ^ 48 - 1 / 2 ^ 72, 1] ∧
      edgeGreenImage.greenAverage = 1 / 2 - 1 / 2 ^ 74 ∧
      edgeGreenImage.greenAverage < 1 / 2 ∧
      (edgeGreenImage.map FP.fin).greenAverageComputed binary32Arith = .fin (1 / 2) ∧
      GuessYDown binary32Arith testImagesFP "edge.png" = false ∧
      (inspectMaterial binary32Arith testImagesFP (mirroredQuadScene.map FP.fin) 0
        ⟨none, some "edge.png", none⟩).y_is_down = false :=
  ⟨rfl, by decide, by decide, by decide!, by decide!, by decide!, by decide!, by decide!,
    by decide!, by decide!⟩

/-- C12, amended: for every readable normal-map image with at least 2 channels,
`GuessYDown` (and hence `y_is_down` of a material associated with that image) is true if
and only if the average of the green channel as the code computes it is strictly below
`0.5`: the `float` samples of channel 1 are promoted to `double` and added in pixel order,
starting from `0.0`, and the `double` sum is divided by `width * height`; over exact
arithmetic, for `width * height >= 1`, that is the exact average of the green channel. If
the image cannot be opened, or the material has no normal map, `y_is_down` is false. -/
theorem y_is_down_iff_green_average {F D : Type} (A : Arith F D)
    (open_ : String → Option (Image F)) :
    (∀ (path : String) (img : Image F), open_ path = some img → 2 ≤ img.nchannels →
      (GuessYDown A open_ path = true ↔
        A.dlt (img.greenAverageComputed A) A.dhalf = true)) ∧
    (∀ (path : String) (img : Image F), open_ path = some img → 2 ≤ img.nchannels →
      ∀ (scene : Scene F) (m : Nat) (mat : Material), mat.normalTexture = some path →
        ((inspectMaterial A open_ scene m mat).y_is_down = true ↔
          A.dlt (img.greenAverageComputed A) A.dhalf = true)) ∧
    (∀ (scene : Scene F) (m : Nat) (mat : Material) (p : String),
      mat.normalTexture = some p → open_ p = none →
      (inspectMaterial A open_ scene m mat).y_is_down = false) ∧
    (∀ (scene : Scene F) (m : Nat) (mat : Material), mat.normalTexture = none →
      (inspectMaterial A open_ scene m mat).y_is_down = false) ∧
    (∀ (open2 : String → Option (Image ℚ)) (path : String) (img : Image ℚ),
      open2 path = some img → 1 ≤ img.width * img.height → 2 ≤ img.nchannels →
      (GuessYDown exactArith open2 path = true ↔ img.greenAverage < 1 / 2)) := by
  refine ⟨?_, ?_, ?_, ?_, ?_⟩
  · intro path img hopen hch
    rw [GuessYDown_eq A open_ path img hopen hch]
  · intro path img hopen hch scene m mat hmat
    simp only [inspectMaterial, hmat]
    rw [GuessYDown_eq A open_ path img hopen hch]
  · intro scene m mat p hmat hp
    simp only [inspectMaterial, hmat, GuessYDown, hp]
  · intro scene m mat hmat
    simp only [inspectMaterial, hmat]
  · intro open2 path img hopen _ hch
    rw [GuessYDown_eq exactArith open2 path img hopen hch, img.greenAverageComputed_exact]
    show decide (img.greenAverage < 1 / 2) = true ↔ _
    rw [decide_eq_true_eq]

/-- In binary32 and `double`: the green average of `dark.png` is computed as `3/8`, so it
is guessed Y-down; that of `bright.png` as `5/8`, so it is not; a material without normal
map, or with one that cannot be opened, is not. -/
theorem y_is_down_iff_green_average_witness :
    (testImagesFP "dark.png" = some (darkGreenImage.map FP.fin) ∧
      2 ≤ (darkGreenImage.map FP.fin).nchannels ∧
      (darkGreenImage.map FP.fin).greenAverageComputed binary32Arith = .fin (3 / 8) ∧
      GuessYDown binary32Arith testImagesFP "dark.png" = true) ∧
    (testImagesFP "bright.png" = some (brightGreenImage.map FP.fin) ∧
      (brightGreenImage.map FP.fin).greenAverageComputed binary32Arith = .fin (5 / 8) ∧
      GuessYDown binary32Arith testImagesFP "bright.png" = false) ∧
    (inspectMaterial binary32Arith testImagesFP (mirroredQuadScene.map FP.fin) 0
      ⟨none, some "missing.png", none⟩).y_is_down = false ∧
    (inspectMaterial binary32Arith testImagesFP (mirroredQuadScene.map FP.fin) 0
      plainMaterial).y_is_down = false := by
  have havg : (darkGreenImage.map FP.fin).greenAverageComputed binary32Arith =
      .fin (3 / 8) := by decide!
  have havg' : (brightGreenImage.map FP.fin).greenAverageComputed binary32Arith =
      .fin (5 / 8) := by decide!
  have hT := y_is_down_iff_green_average binary32Arith testImagesFP
  refine ⟨⟨rfl, by decide, havg, ?_⟩, ⟨rfl, havg', ?_⟩, ?_, ?_⟩
  · rw [hT.1 "dark.png" (darkGreenImage.map FP.fin) rfl (by decide), havg]
    decide!
  · rw [← Bool.not_eq_true, hT.1 "bright.png" (brightGreenImage.map FP.fin) rfl (by decide),
      havg']
    decide!
  · exact hT.2.2.1 (mirroredQuadScene.map FP.fin) 0 ⟨none, some "missing.png", none⟩
      "missing.png" rfl rfl
  · exact hT.2.2.2.1 (mirroredQuadScene.map FP.fin) 0 plainMaterial rfl

/-! ## C8: `<UDIM>` token expansion -/

/-- The token has six characters. -/
theorem udimToken_length : udimToken.length = 6 := rfl

/-- No occurrence of the token starts inside a non-empty `pre` that is free of it: the
token has no proper border, so an occurrence cannot straddle the end of `pre`. -/
theorem no_early_match (pre post : List Char) (hne : pre ≠ [])
    (hpre : ∀ a b : List Char, pre ≠ a ++ udimToken ++ b) :
    udimToken.isPrefixOf (pre ++ udimToken ++ post) = false := by
  rcases pre with _ | ⟨c1, _ | ⟨c2, _ | ⟨c3, _ | ⟨c4, _ | ⟨c5, _ | ⟨c6, rest⟩⟩⟩⟩⟩⟩
  · exact absurd rfl hne
  · simp [udimToken, List.isPrefixOf]
  · simp [udimToken, List.isPrefixOf]
  · simp [udimToken, List.isPrefixOf]
  · simp [udimToken, List.isPrefixOf]
  · simp [udimToken, List.isPrefixOf]
  · rw [Bool.eq_false_iff]
    intro hp
    simp only [udimToken, List.cons_append, List.isPrefixOf, Bool.and_eq_true, beq_iff_eq,
      Bool.and_true] at hp
    obtain ⟨h1, h2, h3, h4, h5, h6⟩ := hp
    apply hpre [] rest
    rw [← h1, ← h2, ← h3, ← h4, ← h5, ← h6]
    rfl

theorem findFrom_token (pre post : List Char) (pos : Nat)
    (hpre : ∀ a b : List Char, pre ≠ a ++ udimToken ++ b) :
    findFrom udimToken (pre ++ udimToken ++ post) pos = some (pos + pre.length) := by
  induction pre generalizing pos with
  | nil =>
    simp [udimToken, findFrom, List.isPrefixOf]
  | cons c cs ih =>
    have hno := no_early_match (c :: cs) post (List.cons_ne_nil _ _) hpre
    have hcs : ∀ a b : List Char, cs ≠ a ++ udimToken ++ b := by
      intro a b hab
      apply hpre (c :: a) b
      rw [hab]
      simp
    simp only [List.cons_append] at hno ⊢
    rw [findFrom, hno]
    simp only [Bool.false_eq_true, if_false]
    rw [ih (pos + 1) hcs]
    simp only [List.length_cons]
    congr 1
    omega

theorem expandTile_token (pre post : List Char) (t : Int)
    (hpre : ∀ a b : List Char, pre ≠ a ++ udimToken ++ b) :
    expandTile (pre ++ udimToken ++ post) t = some (pre ++ to_string t ++ post) := by
  unfold expandTile find
  rw [findFrom_token pre post 0 hpre]
  simp only [Nat.zero_add, replace, List.length_append, udimToken_length]
  rw [if_neg (by omega)]
  congr 2
  · rw [List.append_assoc, List.take_left]
  · rw [List.append_assoc, List.drop_append]
    rfl

theorem expandLoop_token (pre post : List Char) (tiles : List Int) (paths : List (List Char))
    (hpre : ∀ a b : List Char, pre ≠ a ++ udimToken ++ b) :
    expandLoop (pre ++ udimToken ++ post) tiles paths =
      some (paths ++ tiles.map (fun t => pre ++ to_string t ++ post)) := by
  induction tiles generalizing paths with
  | nil => simp [expandLoop]
  | cons t ts ih =>
    rw [expandLoop, expandTile_token pre post t hpre]
    simp only
    rw [ih]
    simp

/-- C8: for every pattern `pre ++ "<UDIM>" ++ post` with `pre` free of the token and every
list of tile ids, the expansion loop of the test returns a list of the same length whose
`i`-th element is `pre ++ decimal(tiles[i]) ++ post`, in tile order; and
`"tex_<UDIM>.exr"` with `[1001, 1002]` gives exactly `["tex_1001.exr", "tex_1002.exr"]`. -/
theorem udim_expansion (pre post : List Char) (tiles : List Int)
    (hpre : ∀ a b : List Char, pre ≠ a ++ udimToken ++ b) :
    (∃ paths, expandUdim (pre ++ udimToken ++ post) tiles = some paths ∧
      paths.length = tiles.length ∧
      ∀ i (hi : i < tiles.length), paths[i]? = some (pre ++ to_string tiles[i] ++ post)) ∧
    expandUdim "tex_<UDIM>.exr".toList [1001, 1002] =
      some ["tex_1001.exr".toList, "tex_1002.exr".toList] := by
  refine ⟨⟨tiles.map (fun t => pre ++ to_string t ++ post), ?_, by simp, ?_⟩, by decide⟩
  · unfold expandUdim
    rw [expandLoop_token pre post tiles [] hpre]
    simp
  · intro i hi
    simp [List.getElem?_map, List.getElem?_eq_getElem hi]

/-- The expansion of `"tex_<UDIM>.exr"` over the tiles `[1001, 1002]`. -/
theorem udim_expansion_witness :
    (∀ a b : List Char, "tex_".toList ≠ a ++ udimToken ++ b) ∧
    ∃ paths, expandUdim ("tex_".toList ++ udimToken ++ ".exr".toList) [1001, 1002] =
        some paths ∧ paths.length = 2 ∧
      ∀ i (hi : i < [(1001 : Int), 1002].length),
        paths[i]? = some ("tex_".toList ++ to_string [(1001 : Int), 1002][i] ++ ".exr".toList) :=
  have hpre : ∀ a b : List Char, "tex_".toList ≠ a ++ udimToken ++ b := by
    intro a b h
    have hl := congrArg List.length h
    simp [udimToken] at hl
    omega
  ⟨hpre, (udim_expansion "tex_".toList ".exr".toList [1001, 1002] hpre).1⟩

/-! ## C9: `DecodeXY` returns unit vectors -/

theorem byteValue_ne_zero (c : Fin 256) : (byteValue c : ℝ) ≠ 0 := by
  unfold byteValue
  intro h
  have h2 : ((2 * c.val : ℕ) : ℝ) = ((255 : ℕ) : ℝ) := by
    push_cast
    linarith
  have h3 : 2 * c.val = 255 := by exact_mod_cast h2
  omega

theorem byteValue_abs_le_one (c : Fin 256) : |(byteValue c : ℝ)| ≤ 1 := by
  unfold byteValue
  have h0 : (0 : ℝ) ≤ (c.val : ℝ) := Nat.cast_nonneg _
  have h1 : (c.val : ℝ) ≤ 255 := by
    have : c.val ≤ 255 := by omega
    exact_mod_cast this
  rw [abs_le]
  constructor <;> linarith

/-- The squared norm of the vector `DecodeXY` normalises. -/
theorem decode_sqnorm (fx fy : ℝ) :
    fx * fx + fy * fy + Real.sqrt (max 0 (1 - fx * fx - fy * fy)) *
      Real.sqrt (max 0 (1 - fx * fx - fy * fy)) = max 1 (fx * fx + fy * fy) := by
  rw [Real.mul_self_sqrt (le_max_left _ _)]
  rcases le_total (fx * fx + fy * fy) 1 with h | h
  · rw [max_eq_right (by linarith), max_eq_left h]
    ring
  · rw [max_eq_left (by linarith), max_eq_right h]
    ring

theorem DecodeXY_eq (x y : Fin 256) :
    DecodeXY Real.sqrt x y =
      (byteValue x / Real.sqrt (max 1 (byteValue x * byteValue x + byteValue y * byteValue y)),
       byteValue y / Real.sqrt (max 1 (byteValue x * byteValue x + byteValue y * byteValue y)),
       Real.sqrt (max 0 (1 - byteValue x * byteValue x - byteValue y * byteValue y)) /
         Real.sqrt (max 1 (byteValue x * byteValue x + byteValue y * byteValue y))) := by
  have hs := decode_sqnorm (byteValue x) (byteValue y)
  have hpos : (0 : ℝ) < max 1 (byteValue x * byteValue x + byteValue y * byteValue y) :=
    lt_of_lt_of_le one_pos (le_max_left _ _)
  unfold DecodeXY normalize
  simp only [byteValue] at hs hpos ⊢
  rw [hs, if_pos hpos]

/-- C9: for every byte pair, the vector `(fx, fy, sqrt(max(0, 1 - fx^2 - fy^2)))` that
`DecodeXY` normalises is not the zero vector, the result has Euclidean length exactly 1
over the reals (hence within `1e-5` of 1) and `z >= 0`, and when `fx^2 + fy^2 > 1` the
result has `z = 0` and is `(fx, fy, 0)` renormalised. -/
theorem DecodeXY_unit_length (x y : Fin 256) :
    ((byteValue x : ℝ), (byteValue y : ℝ),
        Real.sqrt (max 0 (1 - byteValue x * byteValue x - byteValue y * byteValue y))) ≠
      (0, 0, 0) ∧
    Real.sqrt ((DecodeXY Real.sqrt x y).1 ^ 2 + (DecodeXY Real.sqrt x y).2.1 ^ 2 +
      (DecodeXY Real.sqrt x y).2.2 ^ 2) = 1 ∧
    |Real.sqrt ((DecodeXY Real.sqrt x y).1 ^ 2 + (DecodeXY Real.sqrt x y).2.1 ^ 2 +
      (DecodeXY Real.sqrt x y).2.2 ^ 2) - 1| ≤ 1 / 100000 ∧
    0 ≤ (DecodeXY Real.sqrt x y).2.2 ∧
    (1 < (byteValue x : ℝ) ^ 2 + (byteValue y : ℝ) ^ 2 →
      DecodeXY Real.sqrt x y =
        (byteValue x / Real.sqrt ((byteValue x : ℝ) ^ 2 + (byteValue y : ℝ) ^ 2),
         byteValue y / Real.sqrt ((byteValue x : ℝ) ^ 2 + (byteValue y : ℝ) ^ 2), 0)) := by
  have hlen : Real.sqrt ((DecodeXY Real.sqrt x y).1 ^ 2 + (DecodeXY Real.sqrt x y).2.1 ^ 2 +
      (DecodeXY Real.sqrt x y).2.2 ^ 2) = 1 := by
    rw [DecodeXY_eq]
    have hs := decode_sqnorm (byteValue x) (byteValue y)
    set m := max 1 ((byteValue x : ℝ) * byteValue x + byteValue y * byteValue y) with hm
    have hpos : (0 : ℝ) < m := lt_of_lt_of_le one_pos (le_max_left _ _)
    have hsq : Real.sqrt m ^ 2 = m := Real.sq_sqrt hpos.le
    have hne : Real.sqrt m ≠ 0 := (Real.sqrt_pos.mpr hpos).ne'
    simp only
    rw [div_pow, div_pow, div_pow, hsq, ← add_div, ← add_div]
    have : (byteValue x : ℝ) ^ 2 + byteValue y ^ 2 +
        Real.sqrt (max 0 (1 - byteValue x * byteValue x - byteValue y * byteValue y)) ^ 2
        = m := by
      rw [← hs]
      ring
    rw [this, div_self hpos.ne', Real.sqrt_one]
  refine ⟨?_, hlen, ?_, ?_, ?_⟩
  · intro h
    exact byteValue_ne_zero x (congrArg Prod.fst h)
  · rw [hlen]
    norm_num
  · rw [DecodeXY_eq]
    exact div_nonneg (Real.sqrt_nonneg _) (Real.sqrt_nonneg _)
  · intro h
    have h' : 1 < (byteValue x : ℝ) * byteValue x + byteValue y * byteValue y := by
      nlinarith
    rw [DecodeXY_eq, max_eq_right h'.le, max_eq_left (by linarith), Real.sqrt_zero, zero_div,
      pow_two, pow_two]

/-! ## C10: the XY round trip -/

/-- Quantisation: a component in `[-1, 1]` is recovered from its byte up to `1/255`. -/
theorem byteValue_encodeByte (c : ℝ) (hc : |c| ≤ 1) :
    |(byteValue (encodeByte c) : ℝ) - c| ≤ 1 / 255 := by
  rw [abs_le] at hc
  obtain ⟨hc1, hc2⟩ := hc
  have hfl := Int.floor_le ((c + 1) / 2 * 255 + 1 / 2)
  have hfu := Int.lt_floor_add_one ((c + 1) / 2 * 255 + 1 / 2)
  set k : ℤ := ⌊(c + 1) / 2 * 255 + 1 / 2⌋ with hk
  have hk0 : 0 ≤ k := by
    rw [hk]
    apply Int.floor_nonneg.mpr
    linarith
  have hk255 : k ≤ 255 := by
    have : (k : ℝ) < 256 := by linarith
    have : k < 256 := by exact_mod_cast this
    omega
  have hval : ((encodeByte c).val : ℝ) = (k : ℝ) := by
    have h1 : (encodeByte c).val = k.toNat := by
      show min (Int.toNat ⌊(c + 1) / 2 * 255 + 1 / 2⌋) 255 = k.toNat
      rw [← hk]
      omega
    rw [h1]
    have h2 : ((k.toNat : ℤ) : ℝ) = (k : ℝ) := by rw [Int.toNat_of_nonneg hk0]
    exact_mod_cast h2
  unfold byteValue
  rw [hval, abs_le]
  constructor <;> linarith

/-- The encoder inverts `byteValue`. -/
theorem encodeByte_byteValue (b : Fin 256) : encodeByte (byteValue b : ℝ) = b := by
  have h : ((byteValue b : ℝ) + 1) / 2 * 255 + 1 / 2 = ((b.val : ℤ) : ℝ) + 1 / 2 := by
    unfold byteValue
    push_cast
    ring
  have hf : ⌊((b.val : ℤ) : ℝ) + 1 / 2⌋ = (b.val : ℤ) := by
    rw [Int.floor_eq_iff]
    constructor <;> norm_num
  apply Fin.ext
  show min (Int.toNat ⌊((byteValue b : ℝ) + 1) / 2 * 255 + 1 / 2⌋) 255 = b.val
  rw [h, hf]
  have := b.isLt
  omega

theorem abs_sqrt_sub_sqrt_le (a b c : ℝ) (ha : 0 ≤ a) (hb : 0 ≤ b) (hc : 0 ≤ c)
    (h : |a - b| ≤ c ^ 2) : |Real.sqrt a - Real.sqrt b| ≤ c := by
  have hsa := Real.sqrt_nonneg a
  have hsb := Real.sqrt_nonneg b
  have ea := Real.mul_self_sqrt ha
  have eb := Real.mul_self_sqrt hb
  rw [abs_le] at h ⊢
  obtain ⟨h1, h2⟩ := h
  constructor
  · by_contra hlt
    push_neg at hlt
    nlinarith
  · by_contra hlt
    push_neg at hlt
    nlinarith

theorem mul_self_sub_bound (f c : ℝ) (hq : |f - c| ≤ 1 / 255) (hf : |f| ≤ 1) (hc : |c| ≤ 1) :
    |f * f - c * c| ≤ 2 / 255 := by
  rw [abs_le] at hq hf hc ⊢
  obtain ⟨h1, h2⟩ := hq
  obtain ⟨h3, h4⟩ := hf
  obtain ⟨h5, h6⟩ := hc
  have e : f * f - c * c = (f - c) * (f + c) := by ring
  rw [e]
  constructor
  · nlinarith [mul_nonneg (by linarith : (0 : ℝ) ≤ f - c + 1 / 255) (by linarith : (0 : ℝ) ≤ 2 - (f + c)),
      mul_nonneg (by linarith : (0 : ℝ) ≤ 1 / 255 - (f - c)) (by linarith : (0 : ℝ) ≤ f + c + 2)]
  · nlinarith [mul_nonneg (by linarith : (0 : ℝ) ≤ f - c + 1 / 255) (by linarith : (0 : ℝ) ≤ f + c + 2),
      mul_nonneg (by linarith : (0 : ℝ) ≤ 1 / 255 - (f - c)) (by linarith : (0 : ℝ) ≤ 2 - (f + c))]

/-- Rescaling by a norm `n` with `1 <= n` and `n^2 <= 1 + 4/255` moves a decoded component
by at most `4/255`. -/
theorem rescaled_component_bound (f c n : ℝ) (hq : |f - c| ≤ 1 / 255) (hf : |f| ≤ 1)
    (hn1 : 1 ≤ n) (hnn : n * n ≤ 1 + 4 / 255) : |f / n - c| ≤ 1 / 50 := by
  rw [abs_le] at hq hf
  obtain ⟨h1, h2⟩ := hq
  obtain ⟨h3, h4⟩ := hf
  have hnpos : 0 < n := by linarith
  have hu : n⁻¹ * n = 1 := inv_mul_cancel₀ hnpos.ne'
  have hupos : 0 < n⁻¹ := inv_pos.mpr hnpos
  have hule : n⁻¹ ≤ 1 := inv_le_one_of_one_le₀ hn1
  have hn2 : n - 1 ≤ 4 / 255 := by nlinarith [mul_nonneg hnpos.le (by linarith : (0 : ℝ) ≤ n - 1)]
  have hgap0 : 1 - n⁻¹ = n⁻¹ * (n - 1) := by linear_combination -hu
  have hgap : 1 - n⁻¹ ≤ 4 / 255 := by
    rw [hgap0]
    nlinarith [mul_nonneg (by linarith : (0 : ℝ) ≤ 1 - n⁻¹) (by linarith : (0 : ℝ) ≤ n - 1)]
  have hge : 0 ≤ 1 - n⁻¹ := by linarith
  rw [div_eq_mul_inv, abs_le]
  constructor
  · nlinarith [mul_nonneg hge (by linarith : (0 : ℝ) ≤ 1 - f),
      mul_nonneg hge (by linarith : (0 : ℝ) ≤ f + 1)]
  · nlinarith [mul_nonneg hge (by linarith : (0 : ℝ) ≤ 1 - f),
      mul_nonneg hge (by linarith : (0 : ℝ) ≤ f + 1)]

theorem small_of_mul_self_le (z : ℝ) (hz : 0 < z) (h : z * z ≤ 4 / 255) : z ≤ 1 / 5 := by
  by_contra hlt
  push_neg at hlt
  nlinarith [mul_pos hz hz, mul_self_nonneg (z - 1 / 5)]

/-- The round-trip error of `DecodeXY` after the 8-bit encoder. -/
theorem roundtrip_bound (x y z : ℝ) (hunit : x ^ 2 + y ^ 2 + z ^ 2 = 1) (hz : 0 < z) :
    |(DecodeXY Real.sqrt (encodeByte x) (encodeByte y)).1 - x| ≤ 1 / 50 ∧
    |(DecodeXY Real.sqrt (encodeByte x) (encodeByte y)).2.1 - y| ≤ 1 / 50 ∧
    |(DecodeXY Real.sqrt (encodeByte x) (encodeByte y)).2.2 - z| ≤ 1 / 5 := by
  have hzz : z * z = 1 - x * x - y * y := by linear_combination hunit
  have hx1 : |x| ≤ 1 := by
    rw [abs_le]
    constructor <;> nlinarith [mul_self_nonneg y, mul_self_nonneg z, mul_self_nonneg (x - 1),
      mul_self_nonneg (x + 1)]
  have hy1 : |y| ≤ 1 := by
    rw [abs_le]
    constructor <;> nlinarith [mul_self_nonneg x, mul_self_nonneg z, mul_self_nonneg (y - 1),
      mul_self_nonneg (y + 1)]
  have hqx := byteValue_encodeByte x hx1
  have hqy := byteValue_encodeByte y hy1
  have hfx := byteValue_abs_le_one (encodeByte x)
  have hfy := byteValue_abs_le_one (encodeByte y)
  have hdx := mul_self_sub_bound _ _ hqx hfx hx1
  have hdy := mul_self_sub_bound _ _ hqy hfy hy1
  rw [DecodeXY_eq]
  set fx : ℝ := byteValue (encodeByte x) with hfxdef
  set fy : ℝ := byteValue (encodeByte y) with hfydef
  rw [abs_le] at hdx hdy
  have hzs : z = Real.sqrt (1 - x * x - y * y) := by
    rw [← hzz, Real.sqrt_mul_self hz.le]
  have hb : (0 : ℝ) ≤ 1 - x * x - y * y := by
    rw [← hzz]
    exact mul_self_nonneg z
  rcases le_or_lt (fx * fx + fy * fy) 1 with hs | hs
  · -- the decoded planar part fits the unit disc: nothing is renormalised
    rw [max_eq_left hs, max_eq_right (by linarith : (0 : ℝ) ≤ 1 - fx * fx - fy * fy),
      Real.sqrt_one, div_one, div_one, div_one]
    refine ⟨?_, ?_, ?_⟩
    · exact hqx.trans (by norm_num)
    · exact hqy.trans (by norm_num)
    · simp only
      rw [hzs]
      have hd : |(1 - fx * fx - fy * fy) - (1 - x * x - y * y)| ≤ ((1 : ℝ) / 5) ^ 2 := by
        rw [abs_le]
        constructor <;> norm_num <;> linarith
      exact abs_sqrt_sub_sqrt_le (1 - fx * fx - fy * fy) (1 - x * x - y * y) (1 / 5)
        (by linarith) hb (by norm_num) hd
  · -- the decoded planar part leaves the unit disc: z is clamped to 0 and (fx, fy) rescaled
    rw [max_eq_right hs.le, max_eq_left (by linarith : 1 - fx * fx - fy * fy ≤ (0 : ℝ)),
      Real.sqrt_zero, zero_div]
    have hnn : Real.sqrt (fx * fx + fy * fy) * Real.sqrt (fx * fx + fy * fy) =
        fx * fx + fy * fy := Real.mul_self_sqrt (by linarith)
    have hn1 : 1 ≤ Real.sqrt (fx * fx + fy * fy) := Real.one_le_sqrt.mpr hs.le
    have hnle : Real.sqrt (fx * fx + fy * fy) * Real.sqrt (fx * fx + fy * fy) ≤ 1 + 4 / 255 := by
      rw [hnn]
      linarith
    refine ⟨rescaled_component_bound _ _ _ hqx hfx hn1 hnle,
      rescaled_component_bound _ _ _ hqy hfy hn1 hnle, ?_⟩
    simp only
    rw [zero_sub, abs_neg, abs_of_pos hz]
    exact small_of_mul_self_le z hz (by linarith)

theorem encodeByte_one_div_510 : encodeByte ((1 : ℝ) / 510) = (128 : Fin 256) := by
  have hf : ⌊((1 : ℝ) / 510 + 1) / 2 * 255 + 1 / 2⌋ = 128 := by
    rw [Int.floor_eq_iff]
    constructor <;> norm_num
  apply Fin.ext
  show min (Int.toNat ⌊((1 : ℝ) / 510 + 1) / 2 * 255 + 1 / 2⌋) 255 = 128
  rw [hf]
  rfl

/-- C10 as stated fails: the unit normal `(1/510, 1/510, sqrt(1 - 2/510^2))` has `z > 0`;
both `x` and `y` are stored as the byte 128 (the unique nearest byte to `127.75`), which
decodes to `1/255`, so the decoded `x` is off by `1/510`, far more than `1e-5`. -/
theorem xy_roundtrip_counterexample :
    ((1 : ℝ) / 510) ^ 2 + ((1 : ℝ) / 510) ^ 2 + Real.sqrt (1 - 2 / 510 ^ 2) ^ 2 = 1 ∧
    0 < Real.sqrt (1 - 2 / 510 ^ 2) ∧
    encodeByte ((1 : ℝ) / 510) = (128 : Fin 256) ∧
    (∀ b : Fin 256, b ≠ 128 →
      |((1 : ℝ) / 510 + 1) / 2 * 255 - 128| < |((1 : ℝ) / 510 + 1) / 2 * 255 - (b.val : ℝ)|) ∧
    1 / 100000 <
      |(DecodeXY Real.sqrt (encodeByte ((1 : ℝ) / 510)) (encodeByte ((1 : ℝ) / 510))).1
        - 1 / 510| := by
  refine ⟨?_, ?_, encodeByte_one_div_510, ?_, ?_⟩
  · rw [Real.sq_sqrt (by norm_num)]
    norm_num
  · exact Real.sqrt_pos.mpr (by norm_num)
  · intro b hb
    have hb' : b.val ≠ 128 := fun h => hb (Fin.ext h)
    have e : ((1 : ℝ) / 510 + 1) / 2 * 255 = 511 / 4 := by norm_num
    rw [e]
    rcases Nat.lt_or_ge b.val 128 with h | h
    · have h1 : (b.val : ℝ) ≤ 127 := by
        have : b.val ≤ 127 := by omega
        exact_mod_cast this
      rw [abs_of_neg (by norm_num), abs_of_pos (by linarith)]
      linarith
    · have h1 : (129 : ℝ) ≤ (b.val : ℝ) := by
        have : 129 ≤ b.val := by omega
        exact_mod_cast this
      rw [abs_of_neg (by norm_num), abs_of_neg (by linarith)]
      linarith
  · rw [encodeByte_one_div_510, DecodeXY_eq]
    have hv : (byteValue (128 : Fin 256) : ℝ) = 1 / 255 := by
      unfold byteValue
      have h128 : (128 : Fin 256).val = 128 := rfl
      rw [h128]
      norm_num
    simp only [hv]
    rw [max_eq_left (by norm_num), Real.sqrt_one, div_one]
    norm_num [abs_of_pos]

/-- C10, amended: for any unit-length normal `(x, y, z)` with `z > 0`, encoding `x` and `y`
as bytes and applying `DecodeXY` yields a vector within `1/50` of `x` and of `y` and
within `1/5` of `z` (the 8-bit quantisation error, not `1e-5`); the round trip is exact
when `x` and `y` are themselves byte values `b / 255 * 2 - 1`. -/
theorem xy_roundtrip (x y z : ℝ) (hunit : x ^ 2 + y ^ 2 + z ^ 2 = 1) (hz : 0 < z) :
    (|(DecodeXY Real.sqrt (encodeByte x) (encodeByte y)).1 - x| ≤ 1 / 50 ∧
      |(DecodeXY Real.sqrt (encodeByte x) (encodeByte y)).2.1 - y| ≤ 1 / 50 ∧
      |(DecodeXY Real.sqrt (encodeByte x) (encodeByte y)).2.2 - z| ≤ 1 / 5) ∧
    (∀ bx by_ : Fin 256, x = byteValue bx → y = byteValue by_ →
      DecodeXY Real.sqrt (encodeByte x) (encodeByte y) = (x, y, z)) := by
  refine ⟨roundtrip_bound x y z hunit hz, ?_⟩
  intro bx by_ hx hy
  have hzz : 1 - x * x - y * y = z * z := by linear_combination -hunit
  rw [hx, hy, encodeByte_byteValue, encodeByte_byteValue, DecodeXY_eq, ← hx, ← hy]
  have hle : x * x + y * y ≤ 1 := by nlinarith [mul_self_nonneg z]
  rw [max_eq_left hle, max_eq_right (by linarith), Real.sqrt_one, div_one, div_one, div_one,
    hzz, Real.sqrt_mul_self hz.le]

/-- The round trip at the unit normal `(3/5, 0, 4/5)`. -/
theorem xy_roundtrip_witness :
    ((3 : ℝ) / 5) ^ 2 + (0 : ℝ) ^ 2 + ((4 : ℝ) / 5) ^ 2 = 1 ∧ (0 : ℝ) < 4 / 5 ∧
    |(DecodeXY Real.sqrt (encodeByte ((3 : ℝ) / 5)) (encodeByte (0 : ℝ))).1 - 3 / 5| ≤ 1 / 50 ∧
    |(DecodeXY Real.sqrt (encodeByte ((3 : ℝ) / 5)) (encodeByte (0 : ℝ))).2.1 - 0| ≤ 1 / 50 ∧
    |(DecodeXY Real.sqrt (encodeByte ((3 : ℝ) / 5)) (encodeByte (0 : ℝ))).2.2 - 4 / 5| ≤ 1 / 5 :=
  have hunit : ((3 : ℝ) / 5) ^ 2 + (0 : ℝ) ^ 2 + ((4 : ℝ) / 5) ^ 2 = 1 := by norm_num
  have hz : (0 : ℝ) < 4 / 5 := by norm_num
  ⟨hunit, hz, (xy_roundtrip (3 / 5) 0 (4 / 5) hunit hz).1⟩

/-! ## The matrix assembled by `SolvePoisson` -/

theorem idx_natCast (N y x : Nat) : (idx N y x).toNat = y * N + x := by
  unfold idx
  have : ((y : Int) * N + x) = ((y * N + x : Nat) : Int) := by push_cast; ring
  rw [this, Int.toNat_natCast]

theorem add_up {α : Type} [Field α] (N : Nat) (i : Int) (st : List (Triplet α) × α)
    (y x : Nat) (hx : x < N) (hy : y < N) :
    add N i st ((y : Int) - 1) x =
      if 1 ≤ y then (st.1 ++ [⟨i.toNat, (y - 1) * N + x, -1⟩], st.2 + 1) else st := by
  unfold add
  by_cases h : 1 ≤ y
  · have e : ((y : Int) - 1) = ((y - 1 : Nat) : Int) := by omega
    rw [if_pos (by omega), if_pos h, e, idx_natCast]
  · rw [if_neg (by omega), if_neg h]

theorem add_down {α : Type} [Field α] (N : Nat) (i : Int) (st : List (Triplet α) × α)
    (y x : Nat) (hx : x < N) :
    add N i st ((y : Int) + 1) x =
      if y + 1 < N then (st.1 ++ [⟨i.toNat, (y + 1) * N + x, -1⟩], st.2 + 1) else st := by
  unfold add
  by_cases h : y + 1 < N
  · have e : ((y : Int) + 1) = ((y + 1 : Nat) : Int) := by omega
    rw [if_pos (by omega), if_pos h, e, idx_natCast]
  · rw [if_neg (by omega), if_neg h]

theorem add_left {α : Type} [Field α] (N : Nat) (i : Int) (st : List (Triplet α) × α)
    (y x : Nat) (hx : x < N) (hy : y < N) :
    add N i st y ((x : Int) - 1) =
      if 1 ≤ x then (st.1 ++ [⟨i.toNat, y * N + (x - 1), -1⟩], st.2 + 1) else st := by
  unfold add
  by_cases h : 1 ≤ x
  · have e : ((x : Int) - 1) = ((x - 1 : Nat) : Int) := by omega
    rw [if_pos (by omega), if_pos h, e, idx_natCast]
  · rw [if_neg (by omega), if_neg h]

theorem add_right {α : Type} [Field α] (N : Nat) (i : Int) (st : List (Triplet α) × α)
    (y x : Nat) (hy : y < N) :
    add N i st y ((x : Int) + 1) =
      if x + 1 < N then (st.1 ++ [⟨i.toNat, y * N + (x + 1), -1⟩], st.2 + 1) else st := by
  unfold add
  by_cases h : x + 1 < N
  · have e : ((x : Int) + 1) = ((x + 1 : Nat) : Int) := by omega
    rw [if_pos (by omega), if_pos h, e, idx_natCast]
  · rw [if_neg (by omega), if_neg h]

theorem rowSum_append {α : Type} [Field α] (l₁ l₂ : List (Triplet α)) (i : Nat) (v : Nat → α) :
    rowSum (l₁ ++ l₂) i v = rowSum l₁ i v + rowSum l₂ i v := by
  simp [rowSum, List.map_append, List.sum_append]

theorem rowSum_nil {α : Type} [Field α] (i : Nat) (v : Nat → α) :
    rowSum ([] : List (Triplet α)) i v = 0 := rfl

theorem rowSum_singleton {α : Type} [Field α] (t : Triplet α) (i : Nat) (v : Nat → α) :
    rowSum [t] i v = if t.row = i then t.value * v t.col else 0 := by
  simp [rowSum]

/-- The triplets emplaced for cell `(y, x)` contribute the stencil to row `y * N + x` and
nothing to the other rows; they are appended to what was there. -/
theorem rowSum_cellBody {α : Type} [Field α] (N y x : Nat) (hy : y < N) (hx : x < N)
    (ts : List (Triplet α)) (i : Nat) (v : Nat → α) :
    rowSum (cellBody N y x ts) i v =
      rowSum ts i v + if y * N + x = i then stencil N v y x else 0 := by
  unfold cellBody
  simp only [add_up N _ _ y x hx hy, add_down N _ _ y x hx, add_left N _ _ y x hx hy,
    add_right N _ _ y x hy, idx_natCast]
  by_cases hi : y * N + x = i
  · simp only [hi, if_true, stencil]
    split_ifs <;>
      simp only [rowSum_append, rowSum_singleton, if_true, rowSum_nil] <;> ring
  · simp only [hi, if_false, add_zero]
    split_ifs <;>
      simp only [rowSum_append, rowSum_singleton, hi, if_false, add_zero]

theorem idx_unique (N y x y' x' : Nat) (hx : x < N) (hx' : x' < N)
    (h : y' * N + x' = y * N + x) : y' = y ∧ x' = x := by
  have hN : 0 < N := by omega
  have h1 : (y' * N + x') % N = x' := by
    rw [Nat.add_comm, Nat.add_mul_mod_self_right, Nat.mod_eq_of_lt hx']
  have h2 : (y * N + x) % N = x := by
    rw [Nat.add_comm, Nat.add_mul_mod_self_right, Nat.mod_eq_of_lt hx]
  have hxx : x' = x := by rw [← h1, ← h2, h]
  subst hxx
  have : y' * N = y * N := by omega
  exact ⟨Nat.eq_of_mul_eq_mul_right hN this, rfl⟩

theorem cell_lt (N y x : Nat) (hy : y < N) (hx : x < N) : y * N + x < N * N := by
  have : (y + 1) * N ≤ N * N := Nat.mul_le_mul_right N hy
  have : (y + 1) * N = y * N + N := by ring
  omega

/-- The inner loop over `x` for a fixed row `y`. -/
theorem rowSum_inner {α : Type} [Field α] (N y : Nat) (hy : y < N) (n : Nat) (hn : n ≤ N)
    (ts : List (Triplet α)) (i : Nat) (v : Nat → α) :
    rowSum ((List.range n).foldl (fun t x => cellBody N y x t) ts) i v =
      rowSum ts i v +
        ∑ x in Finset.range n, if y * N + x = i then stencil N v y x else 0 := by
  induction n with
  | zero => simp
  | succ n ih =>
    rw [List.range_succ, List.foldl_append, List.foldl_cons, List.foldl_nil,
      rowSum_cellBody N y n hy (by omega), ih (by omega), Finset.sum_range_succ]
    ring

/-- The double loop. -/
theorem rowSum_outer {α : Type} [Field α] (N : Nat) (n : Nat) (hn : n ≤ N)
    (ts : List (Triplet α)) (i : Nat) (v : Nat → α) :
    rowSum ((List.range n).foldl
        (fun t y => (List.range N).foldl (fun t x => cellBody N y x t) t) ts) i v =
      rowSum ts i v +
        ∑ y in Finset.range n, ∑ x in Finset.range N,
          if y * N + x = i then stencil N v y x else 0 := by
  induction n with
  | zero => simp
  | succ n ih =>
    rw [List.range_succ, List.foldl_append, List.foldl_cons, List.foldl_nil,
      rowSum_inner N n (by omega) N le_rfl, ih (by omega), Finset.sum_range_succ]
    ring

/-- Row `y * N + x` of the assembled triplets: the stencil, plus the anchor in row 0. -/
theorem rowSum_assembleTriplets {α : Type} [Field α] (N y x : Nat) (hy : y < N) (hx : x < N)
    (v : Nat → α) :
    rowSum (assembleTriplets N : List (Triplet α)) (y * N + x) v =
      stencil N v y x + if y * N + x = 0 then v 0 else 0 := by
  unfold assembleTriplets
  rw [rowSum_append, rowSum_outer N N le_rfl, rowSum_nil, zero_add, rowSum_singleton]
  congr 1
  · rw [Finset.sum_eq_single y]
    · rw [Finset.sum_eq_single x]
      · simp
      · intro x' hx' hne
        rw [if_neg]
        intro h
        exact hne (idx_unique N y x y x' hx (Finset.mem_range.mp hx') h).2
      · intro h
        exact absurd (Finset.mem_range.mpr hx) h
    · intro y' _ hne
      apply Finset.sum_eq_zero
      intro x' hx'
      rw [if_neg]
      intro h
      exact hne (idx_unique N y x y' x' hx (Finset.mem_range.mp hx') h).1
    · intro h
      exact absurd (Finset.mem_range.mpr hy) h
  · simp only [one_mul]
    by_cases h0 : y * N + x = 0
    · simp [h0]
    · rw [if_neg h0, if_neg (fun h => h0 h.symm)]

/-- The product with the matrix built from a triplet list whose columns are in range. -/
theorem matVec_setFromTriplets {α : Type} [Field α] (ts : List (Triplet α)) (M : Nat)
    (hcol : ∀ t ∈ ts, t.col < M) (v : Nat → α) (i : Nat) :
    matVec (setFromTriplets ts) M v i = rowSum ts i v := by
  unfold matVec
  induction ts with
  | nil => simp [setFromTriplets, rowSum]
  | cons t ts ih =>
    have hc : t.col < M := hcol t (List.mem_cons_self _ _)
    have e : ∀ j, setFromTriplets (t :: ts) i j =
        (if t.row = i ∧ t.col = j then t.value else 0) + setFromTriplets ts i j := by
      intro j
      simp [setFromTriplets]
    simp only [e, add_mul, Finset.sum_add_distrib]
    rw [ih (fun t' ht' => hcol t' (List.mem_cons_of_mem _ ht'))]
    have : rowSum (t :: ts) i v =
        (if t.row = i then t.value * v t.col else 0) + rowSum ts i v := by
      simp [rowSum]
    rw [this]
    congr 1
    by_cases hr : t.row = i
    · simp only [hr, true_and, if_true]
      rw [Finset.sum_eq_single t.col]
      · simp
      · intro j _ hne
        rw [if_neg (fun h => hne h.symm), zero_mul]
      · intro h
        exact absurd (Finset.mem_range.mpr hc) h
    · simp [hr]

theorem col_lt_cellBody {α : Type} [Field α] (N y x : Nat) (hy : y < N) (hx : x < N)
    (ts : List (Triplet α)) (h : ∀ t ∈ ts, t.col < N * N) :
    ∀ t ∈ cellBody N y x ts, t.col < N * N := by
  unfold cellBody
  simp only [add_up N _ _ y x hx hy, add_down N _ _ y x hx, add_left N _ _ y x hx hy,
    add_right N _ _ y x hy, idx_natCast]
  split_ifs <;>
    simp only [List.forall_mem_append, List.forall_mem_singleton] <;>
    repeat' apply And.intro
  all_goals first
    | exact h
    | exact cell_lt _ _ _ (by omega) (by omega)

theorem col_lt_inner {α : Type} [Field α] (N y : Nat) (hy : y < N) (n : Nat) (hn : n ≤ N)
    (ts : List (Triplet α)) (h : ∀ t ∈ ts, t.col < N * N) :
    ∀ t ∈ (List.range n).foldl (fun t x => cellBody N y x t) ts, t.col < N * N := by
  induction n with
  | zero => simpa using h
  | succ n ih =>
    rw [List.range_succ, List.foldl_append, List.foldl_cons, List.foldl_nil]
    exact col_lt_cellBody N y n hy (by omega) _ (ih (by omega))

theorem col_lt_outer {α : Type} [Field α] (N : Nat) (n : Nat) (hn : n ≤ N)
    (ts : List (Triplet α)) (h : ∀ t ∈ ts, t.col < N * N) :
    ∀ t ∈ (List.range n).foldl
        (fun t y => (List.range N).foldl (fun t x => cellBody N y x t) t) ts,
      t.col < N * N := by
  induction n with
  | zero => simpa using h
  | succ n ih =>
    rw [List.range_succ, List.foldl_append, List.foldl_cons, List.foldl_nil]
    exact col_lt_inner N n (by omega) N le_rfl _ (ih (by omega))

theorem col_lt_assembleTriplets {α : Type} [Field α] (N : Nat) (hN : 0 < N) :
    ∀ t ∈ (assembleTriplets N : List (Triplet α)), t.col < N * N := by
  unfold assembleTriplets
  rw [List.forall_mem_append]
  refine ⟨col_lt_outer N N le_rfl [] (by simp), ?_⟩
  simp only [List.forall_mem_singleton]
  exact Nat.mul_pos hN hN

/-- Row `y * N + x` of `A v`: the 5-point stencil, plus `v[0]` in row 0 (the anchor). -/
theorem matVec_poissonMatrix {α : Type} [Field α] (N y x : Nat) (hy : y < N) (hx : x < N)
    (v : Nat → α) :
    matVec (poissonMatrix N) (N * N) v (y * N + x) =
      stencil N v y x + if y * N + x = 0 then v 0 else 0 := by
  have hN : 0 < N := by omega
  show matVec (setFromTriplets (assembleTriplets N)) (N * N) v (y * N + x) = _
  rw [matVec_setFromTriplets _ _ (col_lt_assembleTriplets N hN), rowSum_assembleTriplets N y x hy hx]

/-! ### The right-hand side vector -/

theorem rhs_inner_miss {α : Type} (N y : Nat) (b : Nat → Nat → α) (n : Nat) (bv : Nat → α)
    (j : Nat) (hj : ∀ x, x < n → y * N + x ≠ j) :
    ((List.range n).foldl
      (fun bv (x : Nat) => Function.update bv (idx N y x).toNat (b y x)) bv) j = bv j := by
  induction n with
  | zero => rfl
  | succ n ih =>
    rw [List.range_succ, List.foldl_append, List.foldl_cons, List.foldl_nil, idx_natCast,
      Function.update_noteq (fun h => hj n (by omega) h.symm)]
    exact ih (fun x hx => hj x (by omega))

theorem rhs_inner_hit {α : Type} (N y : Nat) (b : Nat → Nat → α) (n : Nat) (hn : n ≤ N)
    (bv : Nat → α) (x0 : Nat) (hx0 : x0 < n) :
    ((List.range n).foldl
      (fun bv (x : Nat) => Function.update bv (idx N y x).toNat (b y x)) bv) (y * N + x0) =
      b y x0 := by
  induction n with
  | zero => omega
  | succ n ih =>
    rw [List.range_succ, List.foldl_append, List.foldl_cons, List.foldl_nil, idx_natCast]
    by_cases h : x0 = n
    · subst h
      rw [Function.update_same]
    · rw [Function.update_noteq (by omega)]
      exact ih (by omega) (by omega)

theorem rhs_outer_hit {α : Type} (N : Nat) (b : Nat → Nat → α) (n : Nat) (bv : Nat → α)
    (y0 x0 : Nat) (hy0 : y0 < n) (hx0 : x0 < N) :
    ((List.range n).foldl
      (fun bv (y : Nat) => (List.range N).foldl
        (fun bv (x : Nat) => Function.update bv (idx N y x).toNat (b y x)) bv) bv)
      (y0 * N + x0) = b y0 x0 := by
  induction n with
  | zero => omega
  | succ n ih =>
    rw [List.range_succ, List.foldl_append, List.foldl_cons, List.foldl_nil]
    by_cases h : y0 = n
    · subst h
      exact rhs_inner_hit N y0 b N le_rfl _ x0 hx0
    · rw [rhs_inner_miss N n b N _ (y0 * N + x0)
        (fun x hx hc => h (idx_unique N y0 x0 n x hx0 hx hc).1.symm)]
      exact ih (by omega)

/-- The entries of `bvec`: `b(y, x)` at `y * N + x`, except the zeroed entry 0. -/
theorem poissonRhs_cell {α : Type} [Field α] (N : Nat) (b : Nat → Nat → α) (y x : Nat)
    (hy : y < N) (hx : x < N) :
    poissonRhs N b (y * N + x) = if y * N + x = 0 then 0 else b y x := by
  unfold poissonRhs
  by_cases h0 : y * N + x = 0
  · rw [if_pos h0, h0, Function.update_same]
  · rw [if_neg h0, Function.update_noteq h0]
    exact rhs_outer_hit N b N _ y x hy hx

/-! ### The energy of the stencil -/

theorem energy_line {α : Type} [Field α] (f : Nat → α) (n : Nat) :
    ∑ k in Finset.range (n + 1),
        f k * ((if 1 ≤ k then f k - f (k - 1) else 0) +
          (if k + 1 < n + 1 then f k - f (k + 1) else 0)) =
      ∑ k in Finset.range n, (f k - f (k + 1)) * (f k - f (k + 1)) := by
  induction n with
  | zero => simp
  | succ n ih =>
    conv_rhs => rw [Finset.sum_range_succ, ← ih, Finset.sum_range_succ]
    conv_lhs => rw [Finset.sum_range_succ, Finset.sum_range_succ]
    have hc : ∀ k ∈ Finset.range n,
        f k * ((if 1 ≤ k then f k - f (k - 1) else 0) +
          (if k + 1 < n + 1 + 1 then f k - f (k + 1) else 0)) =
        f k * ((if 1 ≤ k then f k - f (k - 1) else 0) +
          (if k + 1 < n + 1 then f k - f (k + 1) else 0)) := by
      intro k hk
      have hk' := Finset.mem_range.mp hk
      rw [if_pos (by omega : k + 1 < n + 1 + 1), if_pos (by omega : k + 1 < n + 1)]
    rw [Finset.sum_congr rfl hc]
    simp only [lt_self_iff_false, if_false, Nat.lt_succ_self, if_true, add_zero,
      Nat.add_sub_cancel, Nat.le_add_left, le_add_iff_nonneg_left, zero_le, if_true]
    ring

/-- Summing `v[i] * stencil(v)[i]` over the grid gives the squared differences along the
horizontal and the vertical edges. -/
theorem energy_grid {α : Type} [Field α] (n : Nat) (v : Nat → α) :
    ∑ y in Finset.range (n + 1), ∑ x in Finset.range (n + 1),
        v (y * (n + 1) + x) * stencil (n + 1) v y x =
      (∑ y in Finset.range (n + 1), ∑ x in Finset.range n,
        (v (y * (n + 1) + x) - v (y * (n + 1) + (x + 1))) *
          (v (y * (n + 1) + x) - v (y * (n + 1) + (x + 1)))) +
      ∑ x in Finset.range (n + 1), ∑ y in Finset.range n,
        (v (y * (n + 1) + x) - v ((y + 1) * (n + 1) + x)) *
          (v (y * (n + 1) + x) - v ((y + 1) * (n + 1) + x)) := by
  have hsplit : ∀ y x, v (y * (n + 1) + x) * stencil (n + 1) v y x =
      (fun x => v (y * (n + 1) + x)) x *
        ((if 1 ≤ x then (fun x => v (y * (n + 1) + x)) x - (fun x => v (y * (n + 1) + x)) (x - 1)
            else 0) +
          (if x + 1 < n + 1 then
            (fun x => v (y * (n + 1) + x)) x - (fun x => v (y * (n + 1) + x)) (x + 1) else 0)) +
      (fun y => v (y * (n + 1) + x)) y *
        ((if 1 ≤ y then (fun y => v (y * (n + 1) + x)) y - (fun y => v (y * (n + 1) + x)) (y - 1)
            else 0) +
          (if y + 1 < n + 1 then
            (fun y => v (y * (n + 1) + x)) y - (fun y => v (y * (n + 1) + x)) (y + 1) else 0)) := by
    intro y x
    simp only [stencil]
    ring
  simp only [hsplit, Finset.sum_add_distrib]
  congr 1
  · apply Finset.sum_congr rfl
    intro y _
    exact energy_line (fun x => v (y * (n + 1) + x)) n
  · rw [Finset.sum_comm]
    apply Finset.sum_congr rfl
    intro x _
    exact energy_line (fun y => v (y * (n + 1) + x)) n

/-- The assembled matrix has a trivial kernel: the stencil only kills constant fields and
the anchor pins the constant to 0. -/
theorem stencil_kernel {α : Type} [LinearOrderedField α] (N : Nat) (v : Nat → α)
    (h : ∀ y, y < N → ∀ x, x < N →
      stencil N v y x + (if y * N + x = 0 then v 0 else 0) = 0) :
    ∀ y, y < N → ∀ x, x < N → v (y * N + x) = 0 := by
  rcases N with _ | n
  · intro y hy
    omega
  have hsum : (∑ y in Finset.range (n + 1), ∑ x in Finset.range (n + 1),
        v (y * (n + 1) + x) * stencil (n + 1) v y x) +
      ∑ y in Finset.range (n + 1), ∑ x in Finset.range (n + 1),
        v (y * (n + 1) + x) * (if y * (n + 1) + x = 0 then v 0 else 0) = 0 := by
    rw [← Finset.sum_add_distrib]
    apply Finset.sum_eq_zero
    intro y hy
    rw [← Finset.sum_add_distrib]
    apply Finset.sum_eq_zero
    intro x hx
    rw [← mul_add, h y (Finset.mem_range.mp hy) x (Finset.mem_range.mp hx), mul_zero]
  have hanchor : ∑ y in Finset.range (n + 1), ∑ x in Finset.range (n + 1),
      v (y * (n + 1) + x) * (if y * (n + 1) + x = 0 then v 0 else 0) = v 0 * v 0 := by
    rw [Finset.sum_eq_single 0]
    · rw [Finset.sum_eq_single 0]
      · simp
      · intro x _ hx
        rw [if_neg (by omega), mul_zero]
      · intro h0
        exact absurd (Finset.mem_range.mpr (Nat.succ_pos n)) h0
    · intro y _ hy
      apply Finset.sum_eq_zero
      intro x _
      have : y * (n + 1) + x ≠ 0 := by
        have : 0 < y * (n + 1) := Nat.mul_pos (Nat.pos_of_ne_zero hy) (Nat.succ_pos n)
        omega
      rw [if_neg this, mul_zero]
    · intro h0
      exact absurd (Finset.mem_range.mpr (Nat.succ_pos n)) h0
  rw [hanchor, energy_grid] at hsum
  have hH : 0 ≤ ∑ y in Finset.range (n + 1), ∑ x in Finset.range n,
      (v (y * (n + 1) + x) - v (y * (n + 1) + (x + 1))) *
        (v (y * (n + 1) + x) - v (y * (n + 1) + (x + 1))) :=
    Finset.sum_nonneg (fun y _ => Finset.sum_nonneg (fun x _ => mul_self_nonneg _))
  have hV : 0 ≤ ∑ x in Finset.range (n + 1), ∑ y in Finset.range n,
      (v (y * (n + 1) + x) - v ((y + 1) * (n + 1) + x)) *
        (v (y * (n + 1) + x) - v ((y + 1) * (n + 1) + x)) :=
    Finset.sum_nonneg (fun x _ => Finset.sum_nonneg (fun y _ => mul_self_nonneg _))
  have h00 : 0 ≤ v 0 * v 0 := mul_self_nonneg _
  have hH0 : ∑ y in Finset.range (n + 1), ∑ x in Finset.range n,
      (v (y * (n + 1) + x) - v (y * (n + 1) + (x + 1))) *
        (v (y * (n + 1) + x) - v (y * (n + 1) + (x + 1))) = 0 := by linarith
  have hV0 : ∑ x in Finset.range (n + 1), ∑ y in Finset.range n,
      (v (y * (n + 1) + x) - v ((y + 1) * (n + 1) + x)) *
        (v (y * (n + 1) + x) - v ((y + 1) * (n + 1) + x)) = 0 := by linarith
  have hv0 : v 0 = 0 := by
    have : v 0 * v 0 = 0 := by linarith
    exact mul_self_eq_zero.mp this
  rw [Finset.sum_eq_zero_iff_of_nonneg
    (fun y _ => Finset.sum_nonneg (fun x _ => mul_self_nonneg _))] at hH0
  rw [Finset.sum_eq_zero_iff_of_nonneg
    (fun x _ => Finset.sum_nonneg (fun y _ => mul_self_nonneg _))] at hV0
  have hrow : ∀ y, y < n + 1 → ∀ x, x < n → v (y * (n + 1) + x) = v (y * (n + 1) + (x + 1)) := by
    intro y hy x hx
    have h1 := hH0 y (Finset.mem_range.mpr hy)
    rw [Finset.sum_eq_zero_iff_of_nonneg (fun x _ => mul_self_nonneg _)] at h1
    exact sub_eq_zero.mp (mul_self_eq_zero.mp (h1 x (Finset.mem_range.mpr hx)))
  have hcol : ∀ x, x < n + 1 → ∀ y, y < n → v (y * (n + 1) + x) = v ((y + 1) * (n + 1) + x) := by
    intro x hx y hy
    have h1 := hV0 x (Finset.mem_range.mpr hx)
    rw [Finset.sum_eq_zero_iff_of_nonneg (fun y _ => mul_self_nonneg _)] at h1
    exact sub_eq_zero.mp (mul_self_eq_zero.mp (h1 y (Finset.mem_range.mpr hy)))
  have hfirst : ∀ y, y < n + 1 → v (y * (n + 1) + 0) = 0 := by
    intro y
    induction y with
    | zero =>
      intro _
      simpa using hv0
    | succ y ih =>
      intro hy
      rw [← hcol 0 (Nat.succ_pos n) y (by omega)]
      exact ih (by omega)
  intro y hy x
  induction x with
  | zero =>
    intro _
    exact hfirst y hy
  | succ x ih =>
    intro hx
    rw [← hrow y hy x (by omega)]
    exact ih (by omega)

/-! ### Solutions of the assembled system -/

theorem stencil_sub {α : Type} [Field α] (N : Nat) (v w : Nat → α) (y x : Nat) :
    stencil N (fun i => v i - w i) y x = stencil N v y x - stencil N w y x := by
  simp only [stencil]
  split_ifs <;> ring

theorem cell_div (N y x : Nat) (hx : x < N) : (y * N + x) / N = y := by
  have hN : 0 < N := by omega
  rw [Nat.add_comm, Nat.add_mul_div_right _ _ hN, Nat.div_eq_of_lt hx, Nat.zero_add]

theorem cell_mod (N y x : Nat) (hx : x < N) : (y * N + x) % N = x := by
  rw [Nat.add_comm, Nat.add_mul_mod_self_right, Nat.mod_eq_of_lt hx]

/-- The system assembled by `SolvePoisson` has at most one solution (on the `N * N`
cells). -/
theorem poisson_solution_unique {α : Type} [LinearOrderedField α] (N : Nat)
    (b : Nat → Nat → α) (v w : Nat → α)
    (hv : IsPoissonSolution N b v) (hw : IsPoissonSolution N b w) :
    ∀ i, i < N * N → v i = w i := by
  have hker := stencil_kernel N (fun i => v i - w i) (by
    intro y hy x hx
    have h1 := hv (y * N + x) (cell_lt N y x hy hx)
    have h2 := hw (y * N + x) (cell_lt N y x hy hx)
    rw [matVec_poissonMatrix N y x hy hx] at h1 h2
    rw [stencil_sub]
    by_cases h0 : y * N + x = 0
    · simp only [h0, if_true] at h1 h2 ⊢
      linear_combination h1 - h2
    · simp only [h0, if_false, add_zero] at h1 h2 ⊢
      linear_combination h1 - h2)
  intro i hi
  have hN : 0 < N := by
    rcases Nat.eq_zero_or_pos N with h | h
    · subst h
      omega
    · exact h
  have hy : i / N < N := Nat.div_lt_of_lt_mul hi
  have hx : i % N < N := Nat.mod_lt _ hN
  have := hker (i / N) hy (i % N) hx
  rw [Nat.div_add_mod' i N] at this
  exact sub_eq_zero.mp this

theorem sample_eq {α : Type} (N : Nat) (h : Nat → Nat → α) (y x : Nat) (hy : y < N)
    (hx : x < N) :
    sample N h ((y : Int) - 1) x = h (y - 1) x ∧
    sample N h ((y : Int) + 1) x = h (if y + 1 < N then y + 1 else y) x ∧
    sample N h y ((x : Int) - 1) = h y (x - 1) ∧
    sample N h y ((x : Int) + 1) = h y (if x + 1 < N then x + 1 else x) := by
  unfold sample
  have e1 : (max 0 (min ((y : Int) - 1) ((N : Int) - 1))).toNat = y - 1 := by omega
  have e2 : (max 0 (min ((y : Int) + 1) ((N : Int) - 1))).toNat =
      if y + 1 < N then y + 1 else y := by
    split_ifs <;> omega
  have e3 : (max 0 (min ((x : Int) - 1) ((N : Int) - 1))).toNat = x - 1 := by omega
  have e4 : (max 0 (min ((x : Int) + 1) ((N : Int) - 1))).toNat =
      if x + 1 < N then x + 1 else x := by
    split_ifs <;> omega
  have e5 : (max 0 (min (y : Int) ((N : Int) - 1))).toNat = y := by omega
  have e6 : (max 0 (min (x : Int) ((N : Int) - 1))).toNat = x := by omega
  rw [e1, e2, e3, e4, e5, e6]
  exact ⟨rfl, rfl, rfl, rfl⟩

/-- The stencil of the negated field is the right-hand side the test builds. -/
theorem stencil_neg_height {α : Type} [Field α] (N : Nat) (h : Nat → Nat → α) (y x : Nat)
    (hy : y < N) (hx : x < N) :
    stencil N (fun i => -h (i / N) (i % N)) y x = testRhs N h y x := by
  obtain ⟨s1, s2, s3, s4⟩ := sample_eq N h y x hy hx
  unfold testRhs
  rw [s1, s2, s3, s4]
  simp only [stencil]
  have c0 : ∀ y' x', x' < N → (-h ((y' * N + x') / N) ((y' * N + x') % N)) = -h y' x' := by
    intro y' x' hx'
    rw [cell_div N y' x' hx', cell_mod N y' x' hx']
  rw [c0 y x hx]
  by_cases h1 : 1 ≤ y <;> by_cases h2 : y + 1 < N <;> by_cases h3 : 1 ≤ x <;>
    by_cases h4 : x + 1 < N <;>
    simp only [h1, h2, h3, h4, if_true, if_false] <;>
    (try rw [c0 (y - 1) x hx]) <;> (try rw [c0 (y + 1) x hx]) <;>
    (try rw [c0 y (x - 1) (by omega)]) <;> (try rw [c0 y (x + 1) h4]) <;>
    (try (have hy0 : y - 1 = y := by omega
          rw [hy0])) <;>
    (try (have hx0 : x - 1 = x := by omega
          rw [hx0])) <;>
    ring

/-- For a field with `h(0,0) = 0` whose test right-hand side vanishes at cell `(0,0)`, the
negated field `-h` solves the system that `SolvePoisson` assembles from the test's `b`. -/
theorem neg_height_solves {α : Type} [Field α] (N : Nat) (h : Nat → Nat → α)
    (h00 : h 0 0 = 0) (hr : testRhs N h 0 0 = 0) :
    IsPoissonSolution N (testRhs N h) (fun i => -h (i / N) (i % N)) := by
  intro i hi
  have hN : 0 < N := by
    rcases Nat.eq_zero_or_pos N with h | h
    · subst h
      omega
    · exact h
  have hy : i / N < N := Nat.div_lt_of_lt_mul hi
  have hx : i % N < N := Nat.mod_lt _ hN
  have hi' : i / N * N + i % N = i := Nat.div_add_mod' i N
  rw [← hi', matVec_poissonMatrix N _ _ hy hx, poissonRhs_cell N _ _ _ hy hx,
    stencil_neg_height N h _ _ hy hx]
  by_cases h0 : i / N * N + i % N = 0
  · have hy0 : i / N = 0 := by
      rcases Nat.eq_zero_or_pos (i / N) with h | h
      · exact h
      · have : 0 < i / N * N := Nat.mul_pos h hN
        omega
    have hx0 : i % N = 0 := by omega
    rw [if_pos h0, if_pos h0, hy0, hx0, hr]
    simp [h00]
  · rw [if_neg h0, if_neg h0, add_zero]

/-! ## C1: the Poisson reconstruction test -/

theorem testHeight_row_zero (y : Nat) : testHeight Real.sin Real.pi 8 y 0 = 0 := by
  simp [testHeight]

theorem testHeight_col_zero (x : Nat) : testHeight Real.sin Real.pi 8 0 x = 0 := by
  simp [testHeight]

theorem testHeight_centre : 36 / 49 ≤ testHeight Real.sin Real.pi 8 3 3 := by
  have hpi := Real.pi_pos
  have hs : (6 : ℝ) / 7 ≤ Real.sin (Real.pi * 3 / 7) := by
    have h := Real.mul_le_sin (x := Real.pi * 3 / 7) (by positivity) (by linarith)
    have e : 2 / Real.pi * (Real.pi * 3 / 7) = 6 / 7 := by
      field_simp
      ring
    linarith
  have e : testHeight Real.sin Real.pi 8 3 3 =
      Real.sin (Real.pi * 3 / 7) * Real.sin (Real.pi * 3 / 7) := by
    simp only [testHeight]
    norm_num
  rw [e]
  nlinarith

/-- C1, the code at the test's input: for the `N = 8` field `h = sin(pi x/7) sin(pi y/7)`
and the right-hand side the test builds from it, the system assembled by `SolvePoisson`
has exactly one solution, the negated field `-h`; its RMS distance to `h` is at least
`1/10`, so the `rms < 1e-3` expectation of the test cannot hold for the exact solution. -/
theorem poisson_test_solution_is_negated_height :
    IsPoissonSolution 8 (testRhs 8 (testHeight Real.sin Real.pi 8))
        (fun i => -testHeight Real.sin Real.pi 8 (i / 8) (i % 8)) ∧
      ∀ v : Nat → ℝ, IsPoissonSolution 8 (testRhs 8 (testHeight Real.sin Real.pi 8)) v →
        (∀ i, i < 64 → v i = -testHeight Real.sin Real.pi 8 (i / 8) (i % 8)) ∧
        1 / 10 ≤ Real.sqrt (testErr 8 v (testHeight Real.sin Real.pi 8) / (8 * 8)) := by
  have hr : testRhs 8 (testHeight Real.sin Real.pi 8) 0 0 = 0 := by
    obtain ⟨s1, s2, s3, s4⟩ :=
      sample_eq 8 (testHeight Real.sin Real.pi 8) 0 0 (by norm_num) (by norm_num)
    unfold testRhs
    rw [s1, s2, s3, s4]
    simp [testHeight_row_zero, testHeight_col_zero]
  have hsol := neg_height_solves 8 (testHeight Real.sin Real.pi 8) (testHeight_row_zero 0) hr
  refine ⟨hsol, fun v hv => ?_⟩
  have huniq := poisson_solution_unique 8 _ v _ hv hsol
  refine ⟨huniq, ?_⟩
  have hterm : ∀ y, y < 8 → ∀ x, x < 8 →
      (v (y * 8 + x) - testHeight Real.sin Real.pi 8 y x) *
        (v (y * 8 + x) - testHeight Real.sin Real.pi 8 y x) =
      4 * (testHeight Real.sin Real.pi 8 y x * testHeight Real.sin Real.pi 8 y x) := by
    intro y hy x hx
    rw [huniq (y * 8 + x) (by omega)]
    simp only [cell_div 8 y x hx, cell_mod 8 y x hx]
    ring
  have hc := testHeight_centre
  have hlow : 4 * ((36 : ℝ) / 49 * (36 / 49)) ≤ testErr 8 v (testHeight Real.sin Real.pi 8) := by
    unfold testErr
    have h3 : (3 : Nat) ∈ Finset.range 8 := by simp
    calc 4 * ((36 : ℝ) / 49 * (36 / 49))
        ≤ (v (3 * 8 + 3) - testHeight Real.sin Real.pi 8 3 3) *
            (v (3 * 8 + 3) - testHeight Real.sin Real.pi 8 3 3) := by
          rw [hterm 3 (by norm_num) 3 (by norm_num)]
          nlinarith
      _ ≤ ∑ x in Finset.range 8, (v (3 * 8 + x) - testHeight Real.sin Real.pi 8 3 x) *
            (v (3 * 8 + x) - testHeight Real.sin Real.pi 8 3 x) :=
          Finset.single_le_sum (f := fun x => (v (3 * 8 + x) -
            testHeight Real.sin Real.pi 8 3 x) * (v (3 * 8 + x) -
            testHeight Real.sin Real.pi 8 3 x)) (fun x _ => mul_self_nonneg _) h3
      _ ≤ _ :=
          Finset.single_le_sum (f := fun y => ∑ x in Finset.range 8,
            (v (y * 8 + x) - testHeight Real.sin Real.pi 8 y x) *
              (v (y * 8 + x) - testHeight Real.sin Real.pi 8 y x))
            (fun y _ => Finset.sum_nonneg (fun x _ => mul_self_nonneg _)) h3
  rw [Real.le_sqrt' (by norm_num)]
  have : (0 : ℝ) < 8 * 8 := by norm_num
  rw [le_div_iff₀ this]
  norm_num at hlow ⊢
  linarith

/-! ## The entries of the assembled matrix -/

theorem assembleTriplets_eq {α : Type} [Field α] (N : Nat) :
    (assembleTriplets N : List (Triplet α)) = stencilTriplets N ++ [⟨0, 0, 1⟩] := rfl

theorem setFromTriplets_eq_rowSum {α : Type} [Field α] (ts : List (Triplet α)) (i j : Nat) :
    setFromTriplets ts i j = rowSum ts i (fun c => if c = j then 1 else 0) := by
  unfold setFromTriplets rowSum
  congr 1
  apply List.map_congr_left
  intro t _
  by_cases h1 : t.row = i <;> by_cases h2 : t.col = j <;> simp [h1, h2]

/-- Row `y * N + x` of the stencil triplets applied to `v`. -/
theorem rowSum_stencilTriplets {α : Type} [Field α] (N y x : Nat) (hy : y < N) (hx : x < N)
    (v : Nat → α) :
    rowSum (stencilTriplets N : List (Triplet α)) (y * N + x) v = stencil N v y x := by
  have h := rowSum_assembleTriplets N y x hy hx v
  rw [assembleTriplets_eq, rowSum_append, rowSum_singleton] at h
  have e : (if (⟨0, 0, 1⟩ : Triplet α).row = y * N + x then
      (⟨0, 0, 1⟩ : Triplet α).value * v (⟨0, 0, 1⟩ : Triplet α).col else 0) =
      if y * N + x = 0 then v 0 else 0 := by
    simp only [one_mul]
    by_cases h0 : y * N + x = 0
    · simp [h0]
    · rw [if_neg h0, if_neg (fun h => h0 h.symm)]
  rw [e] at h
  exact add_right_cancel h

theorem cell_eq_iff (N a b y' x' : Nat) (hb : b < N) (hx' : x' < N) :
    a * N + b = y' * N + x' ↔ a = y' ∧ b = x' := by
  constructor
  · intro h
    exact idx_unique N y' x' a b hx' hb h
  · rintro ⟨rfl, rfl⟩
    rfl

theorem stencil_indicator_diag {α : Type} [Field α] (N y x : Nat) (hx : x < N) :
    stencil N (fun c => if c = y * N + x then (1 : α) else 0) y x = (neighbourCount N y x : α) := by
  have tu : (if 1 ≤ y then
      (fun c => if c = y * N + x then (1 : α) else 0) (y * N + x) -
        (fun c => if c = y * N + x then (1 : α) else 0) ((y - 1) * N + x) else 0) =
      if 1 ≤ y then 1 else 0 := by
    split_ifs with h
    · have hne : ¬ ((y - 1) * N + x = y * N + x) := by
        rw [cell_eq_iff N _ _ _ _ hx hx]
        omega
      simp [hne]
    · rfl
  have td : (if y + 1 < N then
      (fun c => if c = y * N + x then (1 : α) else 0) (y * N + x) -
        (fun c => if c = y * N + x then (1 : α) else 0) ((y + 1) * N + x) else 0) =
      if y + 1 < N then 1 else 0 := by
    split_ifs with h
    · have hne : ¬ ((y + 1) * N + x = y * N + x) := by
        rw [cell_eq_iff N _ _ _ _ hx hx]
        omega
      simp [hne]
    · rfl
  have tl : (if 1 ≤ x then
      (fun c => if c = y * N + x then (1 : α) else 0) (y * N + x) -
        (fun c => if c = y * N + x then (1 : α) else 0) (y * N + (x - 1)) else 0) =
      if 1 ≤ x then 1 else 0 := by
    split_ifs with h
    · have hne : ¬ (y * N + (x - 1) = y * N + x) := by omega
      simp [hne]
    · rfl
  have tr : (if x + 1 < N then
      (fun c => if c = y * N + x then (1 : α) else 0) (y * N + x) -
        (fun c => if c = y * N + x then (1 : α) else 0) (y * N + (x + 1)) else 0) =
      if x + 1 < N then 1 else 0 := by
    split_ifs with h
    · simp
    · rfl
  unfold stencil neighbourCount
  rw [tu, td, tl, tr]
  push_cast
  rfl

theorem stencil_indicator_off_diag {α : Type} [Field α] (N y x y' x' : Nat) (hy : y < N)
    (hx : x < N) (hy' : y' < N) (hx' : x' < N) (hne : ¬ (y' = y ∧ x' = x)) :
    stencil N (fun c => if c = y' * N + x' then (1 : α) else 0) y x =
      if isNeighbour y x y' x' then -1 else 0 := by
  have h0 : (fun c => if c = y' * N + x' then (1 : α) else 0) (y * N + x) = 0 := by
    have : ¬ (y * N + x = y' * N + x') := by
      rw [cell_eq_iff N _ _ _ _ hx hx']
      omega
    simp [this]
  have tu : (if 1 ≤ y then
      (fun c => if c = y' * N + x' then (1 : α) else 0) (y * N + x) -
        (fun c => if c = y' * N + x' then (1 : α) else 0) ((y - 1) * N + x) else 0) =
      -(if x' = x ∧ y' + 1 = y then 1 else 0) := by
    rw [h0]
    simp only [cell_eq_iff N (y - 1) x y' x' hx hx']
    split_ifs <;> first
      | (exfalso; omega)
      | norm_num
  have td : (if y + 1 < N then
      (fun c => if c = y' * N + x' then (1 : α) else 0) (y * N + x) -
        (fun c => if c = y' * N + x' then (1 : α) else 0) ((y + 1) * N + x) else 0) =
      -(if x' = x ∧ y' = y + 1 then 1 else 0) := by
    rw [h0]
    simp only [cell_eq_iff N (y + 1) x y' x' hx hx']
    split_ifs <;> first
      | (exfalso; omega)
      | norm_num
  have tl : (if 1 ≤ x then
      (fun c => if c = y' * N + x' then (1 : α) else 0) (y * N + x) -
        (fun c => if c = y' * N + x' then (1 : α) else 0) (y * N + (x - 1)) else 0) =
      -(if y' = y ∧ x' + 1 = x then 1 else 0) := by
    rw [h0]
    simp only [cell_eq_iff N y (x - 1) y' x' (by omega) hx']
    split_ifs <;> first
      | (exfalso; omega)
      | norm_num
  have tr : (if x + 1 < N then
      (fun c => if c = y' * N + x' then (1 : α) else 0) (y * N + x) -
        (fun c => if c = y' * N + x' then (1 : α) else 0) (y * N + (x + 1)) else 0) =
      -(if y' = y ∧ x' = x + 1 then 1 else 0) := by
    rw [h0]
    by_cases h4 : x + 1 < N
    · simp only [h4, if_true, cell_eq_iff N y (x + 1) y' x' h4 hx']
      split_ifs <;> first
        | (exfalso; omega)
        | norm_num
    · rw [if_neg h4, if_neg (by omega)]
      norm_num
  have hN : (if isNeighbour y x y' x' then (-1 : α) else 0) =
      if (x' = x ∧ (y' + 1 = y ∨ y' = y + 1)) ∨ (y' = y ∧ (x' + 1 = x ∨ x' = x + 1)) then -1
      else 0 := by
    unfold isNeighbour
    rfl
  unfold stencil
  rw [tu, td, tl, tr, hN]
  split_ifs <;> first
    | (exfalso; omega)
    | norm_num

/-- The entries of the stencil matrix: the neighbour count on the diagonal, `-1` at the
in-grid 4-neighbours, `0` elsewhere. -/
theorem stencilMatrix_entry {α : Type} [Field α] (N y x y' x' : Nat) (hy : y < N) (hx : x < N)
    (hy' : y' < N) (hx' : x' < N) :
    (stencilMatrix N (y * N + x) (y' * N + x') : α) =
      if y' = y ∧ x' = x then (neighbourCount N y x : α)
      else if isNeighbour y x y' x' then -1 else 0 := by
  unfold stencilMatrix
  rw [setFromTriplets_eq_rowSum, rowSum_stencilTriplets N y x hy hx]
  by_cases hd : y' = y ∧ x' = x
  · obtain ⟨rfl, rfl⟩ := hd
    rw [if_pos ⟨rfl, rfl⟩]
    exact stencil_indicator_diag N y' x' hx
  · rw [if_neg hd]
    exact stencil_indicator_off_diag N y x y' x' hy hx hy' hx' hd

theorem col_lt_stencilTriplets {α : Type} [Field α] (N : Nat) :
    ∀ t ∈ (stencilTriplets N : List (Triplet α)), t.col < N * N := by
  unfold stencilTriplets
  exact col_lt_outer N N le_rfl [] (by simp)

/-- Row `y * N + x` of the product of the stencil matrix with `v`. -/
theorem matVec_stencilMatrix {α : Type} [Field α] (N y x : Nat) (hy : y < N) (hx : x < N)
    (v : Nat → α) :
    matVec (stencilMatrix N) (N * N) v (y * N + x) = stencil N v y x := by
  show matVec (setFromTriplets (stencilTriplets N)) (N * N) v (y * N + x) = _
  rw [matVec_setFromTriplets _ _ (col_lt_stencilTriplets N), rowSum_stencilTriplets N y x hy hx]

theorem stencil_const {α : Type} [Field α] (N y x : Nat) (c : α) :
    stencil N (fun _ => c) y x = 0 := by
  simp [stencil]

theorem isNeighbour_symm (y x y' x' : Nat) : isNeighbour y x y' x' ↔ isNeighbour y' x' y x := by
  unfold isNeighbour
  omega

theorem stencilMatrix_symm {α : Type} [Field α] (N y x y' x' : Nat) (hy : y < N) (hx : x < N)
    (hy' : y' < N) (hx' : x' < N) :
    (stencilMatrix N (y * N + x) (y' * N + x') : α) =
      stencilMatrix N (y' * N + x') (y * N + x) := by
  rw [stencilMatrix_entry N y x y' x' hy hx hy' hx',
    stencilMatrix_entry N y' x' y x hy' hx' hy hx]
  by_cases hd : y' = y ∧ x' = x
  · have hd' : y = y' ∧ x = x' := ⟨hd.1.symm, hd.2.symm⟩
    rw [if_pos hd, if_pos hd', hd.1, hd.2]
  · have hd' : ¬ (y = y' ∧ x = x') := fun h => hd ⟨h.1.symm, h.2.symm⟩
    rw [if_neg hd, if_neg hd']
    by_cases hn : isNeighbour y x y' x'
    · have hn' : isNeighbour y' x' y x := (isNeighbour_symm _ _ _ _).mp hn
      rw [if_pos hn, if_pos hn']
    · have hn' : ¬ isNeighbour y' x' y x := fun h => hn ((isNeighbour_symm _ _ _ _).mpr h)
      rw [if_neg hn, if_neg hn']

/-! ## C15: the 5-point stencil -/

/-- C15 as stated fails for `N = 1`: the single cell `(0, 0)` is a corner of the grid, but
it has no in-grid neighbour and its diagonal entry is `0`, not `2`. -/
theorem stencil_structure_counterexample :
    onBorder 1 0 ∧ neighbourCount 1 0 0 = 0 ∧
      (stencilMatrix 1 (0 * 1 + 0) (0 * 1 + 0) : ℚ) = 0 ∧
      (stencilMatrix 1 (0 * 1 + 0) (0 * 1 + 0) : ℚ) ≠ 2 := by
  have h := stencilMatrix_entry (α := ℚ) 1 0 0 0 0 (by norm_num) (by norm_num) (by norm_num)
    (by norm_num)
  have hc : neighbourCount 1 0 0 = 0 := by decide
  rw [if_pos ⟨rfl, rfl⟩, hc, Nat.cast_zero] at h
  refine ⟨Or.inl rfl, hc, h, ?_⟩
  rw [h]
  norm_num

/-- C15, amended: before the anchor entry is added, for every `N >= 1` and every cell
`i = y * N + x` of the grid, the off-diagonal entry of row `i` is `-1` exactly at the
in-grid 4-neighbours of `i` and `0` elsewhere, and the diagonal equals the number of
in-grid neighbours (for `N >= 2`: 4 for interior cells, 3 on edges, 2 at corners; the
single cell of the `1 x 1` grid has none); the matrix is symmetric, every row sums to
zero, and constant fields are in its null space. -/
theorem stencil_structure {α : Type} [Field α] (N y x y' x' : Nat) (hy : y < N) (hx : x < N)
    (hy' : y' < N) (hx' : x' < N) :
    ((stencilMatrix N (y * N + x) (y' * N + x') : α) =
      if y' = y ∧ x' = x then (neighbourCount N y x : α)
      else if isNeighbour y x y' x' then -1 else 0) ∧
    (2 ≤ N →
      (¬ onBorder N y ∧ ¬ onBorder N x → neighbourCount N y x = 4) ∧
      ((onBorder N y ∧ ¬ onBorder N x) ∨ (¬ onBorder N y ∧ onBorder N x) →
        neighbourCount N y x = 3) ∧
      (onBorder N y ∧ onBorder N x → neighbourCount N y x = 2)) ∧
    (N = 1 → neighbourCount N y x = 0) ∧
    (stencilMatrix N (y * N + x) (y' * N + x') : α) =
      stencilMatrix N (y' * N + x') (y * N + x) ∧
    ∑ j in Finset.range (N * N), (stencilMatrix N (y * N + x) j : α) = 0 ∧
    ∀ c : α, matVec (stencilMatrix N) (N * N) (fun _ => c) (y * N + x) = 0 := by
  refine ⟨stencilMatrix_entry N y x y' x' hy hx hy' hx', ?_, ?_,
    stencilMatrix_symm N y x y' x' hy hx hy' hx', ?_, ?_⟩
  · intro hN
    unfold onBorder neighbourCount
    refine ⟨?_, ?_, ?_⟩ <;> intro h <;> split_ifs <;> omega
  · intro hN
    unfold neighbourCount
    split_ifs <;> omega
  · have h := matVec_stencilMatrix N y x hy hx (fun _ => (1 : α))
    rw [stencil_const] at h
    simpa [matVec] using h
  · intro c
    rw [matVec_stencilMatrix N y x hy hx, stencil_const]

/-- The centre row of the `3 x 3` stencil: `4` on the diagonal, `-1` at the cell above. -/
theorem stencil_structure_witness :
    (1 : Nat) < 3 ∧ (0 : Nat) < 3 ∧
    (stencilMatrix 3 (1 * 3 + 1) (1 * 3 + 1) : ℚ) = 4 ∧
    (stencilMatrix 3 (1 * 3 + 1) (0 * 3 + 1) : ℚ) = -1 ∧
    ∑ j in Finset.range (3 * 3), (stencilMatrix 3 (1 * 3 + 1) j : ℚ) = 0 := by
  have h1 := (stencil_structure (α := ℚ) 3 1 1 1 1 (by norm_num) (by norm_num) (by norm_num)
    (by norm_num)).1
  have h2 := stencil_structure (α := ℚ) 3 1 1 0 1 (by norm_num) (by norm_num) (by norm_num)
    (by norm_num)
  have hc : neighbourCount 3 1 1 = 4 := by decide
  rw [if_pos ⟨rfl, rfl⟩, hc] at h1
  have hn : isNeighbour 1 1 0 1 := by decide
  have h3 := h2.1
  rw [if_neg (by decide), if_pos hn] at h3
  exact ⟨by norm_num, by norm_num, by exact_mod_cast h1, h3, h2.2.2.2.2.1⟩

/-! ## The anchor and the sums over the grid -/

/-- The final matrix is the stencil matrix with 1 added at `(0, 0)`. -/
theorem poissonMatrix_eq {α : Type} [Field α] (N i j : Nat) :
    (poissonMatrix N i j : α) = stencilMatrix N i j + if i = 0 ∧ j = 0 then 1 else 0 := by
  unfold poissonMatrix stencilMatrix
  rw [assembleTriplets_eq]
  unfold setFromTriplets
  rw [List.map_append, List.sum_append]
  congr 1
  by_cases h : i = 0 ∧ j = 0
  · obtain ⟨rfl, rfl⟩ := h
    simp
  · rw [if_neg h]
    have h' : ¬ (0 = i ∧ 0 = j) := fun hh => h ⟨hh.1.symm, hh.2.symm⟩
    simp [h']

/-- A sum over the `N * N` flattened indices is the double sum over rows and columns. -/
theorem sum_cells {α : Type} [Field α] (N : Nat) (F : Nat → α) (n : Nat) :
    ∑ i in Finset.range (n * N), F i =
      ∑ y in Finset.range n, ∑ x in Finset.range N, F (y * N + x) := by
  induction n with
  | zero => simp
  | succ n ih =>
    rw [Finset.sum_range_succ, ← ih, Nat.succ_mul, Finset.sum_range_add]

theorem bilinear_line {α : Type} [Field α] (g f : Nat → α) (n : Nat) :
    ∑ k in Finset.range (n + 1),
        g k * ((if 1 ≤ k then f k - f (k - 1) else 0) +
          (if k + 1 < n + 1 then f k - f (k + 1) else 0)) =
      ∑ k in Finset.range n, (g k - g (k + 1)) * (f k - f (k + 1)) := by
  induction n with
  | zero => simp
  | succ n ih =>
    conv_rhs => rw [Finset.sum_range_succ, ← ih, Finset.sum_range_succ]
    conv_lhs => rw [Finset.sum_range_succ, Finset.sum_range_succ]
    have hc : ∀ k ∈ Finset.range n,
        g k * ((if 1 ≤ k then f k - f (k - 1) else 0) +
          (if k + 1 < n + 1 + 1 then f k - f (k + 1) else 0)) =
        g k * ((if 1 ≤ k then f k - f (k - 1) else 0) +
          (if k + 1 < n + 1 then f k - f (k + 1) else 0)) := by
      intro k hk
      have hk' := Finset.mem_range.mp hk
      rw [if_pos (by omega : k + 1 < n + 1 + 1), if_pos (by omega : k + 1 < n + 1)]
    rw [Finset.sum_congr rfl hc]
    simp only [lt_self_iff_false, if_false, Nat.lt_succ_self, if_true, add_zero,
      Nat.add_sub_cancel, Nat.le_add_left, le_add_iff_nonneg_left, zero_le, if_true]
    ring

/-- The stencil as a bilinear form: `sum_i w[i] * stencil(v)[i]` is the sum over the grid
edges of the products of the differences of `w` and `v`. -/
theorem bilinear_grid {α : Type} [Field α] (n : Nat) (w v : Nat → α) :
    ∑ y in Finset.range (n + 1), ∑ x in Finset.range (n + 1),
        w (y * (n + 1) + x) * stencil (n + 1) v y x =
      (∑ y in Finset.range (n + 1), ∑ x in Finset.range n,
        (w (y * (n + 1) + x) - w (y * (n + 1) + (x + 1))) *
          (v (y * (n + 1) + x) - v (y * (n + 1) + (x + 1)))) +
      ∑ x in Finset.range (n + 1), ∑ y in Finset.range n,
        (w (y * (n + 1) + x) - w ((y + 1) * (n + 1) + x)) *
          (v (y * (n + 1) + x) - v ((y + 1) * (n + 1) + x)) := by
  have hsplit : ∀ y x, w (y * (n + 1) + x) * stencil (n + 1) v y x =
      (fun x => w (y * (n + 1) + x)) x *
        ((if 1 ≤ x then (fun x => v (y * (n + 1) + x)) x - (fun x => v (y * (n + 1) + x)) (x - 1)
            else 0) +
          (if x + 1 < n + 1 then
            (fun x => v (y * (n + 1) + x)) x - (fun x => v (y * (n + 1) + x)) (x + 1) else 0)) +
      (fun y => w (y * (n + 1) + x)) y *
        ((if 1 ≤ y then (fun y => v (y * (n + 1) + x)) y - (fun y => v (y * (n + 1) + x)) (y - 1)
            else 0) +
          (if y + 1 < n + 1 then
            (fun y => v (y * (n + 1) + x)) y - (fun y => v (y * (n + 1) + x)) (y + 1) else 0)) := by
    intro y x
    simp only [stencil]
    ring
  simp only [hsplit, Finset.sum_add_distrib]
  congr 1
  · apply Finset.sum_congr rfl
    intro y _
    exact bilinear_line (fun x => w (y * (n + 1) + x)) (fun x => v (y * (n + 1) + x)) n
  · rw [Finset.sum_comm]
    apply Finset.sum_congr rfl
    intro x _
    exact bilinear_line (fun y => w (y * (n + 1) + x)) (fun y => v (y * (n + 1) + x)) n

/-- The stencil rows sum to zero against any field: the columns of the stencil matrix sum
to zero as well. -/
theorem sum_stencil_eq_zero {α : Type} [Field α] (N : Nat) (v : Nat → α) :
    ∑ y in Finset.range N, ∑ x in Finset.range N, stencil N v y x = 0 := by
  rcases N with _ | n
  · simp
  have h := bilinear_grid n (fun _ => (1 : α)) v
  simp only [one_mul, sub_self, zero_mul, Finset.sum_const_zero, add_zero] at h
  exact h

/-- The sum of all rows of `A v`: only the anchor survives. -/
theorem sum_matVec_poissonMatrix {α : Type} [Field α] (N : Nat) (hN : 0 < N) (v : Nat → α) :
    ∑ i in Finset.range (N * N), matVec (poissonMatrix N) (N * N) v i = v 0 := by
  rw [sum_cells N _ N]
  have hc : ∀ y ∈ Finset.range N, ∑ x in Finset.range N,
      matVec (poissonMatrix N) (N * N) v (y * N + x) =
      ∑ x in Finset.range N, (stencil N v y x + if y * N + x = 0 then v 0 else 0) := by
    intro y hy
    apply Finset.sum_congr rfl
    intro x hx
    exact matVec_poissonMatrix N y x (Finset.mem_range.mp hy) (Finset.mem_range.mp hx) v
  rw [Finset.sum_congr rfl hc]
  simp only [Finset.sum_add_distrib]
  rw [sum_stencil_eq_zero, zero_add, Finset.sum_eq_single 0]
  · rw [Finset.sum_eq_single 0]
    · simp
    · intro x _ hx
      rw [if_neg (by omega)]
    · intro h0
      exact absurd (Finset.mem_range.mpr hN) h0
  · intro y _ hy
    apply Finset.sum_eq_zero
    intro x _
    have : y * N + x ≠ 0 := by
      have : 0 < y * N := Nat.mul_pos (Nat.pos_of_ne_zero hy) hN
      omega
    rw [if_neg this]
  · intro h0
    exact absurd (Finset.mem_range.mpr hN) h0

/-- Every solution of the assembled system takes at cell `(0, 0)` the sum of the entries
of the right-hand side vector. -/
theorem solution_at_anchor {α : Type} [Field α] (N : Nat) (hN : 0 < N) (b : Nat → Nat → α)
    (v : Nat → α) (hv : IsPoissonSolution N b v) :
    v 0 = ∑ i in Finset.range (N * N), poissonRhs N b i := by
  rw [← sum_matVec_poissonMatrix N hN v]
  apply Finset.sum_congr rfl
  intro i hi
  exact hv i (Finset.mem_range.mp hi)

/-! ## C14: the anchor -/

theorem poissonRhs_zero {α : Type} [Field α] (N : Nat) (b : Nat → Nat → α) :
    poissonRhs N b 0 = 0 := by
  unfold poissonRhs
  rw [Function.update_same]

/-- Row 0 of the final matrix: the stencil row of cell `(0, 0)` with 1 added on the
diagonal. -/
theorem poissonMatrix_row_zero {α : Type} [Field α] (N y' x' : Nat) (hN : 0 < N)
    (hy' : y' < N) (hx' : x' < N) :
    (poissonMatrix N 0 (y' * N + x') : α) =
      if y' = 0 ∧ x' = 0 then (neighbourCount N 0 0 : α) + 1
      else if isNeighbour 0 0 y' x' then -1 else 0 := by
  have e := stencilMatrix_entry (α := α) N 0 0 y' x' hN hN hy' hx'
  simp only [Nat.zero_mul, Nat.add_zero] at e
  rw [poissonMatrix_eq, e]
  by_cases hd : y' = 0 ∧ x' = 0
  · obtain ⟨rfl, rfl⟩ := hd
    simp
  · have hne : ¬ (y' * N + x' = 0) := by
      intro h
      apply hd
      have h1 : y' * N = 0 := by omega
      have h2 : x' = 0 := by omega
      rcases Nat.mul_eq_zero.mp h1 with h3 | h3
      · exact ⟨h3, h2⟩
      · omega
    rw [if_neg hd, if_neg hd]
    simp [hne]

theorem anchorTestSol_solves : IsPoissonSolution 2 anchorTestRhs anchorTestSol := by
  intro i hi
  have hcell : ∀ y x, y < 2 → x < 2 →
      matVec (poissonMatrix 2) (2 * 2) anchorTestSol (y * 2 + x) =
        poissonRhs 2 anchorTestRhs (y * 2 + x) := by
    intro y x hy hx
    rw [matVec_poissonMatrix 2 y x hy hx, poissonRhs_cell 2 _ y x hy hx]
    interval_cases y <;> interval_cases x <;>
      simp [stencil, anchorTestSol, anchorTestRhs] <;> norm_num
  have := hcell (i / 2) (i % 2) (by omega) (Nat.mod_lt _ (by norm_num))
  rwa [Nat.div_add_mod' i 2] at this

/-- The row of the anchor cell in the assembled matrix, for every `N`: the anchor triplet
does not overwrite row 0 but adds 1 to its diagonal entry. `A[0,0]` is the number of
in-grid neighbours of cell `(0, 0)` plus 1 (3 for `N >= 2`, and 1 for `N = 1`), the other
entries of row 0 are `-1` at the in-grid neighbours of cell `(0, 0)` and 0 elsewhere; the
right-hand-side entry `b[0]` is 0, and every solution has `h[0,0]` equal to the sum of the
right-hand-side entries. -/
theorem anchor_row {α : Type} [Field α] (N y' x' : Nat) (hy' : y' < N) (hx' : x' < N)
    (b : Nat → Nat → α) (v : Nat → α) (hv : IsPoissonSolution N b v) :
    ((poissonMatrix N 0 (y' * N + x') : α) =
      if y' = 0 ∧ x' = 0 then (neighbourCount N 0 0 : α) + 1
      else if isNeighbour 0 0 y' x' then -1 else 0) ∧
    (2 ≤ N → neighbourCount N 0 0 = 2 ∧ (poissonMatrix N 0 0 : α) = 3) ∧
    (N = 1 → neighbourCount N 0 0 = 0 ∧ (poissonMatrix N 0 0 : α) = 1) ∧
    poissonRhs N b 0 = 0 ∧
    v 0 = ∑ i in Finset.range (N * N), poissonRhs N b i := by
  have hN : 0 < N := by omega
  have h00 : (poissonMatrix N 0 0 : α) = (neighbourCount N 0 0 : α) + 1 := by
    have h := poissonMatrix_row_zero (α := α) N 0 0 hN hN hN
    rw [if_pos ⟨rfl, rfl⟩] at h
    simpa using h
  refine ⟨poissonMatrix_row_zero N y' x' hN hy' hx', ?_, ?_, poissonRhs_zero N b,
    solution_at_anchor N hN b v hv⟩
  · intro h2
    have hc : neighbourCount N 0 0 = 2 := by
      unfold neighbourCount
      split_ifs <;> omega
    refine ⟨hc, ?_⟩
    rw [h00, hc]
    norm_num
  · intro h1
    have hc : neighbourCount N 0 0 = 0 := by
      unfold neighbourCount
      split_ifs <;> omega
    refine ⟨hc, ?_⟩
    rw [h00, hc]
    norm_num

/-- C14, the code at `N = 2`: row 0 of the assembled matrix is not the pin equation.
`A[0,0]` is 3, not 1, and `A[0,1]` is `-1`, not 0 (so for every `N >= 2`): the triplet
`(0, 0, 1.0)` emplaced under `// Anchor` is summed with the stencil triplets of row 0.
With `b[0] = 0` and the right-hand side that is 1 at cell `(0, 1)`, the vector
`(1, 7/4, 5/4, 3/2)` solves the system, and every solution has `h[0,0] = 1`, not 0. -/
theorem anchor_row_not_pinned :
    (poissonMatrix 2 0 0 : ℚ) = 3 ∧ (poissonMatrix 2 0 1 : ℚ) = -1 ∧
      poissonRhs 2 anchorTestRhs 0 = 0 ∧
      IsPoissonSolution 2 anchorTestRhs anchorTestSol ∧ anchorTestSol 0 = 1 ∧
      (∀ v : Nat → ℚ, IsPoissonSolution 2 anchorTestRhs v → v 0 = 1) ∧
      (∀ N : Nat, 2 ≤ N → (poissonMatrix N 0 0 : ℚ) = 3 ∧ (poissonMatrix N 0 1 : ℚ) = -1) := by
  have hgen : ∀ N : Nat, 2 ≤ N →
      (poissonMatrix N 0 0 : ℚ) = 3 ∧ (poissonMatrix N 0 1 : ℚ) = -1 := by
    intro N hN
    have h00 : (poissonMatrix N 0 0 : ℚ) = (neighbourCount N 0 0 : ℚ) + 1 := by
      have h := poissonMatrix_row_zero (α := ℚ) N 0 0 (by omega) (by omega) (by omega)
      rw [if_pos ⟨rfl, rfl⟩] at h
      simpa using h
    have hc : neighbourCount N 0 0 = 2 := by
      unfold neighbourCount
      split_ifs <;> omega
    have h1 := poissonMatrix_row_zero (α := ℚ) N 0 1 (by omega) (by omega) (by omega)
    rw [if_neg (by decide), if_pos (by decide)] at h1
    simp only [Nat.zero_mul, Nat.zero_add] at h1
    refine ⟨?_, h1⟩
    rw [h00, hc]
    norm_num
  have hsum : ∑ i in Finset.range (2 * 2), poissonRhs 2 anchorTestRhs i = 1 := by
    rw [← solution_at_anchor 2 (by norm_num) anchorTestRhs anchorTestSol anchorTestSol_solves]
    rfl
  refine ⟨(hgen 2 le_rfl).1, (hgen 2 le_rfl).2, poissonRhs_zero 2 _, anchorTestSol_solves,
    rfl, fun v hv => ?_, hgen⟩
  rw [solution_at_anchor 2 (by norm_num) anchorTestRhs v hv, hsum]

/-! ## C19: the final matrix is symmetric positive definite -/

theorem poissonMatrix_symm {α : Type} [Field α] (N i j : Nat) (hi : i < N * N)
    (hj : j < N * N) : (poissonMatrix N i j : α) = poissonMatrix N j i := by
  have hN : 0 < N := by
    rcases Nat.eq_zero_or_pos N with h | h
    · subst h
      omega
    · exact h
  have hs := stencilMatrix_symm (α := α) N (i / N) (i % N) (j / N) (j % N)
    (Nat.div_lt_of_lt_mul hi) (Nat.mod_lt _ hN) (Nat.div_lt_of_lt_mul hj) (Nat.mod_lt _ hN)
  rw [Nat.div_add_mod' i N, Nat.div_add_mod' j N] at hs
  rw [poissonMatrix_eq, poissonMatrix_eq, hs]
  congr 1
  by_cases h : i = 0 ∧ j = 0
  · rw [if_pos h, if_pos ⟨h.2, h.1⟩]
  · rw [if_neg h, if_neg (fun hh : j = 0 ∧ i = 0 => h ⟨hh.2, hh.1⟩)]

/-- The quadratic form of the final matrix: the squared differences along the grid edges
plus the square of the pinned value. -/
theorem quadForm_eq {α : Type} [Field α] (n : Nat) (v : Nat → α) :
    ∑ i in Finset.range ((n + 1) * (n + 1)),
        v i * matVec (poissonMatrix (n + 1)) ((n + 1) * (n + 1)) v i =
      (∑ y in Finset.range (n + 1), ∑ x in Finset.range n,
        (v (y * (n + 1) + x) - v (y * (n + 1) + (x + 1))) *
          (v (y * (n + 1) + x) - v (y * (n + 1) + (x + 1)))) +
      (∑ x in Finset.range (n + 1), ∑ y in Finset.range n,
        (v (y * (n + 1) + x) - v ((y + 1) * (n + 1) + x)) *
          (v (y * (n + 1) + x) - v ((y + 1) * (n + 1) + x))) + v 0 * v 0 := by
  rw [sum_cells (n + 1) _ (n + 1), ← bilinear_grid n v v]
  have hc : ∀ y ∈ Finset.range (n + 1), ∑ x in Finset.range (n + 1),
      v (y * (n + 1) + x) * matVec (poissonMatrix (n + 1)) ((n + 1) * (n + 1)) v
        (y * (n + 1) + x) =
      ∑ x in Finset.range (n + 1), (v (y * (n + 1) + x) * stencil (n + 1) v y x +
        v (y * (n + 1) + x) * if y * (n + 1) + x = 0 then v 0 else 0) := by
    intro y hy
    apply Finset.sum_congr rfl
    intro x hx
    rw [matVec_poissonMatrix (n + 1) y x (Finset.mem_range.mp hy) (Finset.mem_range.mp hx) v,
      mul_add]
  rw [Finset.sum_congr rfl hc]
  simp only [Finset.sum_add_distrib]
  congr 1
  rw [Finset.sum_eq_single 0]
  · rw [Finset.sum_eq_single 0]
    · simp
    · intro x _ hx
      rw [if_neg (by omega), mul_zero]
    · intro h0
      exact absurd (Finset.mem_range.mpr (Nat.succ_pos n)) h0
  · intro y _ hy
    apply Finset.sum_eq_zero
    intro x _
    have : y * (n + 1) + x ≠ 0 := by
      have : 0 < y * (n + 1) := Nat.mul_pos (Nat.pos_of_ne_zero hy) (Nat.succ_pos n)
      omega
    rw [if_neg this, mul_zero]
  · intro h0
    exact absurd (Finset.mem_range.mpr (Nat.succ_pos n)) h0

/-- The quadratic form is non-negative and vanishes only on fields that are zero on the
grid. -/
theorem quadForm_pos {α : Type} [LinearOrderedField α] (N : Nat) (v : Nat → α)
    (hv : ∃ i, i < N * N ∧ v i ≠ 0) :
    0 < ∑ i in Finset.range (N * N), v i * matVec (poissonMatrix N) (N * N) v i := by
  rcases N with _ | n
  · obtain ⟨i, hi, -⟩ := hv
    omega
  rw [quadForm_eq]
  have hH : 0 ≤ ∑ y in Finset.range (n + 1), ∑ x in Finset.range n,
      (v (y * (n + 1) + x) - v (y * (n + 1) + (x + 1))) *
        (v (y * (n + 1) + x) - v (y * (n + 1) + (x + 1))) :=
    Finset.sum_nonneg (fun y _ => Finset.sum_nonneg (fun x _ => mul_self_nonneg _))
  have hV : 0 ≤ ∑ x in Finset.range (n + 1), ∑ y in Finset.range n,
      (v (y * (n + 1) + x) - v ((y + 1) * (n + 1) + x)) *
        (v (y * (n + 1) + x) - v ((y + 1) * (n + 1) + x)) :=
    Finset.sum_nonneg (fun x _ => Finset.sum_nonneg (fun y _ => mul_self_nonneg _))
  have h00 : 0 ≤ v 0 * v 0 := mul_self_nonneg _
  by_contra hle
  have hzero : (∑ y in Finset.range (n + 1), ∑ x in Finset.range n,
      (v (y * (n + 1) + x) - v (y * (n + 1) + (x + 1))) *
        (v (y * (n + 1) + x) - v (y * (n + 1) + (x + 1)))) +
      (∑ x in Finset.range (n + 1), ∑ y in Finset.range n,
        (v (y * (n + 1) + x) - v ((y + 1) * (n + 1) + x)) *
          (v (y * (n + 1) + x) - v ((y + 1) * (n + 1) + x))) + v 0 * v 0 = 0 := by
    linarith [not_lt.mp hle]
  have hH0 : ∑ y in Finset.range (n + 1), ∑ x in Finset.range n,
      (v (y * (n + 1) + x) - v (y * (n + 1) + (x + 1))) *
        (v (y * (n + 1) + x) - v (y * (n + 1) + (x + 1))) = 0 := by linarith
  have hV0 : ∑ x in Finset.range (n + 1), ∑ y in Finset.range n,
      (v (y * (n + 1) + x) - v ((y + 1) * (n + 1) + x)) *
        (v (y * (n + 1) + x) - v ((y + 1) * (n + 1) + x)) = 0 := by linarith
  have hv0 : v 0 = 0 := by
    have : v 0 * v 0 = 0 := by linarith
    exact mul_self_eq_zero.mp this
  rw [Finset.sum_eq_zero_iff_of_nonneg
    (fun y _ => Finset.sum_nonneg (fun x _ => mul_self_nonneg _))] at hH0
  rw [Finset.sum_eq_zero_iff_of_nonneg
    (fun x _ => Finset.sum_nonneg (fun y _ => mul_self_nonneg _))] at hV0
  have hrow : ∀ y, y < n + 1 → ∀ x, x < n → v (y * (n + 1) + x) = v (y * (n + 1) + (x + 1)) := by
    intro y hy x hx
    have h1 := hH0 y (Finset.mem_range.mpr hy)
    rw [Finset.sum_eq_zero_iff_of_nonneg (fun x _ => mul_self_nonneg _)] at h1
    exact sub_eq_zero.mp (mul_self_eq_zero.mp (h1 x (Finset.mem_range.mpr hx)))
  have hcol : ∀ x, x < n + 1 → ∀ y, y < n → v (y * (n + 1) + x) = v ((y + 1) * (n + 1) + x) := by
    intro x hx y hy
    have h1 := hV0 x (Finset.mem_range.mpr hx)
    rw [Finset.sum_eq_zero_iff_of_nonneg (fun y _ => mul_self_nonneg _)] at h1
    exact sub_eq_zero.mp (mul_self_eq_zero.mp (h1 y (Finset.mem_range.mpr hy)))
  have hfirst : ∀ y, y < n + 1 → v (y * (n + 1) + 0) = 0 := by
    intro y
    induction y with
    | zero =>
      intro _
      simpa using hv0
    | succ y ih =>
      intro hy
      rw [← hcol 0 (Nat.succ_pos n) y (by omega)]
      exact ih (by omega)
  have hall : ∀ y, y < n + 1 → ∀ x, x < n + 1 → v (y * (n + 1) + x) = 0 := by
    intro y hy x
    induction x with
    | zero =>
      intro _
      exact hfirst y hy
    | succ x ih =>
      intro hx
      rw [← hrow y hy x (by omega)]
      exact ih (by omega)
  obtain ⟨i, hi, hne⟩ := hv
  apply hne
  have := hall (i / (n + 1)) (Nat.div_lt_of_lt_mul hi) (i % (n + 1)) (Nat.mod_lt _ (Nat.succ_pos n))
  rwa [Nat.div_add_mod' i (n + 1)] at this

/-- Two fields with the same image under the final matrix agree on the grid. -/
theorem poissonMatrix_injective {α : Type} [LinearOrderedField α] (N : Nat) (v w : Nat → α)
    (h : ∀ i, i < N * N →
      matVec (poissonMatrix N) (N * N) v i = matVec (poissonMatrix N) (N * N) w i) :
    ∀ i, i < N * N → v i = w i := by
  have hker := stencil_kernel N (fun i => v i - w i) (by
    intro y hy x hx
    have h1 := h (y * N + x) (cell_lt N y x hy hx)
    rw [matVec_poissonMatrix N y x hy hx, matVec_poissonMatrix N y x hy hx] at h1
    rw [stencil_sub]
    by_cases h0 : y * N + x = 0
    · simp only [h0, if_true] at h1 ⊢
      linear_combination h1
    · simp only [h0, if_false, add_zero] at h1 ⊢
      linear_combination h1)
  intro i hi
  have hN : 0 < N := by
    rcases Nat.eq_zero_or_pos N with h | h
    · subst h
      omega
    · exact h
  have := hker (i / N) (Nat.div_lt_of_lt_mul hi) (i % N) (Nat.mod_lt _ hN)
  rw [Nat.div_add_mod' i N] at this
  exact sub_eq_zero.mp this

/-- The final matrix is onto: every right-hand side has a solution. -/
theorem poissonMatrix_surjective (N : Nat) (rhs : Nat → ℝ) :
    ∃ v : Nat → ℝ, ∀ i, i < N * N → matVec (poissonMatrix N) (N * N) v i = rhs i := by
  let A : Matrix (Fin (N * N)) (Fin (N * N)) ℝ :=
    Matrix.of (fun i j => (poissonMatrix N i.val j.val : ℝ))
  have key : ∀ (w : Fin (N * N) → ℝ) (i : Fin (N * N)),
      A.mulVecLin w i =
        matVec (poissonMatrix N) (N * N)
          (fun k => if h : k < N * N then w ⟨k, h⟩ else 0) i.val := by
    intro w i
    rw [Matrix.mulVecLin_apply]
    unfold matVec
    rw [Finset.sum_range]
    simp only [Matrix.mulVec, Matrix.dotProduct, A, Matrix.of_apply]
    apply Finset.sum_congr rfl
    intro j _
    rw [dif_pos j.isLt]
  have hinj : Function.Injective A.mulVecLin := by
    rw [injective_iff_map_eq_zero]
    intro w hw
    have h0 : ∀ i, i < N * N →
        matVec (poissonMatrix N) (N * N)
            (fun k => if h : k < N * N then w ⟨k, h⟩ else 0) i =
          matVec (poissonMatrix N) (N * N) (fun _ => (0 : ℝ)) i := by
      intro i hi
      have h1 := key w ⟨i, hi⟩
      rw [hw] at h1
      rw [← h1]
      simp [matVec]
    have h2 := poissonMatrix_injective N _ _ h0
    funext i
    have h3 := h2 i.val i.isLt
    simp only [i.isLt, dif_pos] at h3
    exact h3
  have hsurj := LinearMap.surjective_of_injective hinj
  obtain ⟨w, hw⟩ := hsurj (fun i => rhs i.val)
  refine ⟨fun k => if h : k < N * N then w ⟨k, h⟩ else 0, ?_⟩
  intro i hi
  rw [← key w ⟨i, hi⟩, hw]

/-- C19: for every `N >= 1`, the final matrix assembled by `SolvePoisson` (the 5-point
matrix with the anchor triplet `(0, 0, 1.0)` summed into the diagonal) is symmetric and
positive definite over the reals, and the system has exactly one solution (on the `N * N`
cells) for every right-hand side. -/
theorem poissonMatrix_spd (N : Nat) (_hN : 1 ≤ N) :
    (∀ i j, i < N * N → j < N * N → (poissonMatrix N i j : ℝ) = poissonMatrix N j i) ∧
    (∀ v : Nat → ℝ, (∃ i, i < N * N ∧ v i ≠ 0) →
      0 < ∑ i in Finset.range (N * N), v i * matVec (poissonMatrix N) (N * N) v i) ∧
    (∀ rhs : Nat → ℝ, ∃ v : Nat → ℝ,
      (∀ i, i < N * N → matVec (poissonMatrix N) (N * N) v i = rhs i) ∧
      ∀ w : Nat → ℝ, (∀ i, i < N * N → matVec (poissonMatrix N) (N * N) w i = rhs i) →
        ∀ i, i < N * N → w i = v i) ∧
    (∀ b : Nat → Nat → ℝ, ∃ v : Nat → ℝ, IsPoissonSolution N b v ∧
      ∀ w : Nat → ℝ, IsPoissonSolution N b w → ∀ i, i < N * N → w i = v i) := by
  have hex : ∀ rhs : Nat → ℝ, ∃ v : Nat → ℝ,
      (∀ i, i < N * N → matVec (poissonMatrix N) (N * N) v i = rhs i) ∧
      ∀ w : Nat → ℝ, (∀ i, i < N * N → matVec (poissonMatrix N) (N * N) w i = rhs i) →
        ∀ i, i < N * N → w i = v i := by
    intro rhs
    obtain ⟨v, hv⟩ := poissonMatrix_surjective N rhs
    refine ⟨v, hv, fun w hw => ?_⟩
    exact poissonMatrix_injective N w v (fun i hi => (hw i hi).trans (hv i hi).symm)
  refine ⟨fun i j hi hj => poissonMatrix_symm N i j hi hj, fun v hv => quadForm_pos N v hv,
    hex, fun b => hex (poissonRhs N b)⟩

/-- The `2 x 2` system: the matrix is symmetric at `(0, 1)`, and the system for
`anchorTestRhs` has a solution. -/
theorem poissonMatrix_spd_witness :
    1 ≤ 2 ∧ (poissonMatrix 2 0 1 : ℝ) = poissonMatrix 2 1 0 ∧
    (0 : ℝ) < ∑ i in Finset.range (2 * 2),
      (if i = 0 then (1 : ℝ) else 0) *
        matVec (poissonMatrix 2) (2 * 2) (fun i => if i = 0 then (1 : ℝ) else 0) i ∧
    ∃ v : Nat → ℝ, IsPoissonSolution 2 (fun y x => ((anchorTestRhs y x : ℚ) : ℝ)) v :=
  have h := poissonMatrix_spd 2 (by norm_num)
  ⟨by norm_num, h.1 0 1 (by norm_num) (by norm_num),
    h.2.1 (fun i => if i = 0 then (1 : ℝ) else 0) ⟨0, by norm_num, by norm_num⟩,
    (h.2.2.2 (fun y x => ((anchorTestRhs y x : ℚ) : ℝ))).imp (fun _ hv => hv.1)⟩

end n2d
